import Mathlib

/-!
Shallow embedding of the pgnumeric decimal library (src/src/numeric.c, compiled
configuration NBASE = 10000, DEC_DIGITS = 4) together with proofs about the
claims of the specification.

Modelling conventions
* A C `numeric` variable is modelled by the structure `numeric` below.  The
  digit buffer (`buf`/`digits`/`ndigits`) is modelled as the list of digits in
  use; `ndigits` is the length of that list.  The spare leading slot that
  `alloc_var`/`set_var_from_var` reserve (always zero) is modelled implicitly:
  `round_var` may cons one extra digit, exactly as the C code decrements the
  `digits` pointer into the spare slot.
* C `int` arithmetic is modelled by `Int` together with `Int.tdiv`/`Int.tmod`
  (truncating division, the semantics of C's `/` and `%`).  No intermediate
  computation of the modelled routines can overflow a 32-bit int on the
  modelled paths (the original code relies on the same headroom).
* Out-parameters plus `numeric_errcode_t` results are modelled by
  `Except numeric_errcode`; `Except.ok` corresponds to `NUMERIC_ERRCODE_NO_ERROR`.
  `malloc` failure (`NUMERIC_ERRCODE_OUT_OF_MEMORY`) is not modelled: allocation
  is assumed to succeed.
* `make_result`'s zero path calls `zero_var(result)`, which does not write the
  caller-supplied result struct's `dscale` field; the packed zero therefore
  keeps whatever `dscale` the output struct held before the call (0 for a
  freshly `numeric_init`-ed struct).  This prior value is made explicit as the
  `prevDscale` argument of `make_result` and of every public operation that
  packs its result.
-/

/-- Radix of the digit representation (`NBASE` in numeric.h, configuration
`DEC_DIGITS == 4`). -/
def NBASE : Int := 10000

/-- Half the radix (`HALF_NBASE`). -/
def HALF_NBASE : Int := 5000

/-- Decimal digits per base-NBASE digit (`DEC_DIGITS`). -/
def DEC_DIGITS : Int := 4

/-- Guard digits for multiplication (`MUL_GUARD_DIGITS`). -/
def MUL_GUARD_DIGITS : Int := 2

/-- Guard digits for the fast division (`DIV_GUARD_DIGITS`). -/
def DIV_GUARD_DIGITS : Int := 4

/-- Hardcoded precision limit (`NUMERIC_MAX_PRECISION`). -/
def NUMERIC_MAX_PRECISION : Int := 1000

/-- Maximum display scale (`NUMERIC_MAX_DISPLAY_SCALE`). -/
def NUMERIC_MAX_DISPLAY_SCALE : Int := 1000

/-- Minimum display scale (`NUMERIC_MIN_DISPLAY_SCALE`). -/
def NUMERIC_MIN_DISPLAY_SCALE : Int := 0

/-- Maximum result scale (`NUMERIC_MAX_RESULT_SCALE = NUMERIC_MAX_PRECISION * 2`). -/
def NUMERIC_MAX_RESULT_SCALE : Int := 2000

/-- Minimum significant digits for inexact results (`NUMERIC_MIN_SIG_DIGITS`). -/
def NUMERIC_MIN_SIG_DIGITS : Int := 16

/-- Sign code for positive values (`NUMERIC_POS`). -/
def NUMERIC_POS : Int := 0x0000

/-- Sign code for negative values (`NUMERIC_NEG`). -/
def NUMERIC_NEG : Int := 0x4000

/-- Sign code for NaN (`NUMERIC_NAN`). -/
def NUMERIC_NAN : Int := 0xC000

/-- Smallest value of a C `int16_t`. -/
def INT16_MIN : Int := -32768

/-- Largest value of a C `int16_t`. -/
def INT16_MAX : Int := 32767

deriving instance DecidableEq for Except

/-- Error taxonomy `numeric_errcode_t` (without `NO_ERROR`, which is modelled
by `Except.ok`). -/
inductive numeric_errcode where
  | DIVISION_BY_ZERO
  | INVALID_ARGUMENT
  | NUMERIC_VALUE_OUT_OF_RANGE
  | OUT_OF_MEMORY
  deriving DecidableEq, Repr

/-- The struct `numeric` of numeric.h: sign, weight, display scale and the
base-NBASE digits in use (most significant first).  `ndigits` is the length
of `digits`. -/
structure numeric where
  weight : Int
  sign : Int
  dscale : Int
  digits : List Int
  deriving DecidableEq, Repr

/-- Number of digits in use (`ndigits` field of the C struct). -/
def numeric.ndigits (n : numeric) : Int := n.digits.length

/-- Macro `NUMERIC_IS_NAN`: the sign is neither `NUMERIC_POS` nor `NUMERIC_NEG`. -/
def NUMERIC_IS_NAN (n : numeric) : Bool :=
  !(n.sign == NUMERIC_POS) && !(n.sign == NUMERIC_NEG)

/-- Macro `NUMERIC_IS_ZERO`: no digits in use. -/
def NUMERIC_IS_ZERO (n : numeric) : Bool := n.digits.isEmpty

/-- Preinitialized constant `const_zero`. -/
def const_zero : numeric :=
  { weight := 0, sign := NUMERIC_POS, dscale := 0, digits := [] }

/-- Preinitialized constant `const_one`. -/
def const_one : numeric :=
  { weight := 0, sign := NUMERIC_POS, dscale := 0, digits := [1] }

/-- Preinitialized constant `const_two`. -/
def const_two : numeric :=
  { weight := 0, sign := NUMERIC_POS, dscale := 0, digits := [2] }

/-- Preinitialized constant `const_nan`. -/
def const_nan : numeric :=
  { weight := 0, sign := NUMERIC_NAN, dscale := 0, digits := [] }

/-- Rounding powers table for `DEC_DIGITS == 4` (`round_powers`). -/
def round_powers : List Int := [0, 1000, 100, 10]

/-- Read a digit array at a (possibly out-of-range) index; out-of-range reads
yield 0.  This models the guarded reads `i >= 0 && i < ndigits` of the C code
and the zero padding of its work arrays. -/
def digAt (l : List Int) (i : Int) : Int :=
  if i < 0 then 0 else l.getD i.toNat 0

/-- Leading-zero stripping loop of `strip_var`: drop leading zero digits,
decrementing the weight once per dropped digit. -/
def strip_leading : List Int → Int → List Int × Int
  | [], w => ([], w)
  | d :: ds, w => if d = 0 then strip_leading ds (w - 1) else (d :: ds, w)

/-- Trailing-zero stripping loop of `strip_var`. -/
def strip_trailing (l : List Int) : List Int :=
  (l.reverse.dropWhile (fun d => d == 0)).reverse

/-- Function `strip_var`: strip leading and trailing zero digits; a value left
with no digits is normalized to the canonical zero (positive sign, weight 0).
`dscale` is not touched. -/
def strip_var (var : numeric) : numeric :=
  let p := strip_leading var.digits var.weight
  let ds2 := strip_trailing p.1
  if ds2.isEmpty then
    { var with sign := NUMERIC_POS, weight := 0, digits := [] }
  else
    { var with weight := p.2, digits := ds2 }

/-- Carry-propagation loop of `round_var` (`while (carry) ...`): walk the kept
digits from least significant to most significant, adding the carry; the loop
stops as soon as the carry is zero, leaving more significant digits untouched.
Returns the updated digits and the carry out of the most significant digit. -/
def propagate_carry : List Int → Int → List Int × Int
  | [], carry => ([], carry)
  | d :: ds, carry =>
    let p := propagate_carry ds carry
    if p.2 = 0 then (d :: p.1, 0)
    else
      let t := d + p.2
      if t ≥ NBASE then ((t - NBASE) :: p.1, 1) else (t :: p.1, 0)

/-- Function `round_var`: round the value to no more than `rscale` decimal
digits after the decimal point (half away from zero), setting `dscale` to
`rscale`.  A carry out of the most significant digit occupies the spare
buffer slot: one digit is prepended and the weight grows by one. -/
def round_var (var : numeric) (rscale : Int) : numeric :=
  let di := (var.weight + 1) * DEC_DIGITS + rscale
  if di < 0 then
    { var with sign := NUMERIC_POS, weight := 0, dscale := rscale, digits := [] }
  else
    let ndigits := Int.tdiv (di + DEC_DIGITS - 1) DEC_DIGITS
    let dimod := Int.tmod di DEC_DIGITS
    if ndigits < var.ndigits ∨ (ndigits = var.ndigits ∧ dimod > 0) then
      -- kc: digits left of the carry starting point, the already-rounded
      -- trailing digit (if any), and the carry.  In the intra-digit case the
      -- C loop index was pre-decremented, so carry propagation starts to the
      -- left of the intra-rounded digit.
      let kc : List Int × List Int × Int :=
        if dimod = 0 then
          (var.digits.take ndigits.toNat, [],
           if digAt var.digits ndigits ≥ HALF_NBASE then 1 else 0)
        else
          let pow10 := round_powers.getD dimod.toNat 0
          let last := digAt var.digits (ndigits - 1)
          let extra := Int.tmod last pow10
          let base := last - extra
          let dc : Int × Int :=
            if extra ≥ Int.tdiv pow10 2 then
              let t := base + pow10
              if t ≥ NBASE then (t - NBASE, 1) else (t, 0)
            else (base, 0)
          (var.digits.take (ndigits - 1).toNat, [dc.1], dc.2)
      let pc := propagate_carry kc.1 kc.2.2
      if pc.2 = 0 then
        { var with dscale := rscale, digits := pc.1 ++ kc.2.1 }
      else
        { var with dscale := rscale, weight := var.weight + 1,
                   digits := 1 :: (pc.1 ++ kc.2.1) }
    else
      { var with dscale := rscale }

/-- Function `trunc_var`: truncate (towards zero) at `rscale` decimal digits
after the decimal point, setting `dscale` to `rscale`. -/
def trunc_var (var : numeric) (rscale : Int) : numeric :=
  let di := (var.weight + 1) * DEC_DIGITS + rscale
  if di ≤ 0 then
    { var with sign := NUMERIC_POS, weight := 0, dscale := rscale, digits := [] }
  else
    let ndigits := Int.tdiv (di + DEC_DIGITS - 1) DEC_DIGITS
    if ndigits ≤ var.ndigits then
      let kept := var.digits.take ndigits.toNat
      let dimod := Int.tmod di DEC_DIGITS
      if dimod > 0 then
        let pow10 := round_powers.getD dimod.toNat 0
        let last := digAt kept (ndigits - 1)
        { var with dscale := rscale,
                   digits := kept.take (ndigits - 1).toNat ++ [last - Int.tmod last pow10] }
      else
        { var with dscale := rscale, digits := kept }
    else
      { var with dscale := rscale }

/-- Shared-weight digit walk and leftover scan of `cmp_abs_common` (the part
after the leading-digit loops, where both sides have equal weight or one side
has run out of digits). -/
def cmp_abs_tail : List Int → List Int → Int
  | x :: xs, y :: ys =>
    if x - y > 0 then 1
    else if x - y < 0 then -1
    else cmp_abs_tail xs ys
  | xs, [] => if xs.any (fun d => d != 0) then 1 else 0
  | [], ys => if ys.any (fun d => d != 0) then -1 else 0

/-- Function `cmp_abs_common`: compare two absolute values given as digit
lists with weights.  First walk the leading positions of the higher-weight
side (any nonzero digit decides), then the shared range, then any remaining
digits. -/
def cmp_abs_common (d1 : List Int) (w1 : Int) (d2 : List Int) (w2 : Int) : Int :=
  if w1 > w2 then
    match d1 with
    | [] => if d2.any (fun d => d != 0) then -1 else 0
    | x :: xs => if x ≠ 0 then 1 else cmp_abs_common xs (w1 - 1) d2 w2
  else if w2 > w1 then
    match d2 with
    | [] => if d1.any (fun d => d != 0) then 1 else 0
    | y :: ys => if y ≠ 0 then -1 else cmp_abs_common d1 w1 ys (w2 - 1)
  else cmp_abs_tail d1 d2
  termination_by d1.length + d2.length

/-- Function `cmp_var_common`: signed comparison of two values given by
digits, weight and sign; zeroes are assumed stripped to no digits. -/
def cmp_var_common (d1 : List Int) (w1 s1 : Int) (d2 : List Int) (w2 s2 : Int) : Int :=
  if d1.length = 0 then
    if d2.length = 0 then 0
    else if s2 == NUMERIC_NEG then 1
    else -1
  else if d2.length = 0 then
    if s1 == NUMERIC_POS then 1 else -1
  else if s1 == NUMERIC_POS then
    if s2 == NUMERIC_NEG then 1
    else cmp_abs_common d1 w1 d2 w2
  else if s2 == NUMERIC_POS then -1
  else cmp_abs_common d2 w2 d1 w1

/-- Function `cmp_var`: comparison at variable level. -/
def cmp_var (var1 var2 : numeric) : Int :=
  cmp_var_common var1.digits var1.weight var1.sign var2.digits var2.weight var2.sign

/-- Function `cmp_abs`: compare the absolute values of two variables. -/
def cmp_abs (var1 var2 : numeric) : Int :=
  cmp_abs_common var1.digits var1.weight var2.digits var2.weight

/-- Function `cmp_numerics`: NaNs are equal to each other and larger than any
non-NaN; otherwise compare by `cmp_var_common`. -/
def cmp_numerics (num1 num2 : numeric) : Int :=
  if NUMERIC_IS_NAN num1 then
    if NUMERIC_IS_NAN num2 then 0 else 1
  else if NUMERIC_IS_NAN num2 then -1
  else
    cmp_var_common num1.digits num1.weight num1.sign num2.digits num2.weight num2.sign

/-- Public `numeric_cmp`. -/
def numeric_cmp (num1 num2 : numeric) : Int := cmp_numerics num1 num2

/-- Public `numeric_eq`. -/
def numeric_eq (num1 num2 : numeric) : Bool := cmp_numerics num1 num2 == 0

/-- Public `numeric_ne`. -/
def numeric_ne (num1 num2 : numeric) : Bool := !(cmp_numerics num1 num2 == 0)

/-- Public `numeric_gt`. -/
def numeric_gt (num1 num2 : numeric) : Bool := cmp_numerics num1 num2 > 0

/-- Public `numeric_ge`. -/
def numeric_ge (num1 num2 : numeric) : Bool := cmp_numerics num1 num2 ≥ 0

/-- Public `numeric_lt`. -/
def numeric_lt (num1 num2 : numeric) : Bool := cmp_numerics num1 num2 < 0

/-- Public `numeric_le`. -/
def numeric_le (num1 num2 : numeric) : Bool := cmp_numerics num1 num2 ≤ 0

/-- Function `make_result`: pack a working variable into the immutable result
form.  NaN overwrites the whole result with `const_nan`; otherwise leading and
trailing zero digits are stripped, a zero value is canonicalized by
`zero_var` (leaving the result struct's previous `dscale`, here `prevDscale`),
and the int16 ranges of weight and dscale are checked. -/
def make_result (var : numeric) (prevDscale : Int) : Except numeric_errcode numeric :=
  if NUMERIC_IS_NAN var then .ok const_nan
  else
    let p := strip_leading var.digits var.weight
    let ds2 := strip_trailing p.1
    if ds2.isEmpty then
      .ok { weight := 0, sign := NUMERIC_POS, dscale := prevDscale, digits := [] }
    else if p.2 < INT16_MIN ∨ INT16_MAX < p.2 ∨
            var.dscale < INT16_MIN ∨ INT16_MAX < var.dscale then
      .error .NUMERIC_VALUE_OUT_OF_RANGE
    else
      .ok { weight := p.2, sign := var.sign, dscale := var.dscale, digits := ds2 }

example : round_var { weight := 0, sign := NUMERIC_POS, dscale := 3, digits := [12, 3550] } 2 =
    { weight := 0, sign := NUMERIC_POS, dscale := 2, digits := [12, 3600] } := by
  decide

example : round_var { weight := 0, sign := NUMERIC_POS, dscale := 1, digits := [9999, 5000] } 0 =
    { weight := 1, sign := NUMERIC_POS, dscale := 0, digits := [1, 0] } := by
  decide

example : trunc_var { weight := 0, sign := NUMERIC_POS, dscale := 3, digits := [12, 3550] } 2 =
    { weight := 0, sign := NUMERIC_POS, dscale := 2, digits := [12, 3500] } := by
  decide

example : cmp_numerics const_nan const_one = 1 := by decide

example : strip_var { weight := 2, sign := NUMERIC_NEG, dscale := 0, digits := [0, 7, 0] } =
    { weight := 1, sign := NUMERIC_NEG, dscale := 0, digits := [7] } := by
  decide

/-- Largest value of a C `int` (`INT_MAX`). -/
def INT_MAX : Int := 2147483647

/-- Main loop of `add_abs`: positionally aligned digit addition with carry,
walked from the least significant output position (`i = res_ndigits - 1`) to
the most significant (`i = 0`).  The argument counts the output positions that
remain; position `i` reads `var1digits[i + o1]` and `var2digits[i + o2]`
(out-of-range reads contribute 0, as the C bounds checks do).  Returns the
output digits together with the final carry. -/
def add_abs_loop (d1 : List Int) (o1 : Int) (d2 : List Int) (o2 : Int) (N : Int) :
    Nat → List Int × Int
  | 0 => ([], 0)
  | k + 1 =>
    let p := add_abs_loop d1 o1 d2 o2 N k
    let i : Int := N - 1 - k
    let s := digAt d1 (i + o1) + digAt d2 (i + o2) + p.2
    if s ≥ NBASE then ((s - NBASE) :: p.1, 1) else (s :: p.1, 0)

/-- Function `add_abs`: add the absolute values of two variables.  The C code
does not set the result sign (the caller does); the returned sign field here
is a placeholder that every caller overwrites. -/
def add_abs (var1 var2 : numeric) : numeric :=
  let res_weight := max var1.weight var2.weight + 1
  let res_dscale := max var1.dscale var2.dscale
  let rscale1 := var1.ndigits - var1.weight - 1
  let rscale2 := var2.ndigits - var2.weight - 1
  let res_rscale := max rscale1 rscale2
  let res_ndigits0 := res_rscale + res_weight + 1
  let res_ndigits := if res_ndigits0 ≤ 0 then 1 else res_ndigits0
  let o1 := res_rscale + var1.weight + 1 - res_ndigits
  let o2 := res_rscale + var2.weight + 1 - res_ndigits
  let p := add_abs_loop var1.digits o1 var2.digits o2 res_ndigits res_ndigits.toNat
  strip_var { weight := res_weight, sign := NUMERIC_POS, dscale := res_dscale, digits := p.1 }

/-- Main loop of `sub_abs`: positionally aligned digit subtraction with
borrow, same geometry as `add_abs_loop`. -/
def sub_abs_loop (d1 : List Int) (o1 : Int) (d2 : List Int) (o2 : Int) (N : Int) :
    Nat → List Int × Int
  | 0 => ([], 0)
  | k + 1 =>
    let p := sub_abs_loop d1 o1 d2 o2 N k
    let i : Int := N - 1 - k
    let s := digAt d1 (i + o1) - digAt d2 (i + o2) + p.2
    if s < 0 then ((s + NBASE) :: p.1, -1) else (s :: p.1, 0)

/-- Function `sub_abs`: subtract `|var2|` from `|var1|`, the caller
guaranteeing `|var1| >= |var2|`.  As with `add_abs`, the sign is set by the
caller. -/
def sub_abs (var1 var2 : numeric) : numeric :=
  let res_weight := var1.weight
  let res_dscale := max var1.dscale var2.dscale
  let rscale1 := var1.ndigits - var1.weight - 1
  let rscale2 := var2.ndigits - var2.weight - 1
  let res_rscale := max rscale1 rscale2
  let res_ndigits0 := res_rscale + res_weight + 1
  let res_ndigits := if res_ndigits0 ≤ 0 then 1 else res_ndigits0
  let o1 := res_rscale + var1.weight + 1 - res_ndigits
  let o2 := res_rscale + var2.weight + 1 - res_ndigits
  let p := sub_abs_loop var1.digits o1 var2.digits o2 res_ndigits res_ndigits.toNat
  strip_var { weight := res_weight, sign := NUMERIC_POS, dscale := res_dscale, digits := p.1 }

/-- Function `add_var`: signed addition, dispatching on the operand signs and
on `cmp_abs` as the C code does. -/
def add_var (var1 var2 : numeric) : numeric :=
  if var1.sign == NUMERIC_POS then
    if var2.sign == NUMERIC_POS then
      { add_abs var1 var2 with sign := NUMERIC_POS }
    else
      let c := cmp_abs var1 var2
      if c = 0 then
        { weight := 0, sign := NUMERIC_POS,
          dscale := max var1.dscale var2.dscale, digits := [] }
      else if c > 0 then { sub_abs var1 var2 with sign := NUMERIC_POS }
      else { sub_abs var2 var1 with sign := NUMERIC_NEG }
  else
    if var2.sign == NUMERIC_POS then
      let c := cmp_abs var1 var2
      if c = 0 then
        { weight := 0, sign := NUMERIC_POS,
          dscale := max var1.dscale var2.dscale, digits := [] }
      else if c > 0 then { sub_abs var1 var2 with sign := NUMERIC_NEG }
      else { sub_abs var2 var1 with sign := NUMERIC_POS }
    else
      { add_abs var1 var2 with sign := NUMERIC_NEG }

/-- Function `sub_var`: signed subtraction, dispatching on the operand signs
and on `cmp_abs` as the C code does. -/
def sub_var (var1 var2 : numeric) : numeric :=
  if var1.sign == NUMERIC_POS then
    if var2.sign == NUMERIC_NEG then
      { add_abs var1 var2 with sign := NUMERIC_POS }
    else
      let c := cmp_abs var1 var2
      if c = 0 then
        { weight := 0, sign := NUMERIC_POS,
          dscale := max var1.dscale var2.dscale, digits := [] }
      else if c > 0 then { sub_abs var1 var2 with sign := NUMERIC_POS }
      else { sub_abs var2 var1 with sign := NUMERIC_NEG }
  else
    if var2.sign == NUMERIC_NEG then
      let c := cmp_abs var1 var2
      if c = 0 then
        { weight := 0, sign := NUMERIC_POS,
          dscale := max var1.dscale var2.dscale, digits := [] }
      else if c > 0 then { sub_abs var1 var2 with sign := NUMERIC_NEG }
      else { sub_abs var2 var1 with sign := NUMERIC_POS }
    else
      { add_abs var1 var2 with sign := NUMERIC_NEG }

/-- Function `ceil_var`: truncate toward zero at scale 0; a positive value
that differs from its truncation gets 1 added. -/
def ceil_var (var : numeric) : numeric :=
  let tmp := trunc_var var 0
  if var.sign == NUMERIC_POS && !(cmp_var var tmp == 0) then add_var tmp const_one
  else tmp

/-- Function `floor_var`: truncate toward zero at scale 0; a negative value
that differs from its truncation gets 1 subtracted. -/
def floor_var (var : numeric) : numeric :=
  let tmp := trunc_var var 0
  if var.sign == NUMERIC_NEG && !(cmp_var var tmp == 0) then sub_var tmp const_one
  else tmp

/-- Public `numeric_add`. -/
def numeric_add (num1 num2 : numeric) (prevDscale : Int) : Except numeric_errcode numeric :=
  if NUMERIC_IS_NAN num1 || NUMERIC_IS_NAN num2 then make_result const_nan prevDscale
  else make_result (add_var num1 num2) prevDscale

/-- Public `numeric_sub`. -/
def numeric_sub (num1 num2 : numeric) (prevDscale : Int) : Except numeric_errcode numeric :=
  if NUMERIC_IS_NAN num1 || NUMERIC_IS_NAN num2 then make_result const_nan prevDscale
  else make_result (sub_var num1 num2) prevDscale

/-- Public `numeric_round`: clamp the scale to the result-scale limits, round,
force a non-negative output dscale, pack. -/
def numeric_round (num : numeric) (scale : Int) (prevDscale : Int) :
    Except numeric_errcode numeric :=
  if NUMERIC_IS_NAN num then make_result const_nan prevDscale
  else
    let scale1 := max scale (-NUMERIC_MAX_RESULT_SCALE)
    let scale2 := min scale1 NUMERIC_MAX_RESULT_SCALE
    let arg := round_var num scale2
    let arg2 := if scale2 < 0 then { arg with dscale := 0 } else arg
    make_result arg2 prevDscale

/-- Public `numeric_trunc`: clamp the scale, truncate, force a non-negative
output dscale, pack. -/
def numeric_trunc (num : numeric) (scale : Int) (prevDscale : Int) :
    Except numeric_errcode numeric :=
  if NUMERIC_IS_NAN num then make_result const_nan prevDscale
  else
    let scale1 := max scale (-NUMERIC_MAX_RESULT_SCALE)
    let scale2 := min scale1 NUMERIC_MAX_RESULT_SCALE
    let arg := trunc_var num scale2
    let arg2 := if scale2 < 0 then { arg with dscale := 0 } else arg
    make_result arg2 prevDscale

/-- Public `numeric_ceil`. -/
def numeric_ceil (num : numeric) (prevDscale : Int) : Except numeric_errcode numeric :=
  if NUMERIC_IS_NAN num then make_result const_nan prevDscale
  else make_result (ceil_var num) prevDscale

/-- Public `numeric_floor`. -/
def numeric_floor (num : numeric) (prevDscale : Int) : Except numeric_errcode numeric :=
  if NUMERIC_IS_NAN num then make_result const_nan prevDscale
  else make_result (floor_var num) prevDscale

/-- Public `numeric_min`: uses `cmp_numerics`, so NaN counts as larger than
every non-NaN value. -/
def numeric_min (num1 num2 : numeric) (prevDscale : Int) : Except numeric_errcode numeric :=
  if cmp_numerics num1 num2 < 0 then make_result num1 prevDscale
  else make_result num2 prevDscale

/-- Public `numeric_max`: uses `cmp_numerics`, so NaN counts as larger than
every non-NaN value. -/
def numeric_max (num1 num2 : numeric) (prevDscale : Int) : Except numeric_errcode numeric :=
  if cmp_numerics num1 num2 > 0 then make_result num1 prevDscale
  else make_result num2 prevDscale

/-- Array read at a (possibly out-of-range) C index; the work arrays of
`mul_var` and `div_var` only read in-bounds positions, which the calloc
initialization keeps at 0. -/
def aget (a : Array Int) (i : Int) : Int :=
  if i < 0 then 0 else a.getD i.toNat 0

/-- Array write at a C index (in-bounds on all modelled paths). -/
def aset (a : Array Int) (i : Int) (v : Int) : Array Int :=
  if i < 0 then a else a.setD i.toNat v

/-- Carry-normalization pass of `mul_var` (`for (i = res_ndigits - 1; i >= 0;
i--)`), used both when `maxdig` threatens to overflow and as the final pass.
The carry out of position 0 is dropped, as in the C code (where
`Assert(carry == 0)` is compiled out). -/
def mul_carry_pass (dig : Array Int) (i : Nat) (carry : Int) : Array Int :=
  let newdig := aget dig i + carry
  let c2 := if newdig ≥ NBASE then Int.tdiv newdig NBASE else 0
  let dig2 := aset dig i (newdig - c2 * NBASE)
  match i with
  | 0 => dig2
  | j + 1 => mul_carry_pass dig2 j c2

/-- Inner loop of `mul_var`: add `var1digit` times the digits of `var2`
(processed least significant first, i.e. the reversed digit list) into the
accumulator at descending positions starting at `ri`. -/
def mul_add_row : Array Int → Int → List Int → Int → Array Int
  | dig, _, [], _ => dig
  | dig, v1d, d :: ds, i => mul_add_row (aset dig i (aget dig i + v1d * d)) v1d ds (i - 1)

/-- Outer loop of `mul_var` over the digits of `var1` (processed least
significant first, i.e. the reversed, possibly shortened digit list), with the
`maxdig` bound bookkeeping that triggers intermediate carry-normalization
sweeps. -/
def mul_main (v2r : List Int) (res_nd : Nat) : List Int → Array Int → Int → Int → Array Int
  | [], dig, _, _ => dig
  | v1d :: rest, dig, ri, maxdig =>
    if v1d = 0 then mul_main v2r res_nd rest dig (ri - 1) maxdig
    else
      let maxdig2 := maxdig + v1d
      let p : Array Int × Int :=
        if maxdig2 > Int.tdiv INT_MAX (NBASE - 1) then
          (mul_carry_pass dig (res_nd - 1) 0, 1 + v1d)
        else (dig, maxdig2)
      mul_main v2r res_nd rest (mul_add_row p.1 v1d v2r ri) (ri - 1) p.2

/-- Function `mul_var`: schoolbook multiplication with postponed carries; the
result is rounded to `rscale` fractional decimal digits and stripped.  When
the requested scale makes low-order input digits irrelevant, the operand digit
counts are shortened (`maxdigits` logic) before multiplying. -/
def mul_var (var1 var2 : numeric) (rscale : Int) : numeric :=
  if var1.ndigits = 0 ∨ var2.ndigits = 0 then
    { weight := 0, sign := NUMERIC_POS, dscale := rscale, digits := [] }
  else
    let res_sign := if var1.sign = var2.sign then NUMERIC_POS else NUMERIC_NEG
    let res_weight := var1.weight + var2.weight + 2
    let res_ndigits0 := var1.ndigits + var2.ndigits + 1
    let maxdigits := res_weight + 1 + rscale * DEC_DIGITS + MUL_GUARD_DIGITS
    if res_ndigits0 > maxdigits ∧ maxdigits < 3 then
      { weight := 0, sign := NUMERIC_POS, dscale := rscale, digits := [] }
    else
      let p : Int × Int × Int :=
        if res_ndigits0 > maxdigits then
          let maxdigits2 := if Int.tmod maxdigits 2 = 0 then maxdigits + 1 else maxdigits
          if var1.ndigits > var2.ndigits then
            let v1n := var1.ndigits - (res_ndigits0 - maxdigits2)
            if v1n < var2.ndigits then
              let avg := Int.tdiv (v1n + var2.ndigits) 2
              (maxdigits2, avg, avg)
            else (maxdigits2, v1n, var2.ndigits)
          else
            let v2n := var2.ndigits - (res_ndigits0 - maxdigits2)
            if v2n < var1.ndigits then
              let avg := Int.tdiv (var1.ndigits + v2n) 2
              (maxdigits2, avg, avg)
            else (maxdigits2, var1.ndigits, v2n)
        else (res_ndigits0, var1.ndigits, var2.ndigits)
      let res_ndigits := p.1
      let d1 := var1.digits.take p.2.1.toNat
      let d2 := var2.digits.take p.2.2.toNat
      let dig0 : Array Int := Array.mkArray res_ndigits.toNat 0
      let dig1 := mul_main d2.reverse res_ndigits.toNat d1.reverse dig0 (res_ndigits - 1) 0
      let digF := mul_carry_pass dig1 (res_ndigits.toNat - 1) 0
      let r : numeric :=
        { weight := res_weight, sign := res_sign, dscale := 0, digits := digF.toList }
      strip_var (round_var r rscale)

/-- Single-divisor-digit fast path of `div_var` (Knuth 4.3.1 exercise 16):
produce quotient digits with a running remainder. -/
def div_single_loop (div1 : Int) (dividend : Array Int) : Nat → Int → Int → List Int
  | 0, _, _ => []
  | k + 1, i, carry =>
    let c := carry * NBASE + aget dividend (i + 1)
    Int.tdiv c div1 :: div_single_loop div1 dividend k (i + 1) (Int.tmod c div1)

/-- Normalization multiply of `div_var` over `divisor[var2ndigits .. 1]`
(least significant first), scaling by `d` with carry. -/
def div_scale_divisor (arr : Array Int) (d : Int) : Nat → Int → Array Int
  | 0, _ => arr
  | i + 1, carry =>
    let c := carry + aget arr ((i : Int) + 1) * d
    div_scale_divisor (aset arr ((i : Int) + 1) (Int.tmod c NBASE)) d i (Int.tdiv c NBASE)

/-- Normalization multiply of `div_var` over `dividend[var1ndigits .. 0]`
(least significant first), scaling by `d` with carry; the leading slot 0
absorbs the final carry. -/
def div_scale_dividend (arr : Array Int) (d : Int) : Nat → Int → Array Int
  | 0, carry =>
    let c := carry + aget arr 0 * d
    aset arr 0 (Int.tmod c NBASE)
  | i + 1, carry =>
    let c := carry + aget arr ((i : Int) + 1) * d
    div_scale_dividend (aset arr ((i : Int) + 1) (Int.tmod c NBASE)) d i (Int.tdiv c NBASE)

/-- Adjustment loop for the estimated quotient digit
(`while (divisor2 * qhat > ...) qhat--`).  The fuel argument is `qhat + 1` at
the call site: for digit arrays in range the condition is false at
`qhat = 0`, so the C loop never decrements below zero and the fueled version
agrees with it. -/
def qhat_adjust (div1 div2 next2 d3 : Int) : Nat → Int → Int
  | 0, qhat => qhat
  | fuel + 1, qhat =>
    if div2 * qhat > (next2 - qhat * div1) * NBASE + d3 then
      qhat_adjust div1 div2 next2 d3 fuel (qhat - 1)
    else qhat

/-- Multiply-and-subtract step of `div_var`: subtract `qhat` times the divisor
from `dividend[j .. j + var2ndigits]`, walked least significant first, with
multiplication carry and subtraction borrow tracked in one pass.  Returns the
updated dividend and the final borrow. -/
def div_mulsub (divisor : Array Int) (qhat : Int) (j : Int) :
    Nat → Array Int → Int → Int → Array Int × Int
  | 0, dividend, carry, borrow =>
    let c := carry + aget divisor 0 * qhat
    let b := borrow - Int.tmod c NBASE + aget dividend j
    if b < 0 then (aset dividend j (b + NBASE), -1) else (aset dividend j b, 0)
  | i + 1, dividend, carry, borrow =>
    let ii : Int := (i : Int) + 1
    let c := carry + aget divisor ii * qhat
    let b := borrow - Int.tmod c NBASE + aget dividend (j + ii)
    if b < 0 then
      div_mulsub divisor qhat j i (aset dividend (j + ii) (b + NBASE)) (Int.tdiv c NBASE) (-1)
    else
      div_mulsub divisor qhat j i (aset dividend (j + ii) b) (Int.tdiv c NBASE) 0

/-- Add-back step of `div_var`, used when the estimated quotient digit was one
too large: add the divisor back into `dividend[j .. j + var2ndigits]`.  The
final carry (which cancels the borrow) is dropped as in the C code. -/
def div_addback (divisor : Array Int) (j : Int) : Nat → Array Int → Int → Array Int
  | 0, dividend, carry =>
    let c := carry + aget dividend j + aget divisor 0
    if c ≥ NBASE then aset dividend j (c - NBASE) else aset dividend j c
  | i + 1, dividend, carry =>
    let ii : Int := (i : Int) + 1
    let c := carry + aget dividend (j + ii) + aget divisor ii
    if c ≥ NBASE then
      div_addback divisor j i (aset dividend (j + ii) (c - NBASE)) 1
    else
      div_addback divisor j i (aset dividend (j + ii) c) 0

/-- Main loop of `div_var` (Knuth Algorithm 4.3.1D): produce one quotient
digit per position `j`. -/
def div_main_loop (divisor : Array Int) (n2 : Nat) (div1 div2 : Int) :
    Nat → Int → Array Int → List Int
  | 0, _, _ => []
  | k + 1, j, dividend =>
    let next2 := aget dividend j * NBASE + aget dividend (j + 1)
    if next2 = 0 then
      0 :: div_main_loop divisor n2 div1 div2 k (j + 1) dividend
    else
      let qhat0 := if aget dividend j = div1 then NBASE - 1 else Int.tdiv next2 div1
      let qhat := qhat_adjust div1 div2 next2 (aget dividend (j + 2)) (qhat0 + 1).toNat qhat0
      if qhat > 0 then
        let ms := div_mulsub divisor qhat j n2 dividend 0 0
        let p : Int × Array Int :=
          if ms.2 ≠ 0 then (qhat - 1, div_addback divisor j n2 ms.1 0)
          else (qhat, ms.1)
        p.1 :: div_main_loop divisor n2 div1 div2 k (j + 1) p.2
      else
        qhat :: div_main_loop divisor n2 div1 div2 k (j + 1) dividend

/-- Function `div_var`: exact long division.  Fails with DIVISION_BY_ZERO when
the divisor has no digits or a leading zero digit; a zero dividend yields the
canonical zero with `dscale = rscale`; otherwise quotient digits are produced
by the single-digit fast path or by Knuth's algorithm D (normalizing the
divisor so that its first digit is at least `NBASE/2`), then rounded or
truncated at `rscale` and stripped. -/
def div_var (var1 var2 : numeric) (rscale : Int) (round : Bool) :
    Except numeric_errcode numeric :=
  if var2.ndigits = 0 ∨ digAt var2.digits 0 = 0 then .error .DIVISION_BY_ZERO
  else if var1.ndigits = 0 then
    .ok { weight := 0, sign := NUMERIC_POS, dscale := rscale, digits := [] }
  else
    let res_sign := if var1.sign = var2.sign then NUMERIC_POS else NUMERIC_NEG
    let res_weight := var1.weight - var2.weight
    let res_ndigits1 := max (res_weight + 1 + Int.tdiv (rscale + DEC_DIGITS - 1) DEC_DIGITS) 1
    let res_ndigits := res_ndigits1 + (if round then 1 else 0)
    let div_ndigits := max (res_ndigits + var2.ndigits) var1.ndigits
    let dividend : Array Int :=
      ((0 : Int) :: var1.digits ++ List.replicate (div_ndigits - var1.ndigits).toNat 0).toArray
    let divisor0 : Array Int := ((0 : Int) :: var2.digits).toArray
    let res_digits : List Int :=
      if var2.ndigits = 1 then
        div_single_loop (aget divisor0 1) dividend res_ndigits.toNat 0 0
      else
        let p : Array Int × Array Int :=
          if aget divisor0 1 < HALF_NBASE then
            let d := Int.tdiv NBASE (aget divisor0 1 + 1)
            (div_scale_divisor divisor0 d var2.ndigits.toNat 0,
             div_scale_dividend dividend d var1.ndigits.toNat 0)
          else (divisor0, dividend)
        div_main_loop p.1 var2.ndigits.toNat (aget p.1 1) (aget p.1 2)
          res_ndigits.toNat 0 p.2
    let r : numeric :=
      { weight := res_weight, sign := res_sign, dscale := 0, digits := res_digits }
    let r2 := if round then round_var r rscale else trunc_var r rscale
    .ok (strip_var r2)

/-- Scan for the first nonzero digit of `select_div_scale`: returns the
normalized weight and first digit (both 0 for a value with no nonzero
digit). -/
def first_nonzero_scan : List Int → Int → Int × Int
  | [], _ => (0, 0)
  | d :: ds, weight => if d ≠ 0 then (weight, d) else first_nonzero_scan ds (weight - 1)

/-- Function `select_div_scale`: default result scale for division, at least
`NUMERIC_MIN_SIG_DIGITS` significant digits and not less than either input's
display scale, clamped to the display-scale limits. -/
def select_div_scale (var1 var2 : numeric) : Int :=
  let p1 := first_nonzero_scan var1.digits var1.weight
  let p2 := first_nonzero_scan var2.digits var2.weight
  let qweight0 := p1.1 - p2.1
  let qweight := if p1.2 ≤ p2.2 then qweight0 - 1 else qweight0
  let rscale0 := NUMERIC_MIN_SIG_DIGITS - qweight * DEC_DIGITS
  let rscale1 := max rscale0 var1.dscale
  let rscale2 := max rscale1 var2.dscale
  let rscale3 := max rscale2 NUMERIC_MIN_DISPLAY_SCALE
  min rscale3 NUMERIC_MAX_DISPLAY_SCALE

/-- Function `mod_var`: `mod(x, y) = x - trunc(x / y) * y`, with the
truncated quotient obtained from `div_var` at `rscale = 0` without
rounding. -/
def mod_var (var1 var2 : numeric) : Except numeric_errcode numeric :=
  match div_var var1 var2 0 false with
  | .error e => .error e
  | .ok tmp => .ok (sub_var var1 (mul_var var2 tmp var2.dscale))

/-- Public `numeric_mul`: exact product scale (sum of the input dscales). -/
def numeric_mul (num1 num2 : numeric) (prevDscale : Int) : Except numeric_errcode numeric :=
  if NUMERIC_IS_NAN num1 || NUMERIC_IS_NAN num2 then make_result const_nan prevDscale
  else make_result (mul_var num1 num2 (num1.dscale + num2.dscale)) prevDscale

/-- Public `numeric_div`: NaN propagation, then exact division at the scale
chosen by `select_div_scale`, with rounding. -/
def numeric_div (num1 num2 : numeric) (prevDscale : Int) : Except numeric_errcode numeric :=
  if NUMERIC_IS_NAN num1 || NUMERIC_IS_NAN num2 then make_result const_nan prevDscale
  else
    match div_var num1 num2 (select_div_scale num1 num2) true with
    | .error e => .error e
    | .ok r => make_result r prevDscale

/-- Public `numeric_div_trunc`: NaN propagation, then exact division truncated
to an integer (`rscale = 0`, no rounding). -/
def numeric_div_trunc (num1 num2 : numeric) (prevDscale : Int) :
    Except numeric_errcode numeric :=
  if NUMERIC_IS_NAN num1 || NUMERIC_IS_NAN num2 then make_result const_nan prevDscale
  else
    match div_var num1 num2 0 false with
    | .error e => .error e
    | .ok r => make_result r prevDscale

/-- Public `numeric_mod`: NaN propagation, then `mod_var`. -/
def numeric_mod (num1 num2 : numeric) (prevDscale : Int) : Except numeric_errcode numeric :=
  if NUMERIC_IS_NAN num1 || NUMERIC_IS_NAN num2 then make_result const_nan prevDscale
  else
    match mod_var num1 num2 with
    | .error e => .error e
    | .ok r => make_result r prevDscale

/-- C `isspace` for the ASCII execution character set. -/
def c_isspace (c : Char) : Bool :=
  c == ' ' || c == '\t' || c == '\n' || c == '\x0b' || c == '\x0c' || c == '\r'

/-- Test `pg_strncasecmp(cp, "NaN", 3) == 0`: the first three characters are
`NaN` up to ASCII case. -/
def starts_with_nan (cp : List Char) : Bool :=
  match cp with
  | a :: b :: c :: _ => a.toLower == 'n' && b.toLower == 'a' && c.toLower == 'n'
  | _ => false

/-- Digit-and-point loop of `set_var_from_str`.  Accumulates the decimal
digits (most significant first), tracking `dweight` (decimal weight of the
most significant digit) and `dscale`; a second decimal point is an error.
Returns the digits, dweight, dscale and the unconsumed rest of the string. -/
def parse_decdigits : List Char → Bool → Int → Int → List Int →
    Except numeric_errcode (List Int × Int × Int × List Char)
  | [], _, dweight, dscale, acc => .ok (acc.reverse, dweight, dscale, [])
  | c :: rest, have_dp, dweight, dscale, acc =>
    if c.isDigit then
      if !have_dp then
        parse_decdigits rest have_dp (dweight + 1) dscale (((c.toNat : Int) - 48) :: acc)
      else
        parse_decdigits rest have_dp dweight (dscale + 1) (((c.toNat : Int) - 48) :: acc)
    else if c == '.' then
      if have_dp then .error .INVALID_ARGUMENT
      else parse_decdigits rest true dweight dscale acc
    else .ok (acc.reverse, dweight, dscale, c :: rest)

/-- Digit loop of `strtol`. -/
def strtol_digits : List Char → Int → Int × List Char
  | [], acc => (acc, [])
  | c :: rest, acc =>
    if c.isDigit then strtol_digits rest (acc * 10 + ((c.toNat : Int) - 48))
    else (acc, c :: rest)

/-- C `strtol` in base 10: skip whitespace, optional sign, then digits.
Returns `none` when no digits follow (`endptr == cp`).  The value is kept
exact rather than clamped at `LONG_MAX`: the only use compares it against
`NUMERIC_MAX_PRECISION`, and clamping at `LONG_MAX`/`LONG_MIN` does not change
the outcome of that comparison. -/
def c_strtol (cp : List Char) : Option (Int × List Char) :=
  let cp1 := cp.dropWhile c_isspace
  match cp1 with
  | '-' :: rest =>
    match rest with
    | c :: _ => if c.isDigit then some ((strtol_digits rest 0).map Neg.neg id) else none
    | [] => none
  | '+' :: rest =>
    match rest with
    | c :: _ => if c.isDigit then some (strtol_digits rest 0) else none
    | [] => none
  | c :: _ => if c.isDigit then some (strtol_digits cp1 0) else none
  | [] => none

/-- NBASE-digit packing loop of `set_var_from_str`: combine four decimal
digits of the padded digit array (leading `DEC_DIGITS` zeros, trailing
`DEC_DIGITS - 1` zeros) into one base-NBASE digit, starting at index
`DEC_DIGITS - offset`. -/
def pack_decdigits (pad : List Int) (i : Int) : Nat → List Int
  | 0 => []
  | k + 1 =>
    (((digAt pad i * 10 + digAt pad (i + 1)) * 10 + digAt pad (i + 2)) * 10 + digAt pad (i + 3))
      :: pack_decdigits pad (i + 4) k

/-- Function `set_var_from_str`: parse a decimal string (sign, digits,
optional fraction, optional exponent) into a variable; returns the end
position so that the caller can check for trailing garbage. -/
def set_var_from_str (cp : List Char) :
    Except numeric_errcode (numeric × List Char) :=
  let sp : Int × List Char :=
    match cp with
    | '+' :: rest => (NUMERIC_POS, rest)
    | '-' :: rest => (NUMERIC_NEG, rest)
    | _ => (NUMERIC_POS, cp)
  let dp : Bool × List Char :=
    match sp.2 with
    | '.' :: rest => (true, rest)
    | _ => (false, sp.2)
  match dp.2 with
  | [] => .error .INVALID_ARGUMENT
  | c0 :: _ =>
    if !c0.isDigit then .error .INVALID_ARGUMENT
    else
      match parse_decdigits dp.2 dp.1 (-1) 0 [] with
      | .error e => .error e
      | .ok (decdigits, dweight0, dscale0, cp2) =>
        let ep : Except numeric_errcode (Int × Int × List Char) :=
          match cp2 with
          | 'e' :: rest =>
            match c_strtol rest with
            | none => .error .INVALID_ARGUMENT
            | some (exponent, cp3) =>
              if exponent > NUMERIC_MAX_PRECISION ∨ exponent < -NUMERIC_MAX_PRECISION then
                .error .INVALID_ARGUMENT
              else
                .ok (dweight0 + exponent, max (dscale0 - exponent) 0, cp3)
          | 'E' :: rest =>
            match c_strtol rest with
            | none => .error .INVALID_ARGUMENT
            | some (exponent, cp3) =>
              if exponent > NUMERIC_MAX_PRECISION ∨ exponent < -NUMERIC_MAX_PRECISION then
                .error .INVALID_ARGUMENT
              else
                .ok (dweight0 + exponent, max (dscale0 - exponent) 0, cp3)
          | _ => .ok (dweight0, dscale0, cp2)
        match ep with
        | .error e => .error e
        | .ok (dweight, dscale, cpEnd) =>
          let ddigits : Int := decdigits.length
          let weight :=
            if dweight ≥ 0 then Int.tdiv (dweight + 1 + DEC_DIGITS - 1) DEC_DIGITS - 1
            else -(Int.tdiv (-dweight - 1) DEC_DIGITS + 1)
          let offset := (weight + 1) * DEC_DIGITS - (dweight + 1)
          let ndigits := Int.tdiv (ddigits + offset + DEC_DIGITS - 1) DEC_DIGITS
          let pad := List.replicate 4 (0 : Int) ++ decdigits ++ List.replicate 3 (0 : Int)
          let digits := pack_decdigits pad (DEC_DIGITS - offset) ndigits.toNat
          let dest : numeric :=
            { weight := weight, sign := sp.1, dscale := dscale, digits := digits }
          .ok (strip_var dest, cpEnd)

/-- Scan of `check_bounds_and_round` that determines the true number of
decimal digits before the decimal point (correcting for leading zero digits
and for leading decimal zeros inside the first nonzero digit) and compares it
against `maxdigits`; the C loop breaks after the first nonzero digit. -/
def cbr_scan : List Int → Int → Int → Option numeric_errcode
  | [], _, _ => none
  | dig :: rest, ddigits, maxdigits =>
    if dig ≠ 0 then
      let dd :=
        if dig < 10 then ddigits - 3
        else if dig < 100 then ddigits - 2
        else if dig < 1000 then ddigits - 1
        else ddigits
      if dd > maxdigits then some .NUMERIC_VALUE_OUT_OF_RANGE else none
    else cbr_scan rest (ddigits - DEC_DIGITS) maxdigits

/-- Function `check_bounds_and_round`: for a non-negative precision, round the
value to `scale` and verify that it has no more than `precision - scale`
decimal digits before the decimal point.  Returns the (always) rounded value
together with the error, if any: the C function mutates its argument and
returns the error code separately. -/
def check_bounds_and_round (var : numeric) (precision scale : Int) :
    numeric × Option numeric_errcode :=
  if precision < 0 then (var, none)
  else
    let maxdigits := precision - scale
    let v2 := round_var var scale
    let ddigits := (v2.weight + 1) * DEC_DIGITS
    if ddigits > maxdigits then (v2, cbr_scan v2.digits ddigits maxdigits)
    else (v2, none)

/-- Public `numeric_from_str`: skip leading spaces, accept `NaN` (with only
spaces allowed after), otherwise parse, reject trailing garbage, apply
`check_bounds_and_round` and pack.  NOTE (faithful to the source): the
error code of `check_bounds_and_round` is computed and then discarded, so an
out-of-bounds value is returned rounded, with no error. -/
def numeric_from_str (str : List Char) (precision scale : Int) (prevDscale : Int) :
    Except numeric_errcode numeric :=
  let cp := str.dropWhile c_isspace
  if starts_with_nan cp then
    if (cp.drop 3).all c_isspace then make_result const_nan prevDscale
    else .error .INVALID_ARGUMENT
  else
    match set_var_from_str cp with
    | .error e => .error e
    | .ok (value, cpEnd) =>
      if !cpEnd.all c_isspace then .error .INVALID_ARGUMENT
      else
        make_result (check_bounds_and_round value precision scale).1 prevDscale

/-- Reduce to the value range of a C `int64_t` (two's complement wraparound;
the C code relies on wraparound for its overflow checks). -/
def wrap64 (x : Int) : Int := (x + 2 ^ 63) % 2 ^ 64 - 2 ^ 63

/-- Reduce to the value range of a C `int32_t` (the `(int32_t) val` cast). -/
def wrap32 (x : Int) : Int := (x + 2 ^ 31) % 2 ^ 32 - 2 ^ 31

/-- Accumulation loop of `numericvar_to_int64` over digit positions
`1 .. weight`, with the overflow check that accepts `INT64_MIN`. -/
def to_int64_loop (digits : List Int) (ndigits : Int) (neg : Bool) :
    Nat → Int → Int → Option Int
  | 0, _, val => some val
  | k + 1, i, val =>
    let oldval := val
    let val1 := wrap64 (val * NBASE)
    let val2 := if i < ndigits then wrap64 (val1 + digAt digits i) else val1
    if Int.tdiv val2 NBASE ≠ oldval ∧
        (!neg ∨ wrap64 (-val2) ≠ val2 ∨ val2 = 0 ∨ oldval < 0) then none
    else to_int64_loop digits ndigits neg k (i + 1) val2

/-- Function `numericvar_to_int64`: round to an integer, strip, then
accumulate the digits before the decimal point into an `int64_t`; `none`
models returning `false` on overflow. -/
def numericvar_to_int64 (var : numeric) : Option Int :=
  let v2 := strip_var (round_var var 0)
  if v2.digits.isEmpty then some 0
  else
    let neg := v2.sign == NUMERIC_NEG
    let val0 := digAt v2.digits 0
    match to_int64_loop v2.digits v2.ndigits neg v2.weight.toNat 1 val0 with
    | none => none
    | some val => some (if neg then wrap64 (-val) else val)

/-- Function `numericvar_to_int32`, faithful to the source: after the
`int64_t` conversion succeeds and the value is narrowed, the code tests
`(int64_t) result != val` where `result` is the `int32_t *` out-parameter —
it compares the pointer itself, not the stored value, against `val`.  The
machine address of the out-parameter is made explicit as `addr` (a valid
object address, in particular nonzero). -/
def numericvar_to_int32 (addr : Int) (var : numeric) : Except numeric_errcode Int :=
  match numericvar_to_int64 var with
  | none => .error .NUMERIC_VALUE_OUT_OF_RANGE
  | some val =>
    let result := wrap32 val
    if addr ≠ val then .error .NUMERIC_VALUE_OUT_OF_RANGE
    else .ok result

/-- Modelled from the spec: the intended overflow test of
`numericvar_to_int32` round-trips the stored 32-bit value
(`(int64_t) *result != val`) instead of comparing the pointer. -/
def numericvar_to_int32_corrected (var : numeric) : Except numeric_errcode Int :=
  match numericvar_to_int64 var with
  | none => .error .NUMERIC_VALUE_OUT_OF_RANGE
  | some val =>
    let result := wrap32 val
    if result ≠ val then .error .NUMERIC_VALUE_OUT_OF_RANGE
    else .ok result

/-- Public `numeric_to_int32`: NaN is INVALID_ARGUMENT; otherwise convert via
`numericvar_to_int32` (whose out-parameter lives at address `addr`). -/
def numeric_to_int32 (num : numeric) (addr : Int) : Except numeric_errcode Int :=
  if NUMERIC_IS_NAN num then .error .INVALID_ARGUMENT
  else numericvar_to_int32 addr num

/-- Integer-part extraction loop of `exp_var` (`while (x.weight >= 0) ...`):
pull base-NBASE digits at non-negative weights into `xintval`, failing with
VALUE_OUT_OF_RANGE as soon as the accumulator reaches
`NUMERIC_MAX_RESULT_SCALE * 3`. -/
def exp_var_intpart (weight : Int) (digits : List Int) (xint : Int) :
    Except numeric_errcode Int :=
  if weight < 0 then .ok xint
  else
    let p : Int × List Int :=
      match digits with
      | [] => (xint * NBASE, [])
      | d :: ds => (xint * NBASE + d, ds)
    if p.1 ≥ NUMERIC_MAX_RESULT_SCALE * 3 then .error .NUMERIC_VALUE_OUT_OF_RANGE
    else exp_var_intpart (weight - 1) p.2 p.1
  termination_by (weight + 1).toNat

/-- Error behaviour of `exp_var`: the sign is removed before the integer part
is extracted and bounded, so the guard applies to `|x|`.  After the guard, the
remainder of `exp_var` (Taylor series and argument reduction built on
`mul_var`, `power_var_int` and the float-estimated `div_var_fast`, whose
return codes `exp_var` discards) always returns NO_ERROR; its numeric result
is not modelled here.  The guard is therefore `exp_var`'s only error exit. -/
def exp_var_check (arg : numeric) : Except numeric_errcode Unit :=
  match exp_var_intpart arg.weight arg.digits 0 with
  | .error e => .error e
  | .ok _ => .ok ()

/-- Error behaviour of `numeric_exp`: NaN propagates with no error; otherwise
the scale-selection preamble (`numericvar_to_double_no_overflow`, which fails
only if `strtod` left trailing junk — impossible for strings produced by
`get_str_from_var`) succeeds and `exp_var` runs. -/
def numeric_exp_check (num : numeric) : Except numeric_errcode Unit :=
  if NUMERIC_IS_NAN num then .ok ()
  else exp_var_check num

/-! Helper lemmas about the embedded operations. -/

/-- All digits of a list are base-NBASE digits. -/
def digitsWF (l : List Int) : Prop := ∀ d ∈ l, 0 ≤ d ∧ d < NBASE

instance (l : List Int) : Decidable (digitsWF l) := by
  unfold digitsWF; infer_instance

theorem digAt_zero (l : List Int) : digAt l 0 = l.headD 0 := by
  cases l <;> simp [digAt]

theorem make_result_const_nan (p : Int) : make_result const_nan p = .ok const_nan := rfl

theorem make_result_ne_div_by_zero (v : numeric) (p : Int) :
    make_result v p ≠ .error .DIVISION_BY_ZERO := by
  intro h
  simp only [make_result] at h
  split_ifs at h
  simp_all

theorem div_var_err_iff (a b : numeric) (rscale : Int) (round : Bool) :
    div_var a b rscale round = .error .DIVISION_BY_ZERO ↔
      (b.ndigits = 0 ∨ digAt b.digits 0 = 0) := by
  constructor
  · intro h
    by_contra hc
    unfold div_var at h
    rw [if_neg hc] at h
    split at h <;> simp at h
  · intro h
    unfold div_var
    rw [if_pos h]

theorem div_var_ok_of_nonzero (a b : numeric) (rscale : Int) (round : Bool)
    (hb : ¬(b.ndigits = 0 ∨ digAt b.digits 0 = 0)) :
    ∃ r, div_var a b rscale round = .ok r := by
  unfold div_var
  rw [if_neg hb]
  split
  · exact ⟨_, rfl⟩
  · exact ⟨_, rfl⟩

theorem mod_var_err_iff (a b : numeric) :
    mod_var a b = .error .DIVISION_BY_ZERO ↔ (b.ndigits = 0 ∨ digAt b.digits 0 = 0) := by
  unfold mod_var
  constructor
  · intro h
    by_contra hc
    obtain ⟨r, hr⟩ := div_var_ok_of_nonzero a b 0 false hc
    rw [hr] at h
    simp at h
  · intro h
    rw [(div_var_err_iff a b 0 false).2 h]

theorem div_var_error (a b : numeric) (rscale : Int) (round : Bool) (e : numeric_errcode)
    (h : div_var a b rscale round = .error e) :
    e = .DIVISION_BY_ZERO ∧ (b.ndigits = 0 ∨ digAt b.digits 0 = 0) := by
  by_cases hc : b.ndigits = 0 ∨ digAt b.digits 0 = 0
  · refine ⟨?_, hc⟩
    unfold div_var at h
    rw [if_pos hc] at h
    exact (Except.error.inj h).symm
  · exfalso
    obtain ⟨r, hr⟩ := div_var_ok_of_nonzero a b rscale round hc
    rw [hr] at h
    exact Except.noConfusion h

theorem make_result_of_nan (v : numeric) (p : Int) (h : NUMERIC_IS_NAN v = true) :
    make_result v p = .ok const_nan := by
  simp only [make_result, h, if_true]

theorem numeric_div_dbz_iff (a b : numeric) (p : Int)
    (hna : NUMERIC_IS_NAN a = false) (hnb : NUMERIC_IS_NAN b = false) :
    numeric_div a b p = .error .DIVISION_BY_ZERO ↔
      (b.ndigits = 0 ∨ digAt b.digits 0 = 0) := by
  simp only [numeric_div, hna, hnb, Bool.or_self, Bool.false_eq_true, if_false]
  constructor
  · intro h
    by_cases hc : b.ndigits = 0 ∨ digAt b.digits 0 = 0
    · exact hc
    · exfalso
      obtain ⟨r, hr⟩ := div_var_ok_of_nonzero a b (select_div_scale a b) true hc
      rw [hr] at h
      exact make_result_ne_div_by_zero r p h
  · intro hc
    rw [(div_var_err_iff a b (select_div_scale a b) true).2 hc]

theorem numeric_div_trunc_dbz_iff (a b : numeric) (p : Int)
    (hna : NUMERIC_IS_NAN a = false) (hnb : NUMERIC_IS_NAN b = false) :
    numeric_div_trunc a b p = .error .DIVISION_BY_ZERO ↔
      (b.ndigits = 0 ∨ digAt b.digits 0 = 0) := by
  simp only [numeric_div_trunc, hna, hnb, Bool.or_self, Bool.false_eq_true, if_false]
  constructor
  · intro h
    by_cases hc : b.ndigits = 0 ∨ digAt b.digits 0 = 0
    · exact hc
    · exfalso
      obtain ⟨r, hr⟩ := div_var_ok_of_nonzero a b 0 false hc
      rw [hr] at h
      exact make_result_ne_div_by_zero r p h
  · intro hc
    rw [(div_var_err_iff a b 0 false).2 hc]

theorem numeric_mod_dbz_iff (a b : numeric) (p : Int)
    (hna : NUMERIC_IS_NAN a = false) (hnb : NUMERIC_IS_NAN b = false) :
    numeric_mod a b p = .error .DIVISION_BY_ZERO ↔
      (b.ndigits = 0 ∨ digAt b.digits 0 = 0) := by
  simp only [numeric_mod, hna, hnb, Bool.or_self, Bool.false_eq_true, if_false]
  constructor
  · intro h
    by_cases hc : b.ndigits = 0 ∨ digAt b.digits 0 = 0
    · exact hc
    · exfalso
      obtain ⟨r, hr⟩ := div_var_ok_of_nonzero a b 0 false hc
      unfold mod_var at h
      rw [hr] at h
      exact make_result_ne_div_by_zero _ p h
  · intro hc
    rw [(mod_var_err_iff a b).2 hc]

/-- C1: for `numeric_div`, `numeric_div_trunc` and `numeric_mod`, a NaN input
(including a NaN dividend with a zero divisor) yields NaN with no error, since
the NaN check precedes the zero check; for non-NaN normalized inputs the
operation fails with DIVISION_BY_ZERO exactly when the divisor has
`ndigits = 0`; and in `div_var` a zero dividend with a nonzero divisor yields
the canonical zero with `dscale` equal to the requested `rscale`. -/
theorem C1_division_error_discipline :
    (∀ a b p, (NUMERIC_IS_NAN a || NUMERIC_IS_NAN b) = true →
       numeric_div a b p = .ok const_nan ∧
       numeric_div_trunc a b p = .ok const_nan ∧
       numeric_mod a b p = .ok const_nan) ∧
    (∀ a b p, NUMERIC_IS_NAN a = false → NUMERIC_IS_NAN b = false →
       (b.digits ≠ [] → b.digits.headD 0 ≠ 0) →
       ((numeric_div a b p = .error .DIVISION_BY_ZERO ↔ b.ndigits = 0) ∧
        (numeric_div_trunc a b p = .error .DIVISION_BY_ZERO ↔ b.ndigits = 0) ∧
        (numeric_mod a b p = .error .DIVISION_BY_ZERO ↔ b.ndigits = 0))) ∧
    (∀ a b rscale round, a.ndigits = 0 →
       ¬(b.ndigits = 0 ∨ digAt b.digits 0 = 0) →
       div_var a b rscale round =
         .ok { weight := 0, sign := NUMERIC_POS, dscale := rscale, digits := [] }) := by
  refine ⟨?_, ?_, ?_⟩
  · intro a b p h
    refine ⟨?_, ?_, ?_⟩ <;>
      simp [numeric_div, numeric_div_trunc, numeric_mod, h, make_result_const_nan]
  · intro a b p hna hnb hwf
    have hz : (b.ndigits = 0 ∨ digAt b.digits 0 = 0) ↔ b.ndigits = 0 := by
      constructor
      · rintro (h | h)
        · exact h
        · by_contra hn
          have hne : b.digits ≠ [] := by
            intro he
            exact hn (by simp [numeric.ndigits, he])
          exact hwf hne (by rwa [digAt_zero] at h)
      · exact Or.inl
    exact ⟨(numeric_div_dbz_iff a b p hna hnb).trans hz,
           (numeric_div_trunc_dbz_iff a b p hna hnb).trans hz,
           (numeric_mod_dbz_iff a b p hna hnb).trans hz⟩
  · intro a b rscale round ha hb
    unfold div_var
    rw [if_neg hb, if_pos ha]

/-- Witness for C1 at concrete inputs: `NaN / 0 = NaN` with no error,
`1.243 / 0` is DIVISION_BY_ZERO, `1.243 / 0.2` is not, and `0 / 2` at
`rscale = 5` is the canonical zero with dscale 5. -/
theorem C1_division_error_discipline_witness :
    numeric_div const_nan const_zero 0 = .ok const_nan ∧
    (numeric_div { weight := 0, sign := NUMERIC_POS, dscale := 3, digits := [1, 2430] }
        const_zero 0 = .error .DIVISION_BY_ZERO ↔ const_zero.ndigits = 0) ∧
    div_var const_zero const_two 5 true =
      .ok { weight := 0, sign := NUMERIC_POS, dscale := 5, digits := [] } := by
  refine ⟨(C1_division_error_discipline.1 const_nan const_zero 0 (by decide)).1,
          (C1_division_error_discipline.2.1
            { weight := 0, sign := NUMERIC_POS, dscale := 3, digits := [1, 2430] }
            const_zero 0 (by decide) (by decide) (by decide)).1,
          C1_division_error_discipline.2.2 const_zero const_two 5 true (by decide)
            (by decide)⟩

/-- C2 counterexample: the claim asserts `min(NaN, x) = NaN`, but
`numeric_min` uses `cmp_numerics`, under which NaN is larger than every
non-NaN value, so `min(NaN, 1)` returns 1, not NaN. -/
theorem C2_min_nan_counterexample :
    numeric_min const_nan const_one 0 = .ok const_one ∧ const_one ≠ const_nan := by
  decide

/-- C2 as amended: add, sub, mul, div, div_trunc and mod return NaN whenever
at least one input is NaN, and so does max; min, however, returns NaN only
when both inputs are NaN — with exactly one NaN input it returns the other
operand (packed by `make_result`), because NaN sorts larger than every
non-NaN value. -/
theorem C2_nan_propagation_amended :
    (∀ a b p, (NUMERIC_IS_NAN a || NUMERIC_IS_NAN b) = true →
      numeric_add a b p = .ok const_nan ∧
      numeric_sub a b p = .ok const_nan ∧
      numeric_mul a b p = .ok const_nan ∧
      numeric_div a b p = .ok const_nan ∧
      numeric_div_trunc a b p = .ok const_nan ∧
      numeric_mod a b p = .ok const_nan ∧
      numeric_max a b p = .ok const_nan) ∧
    (∀ a b p, NUMERIC_IS_NAN a = true → NUMERIC_IS_NAN b = true →
      numeric_min a b p = .ok const_nan) ∧
    (∀ b p, NUMERIC_IS_NAN b = false → numeric_min const_nan b p = make_result b p) ∧
    (∀ a p, NUMERIC_IS_NAN a = false → numeric_min a const_nan p = make_result a p) := by
  refine ⟨?_, ?_, ?_, ?_⟩
  · intro a b p h
    refine ⟨?_, ?_, ?_, ?_, ?_, ?_, ?_⟩
    · simp [numeric_add, h, make_result_const_nan]
    · simp [numeric_sub, h, make_result_const_nan]
    · simp [numeric_mul, h, make_result_const_nan]
    · simp [numeric_div, h, make_result_const_nan]
    · simp [numeric_div_trunc, h, make_result_const_nan]
    · simp [numeric_mod, h, make_result_const_nan]
    · rcases Bool.or_eq_true_iff.mp h with ha | hb
      · by_cases hb : NUMERIC_IS_NAN b = true
        · simp [numeric_max, cmp_numerics, ha, hb, make_result_of_nan b p hb]
        · simp only [Bool.not_eq_true] at hb
          simp [numeric_max, cmp_numerics, ha, hb, make_result_of_nan a p ha]
      · by_cases ha : NUMERIC_IS_NAN a = true
        · simp [numeric_max, cmp_numerics, ha, hb, make_result_of_nan b p hb]
        · simp only [Bool.not_eq_true] at ha
          simp [numeric_max, cmp_numerics, ha, hb, make_result_of_nan b p hb]
  · intro a b p ha hb
    simp [numeric_min, cmp_numerics, ha, hb, make_result_of_nan b p hb]
  · intro b p hb
    have : NUMERIC_IS_NAN const_nan = true := by decide
    simp [numeric_min, cmp_numerics, this, hb]
  · intro a p ha
    have : NUMERIC_IS_NAN const_nan = true := by decide
    simp [numeric_min, cmp_numerics, this, ha]

/-- Witness for C2 as amended, at concrete inputs. -/
theorem C2_nan_propagation_amended_witness :
    numeric_add const_nan const_one 0 = .ok const_nan ∧
    numeric_max const_one const_nan 0 = .ok const_nan ∧
    numeric_min const_nan const_nan 0 = .ok const_nan ∧
    numeric_min const_nan const_one 0 = make_result const_one 0 := by
  refine ⟨(C2_nan_propagation_amended.1 const_nan const_one 0 (by decide)).1,
          (C2_nan_propagation_amended.1 const_one const_nan 0 (by decide)).2.2.2.2.2.2,
          C2_nan_propagation_amended.2.1 const_nan const_nan 0 (by decide) (by decide),
          C2_nan_propagation_amended.2.2.1 const_one 0 (by decide)⟩

theorem strip_leading_headD : ∀ (l : List Int) (w : Int),
    (strip_leading l w).1 ≠ [] → (strip_leading l w).1.headD 0 ≠ 0
  | [], w => by simp [strip_leading]
  | d :: ds, w => by
    by_cases hd : d = 0
    · rw [show strip_leading (d :: ds) w = strip_leading ds (w - 1) from by
        simp [strip_leading, hd]]
      exact strip_leading_headD ds (w - 1)
    · intro _
      simp [strip_leading, hd]

theorem dropWhile_zero_headD (l : List Int) (h : l.dropWhile (fun d => d == 0) ≠ []) :
    (l.dropWhile (fun d => d == 0)).headD 0 ≠ 0 := by
  induction l with
  | nil => simp at h
  | cons d ds ih =>
    by_cases hd : d = 0
    · rw [List.dropWhile_cons_of_pos (by simp [hd])] at h ⊢
      exact ih h
    · rw [List.dropWhile_cons_of_neg (by simp [hd])]
      simpa using hd

theorem strip_trailing_getLastD (l : List Int) (h : strip_trailing l ≠ []) :
    (strip_trailing l).getLastD 0 ≠ 0 := by
  unfold strip_trailing at *
  rw [List.getLastD_eq_getLast?, List.getLast?_reverse]
  have h2 : l.reverse.dropWhile (fun d => d == 0) ≠ [] := by
    intro he
    exact h (by simp [he])
  have h3 := dropWhile_zero_headD l.reverse h2
  rwa [List.headD_eq_head?] at h3

theorem strip_trailing_initial (l : List Int) : strip_trailing l <+: l := by
  unfold strip_trailing
  have h1 : l.reverse.dropWhile (fun d => d == 0) <:+ l.reverse := List.dropWhile_suffix _
  have h2 := h1.reverse
  simpa using h2

theorem strip_trailing_headD (l : List Int) (h : strip_trailing l ≠ []) :
    (strip_trailing l).headD 0 = l.headD 0 := by
  obtain ⟨t, ht⟩ := strip_trailing_initial l
  cases hst : strip_trailing l with
  | nil => exact absurd hst h
  | cons x xs =>
    rw [hst] at ht
    rw [← ht]
    simp

/-- C9: every decimal packed by `make_result` (hence every decimal returned
successfully by a public operation) is normalized: it is the NaN constant, or
the canonical zero (`ndigits = 0`, positive sign, weight 0), or its first and
last stored digits are both nonzero. -/
theorem C9_make_result_normalized (v : numeric) (p : Int) (r : numeric)
    (h : make_result v p = .ok r) :
    r = const_nan ∨
    (r.ndigits = 0 ∧ r.sign = NUMERIC_POS ∧ r.weight = 0) ∨
    (r.ndigits ≠ 0 ∧ r.digits.headD 0 ≠ 0 ∧ r.digits.getLastD 0 ≠ 0) := by
  simp only [make_result] at h
  split_ifs at h with h1 h2 h3
  · exact Or.inl (Except.ok.inj h).symm
  · right; left
    have hr := (Except.ok.inj h).symm
    subst hr
    simp [numeric.ndigits]
  · right; right
    have hr := (Except.ok.inj h).symm
    subst hr
    have hne : strip_trailing (strip_leading v.digits v.weight).1 ≠ [] := by
      simpa [List.isEmpty_iff] using h2
    refine ⟨by simpa [numeric.ndigits, List.length_eq_zero] using hne, ?_,
      strip_trailing_getLastD _ hne⟩
    rw [strip_trailing_headD _ hne]
    apply strip_leading_headD
    intro he
    exact hne (by simp [he, strip_trailing])

/-- Witness for C9: packing the unnormalized variable 0|7|0 (weight 2) yields
the stripped digit 7 at weight 1, with nonzero first and last digits. -/
theorem C9_make_result_normalized_witness :
    make_result { weight := 2, sign := NUMERIC_POS, dscale := 1, digits := [0, 7, 0] } 0 =
      .ok { weight := 1, sign := NUMERIC_POS, dscale := 1, digits := [7] } ∧
    ({ weight := 1, sign := NUMERIC_POS, dscale := 1, digits := [7] } = const_nan ∨
     (numeric.ndigits { weight := 1, sign := NUMERIC_POS, dscale := 1, digits := [7] } = 0 ∧
      NUMERIC_POS = NUMERIC_POS ∧ (1 : Int) = 0) ∨
     (numeric.ndigits { weight := 1, sign := NUMERIC_POS, dscale := 1, digits := [7] } ≠ 0 ∧
      List.headD [(7 : Int)] 0 ≠ 0 ∧ List.getLastD [(7 : Int)] 0 ≠ 0)) := by
  constructor
  · decide
  · have h := C9_make_result_normalized
      { weight := 2, sign := NUMERIC_POS, dscale := 1, digits := [0, 7, 0] } 0
      { weight := 1, sign := NUMERIC_POS, dscale := 1, digits := [7] } (by decide)
    simpa using h

/-- C3: the claim says `numeric_from_str` returns VALUE_OUT_OF_RANGE when the
rounded value has more than `precision - scale` digits before the point, but
the source discards the error code of `check_bounds_and_round`: parsing
"1000" with precision 3, scale 0 succeeds and returns 1000, even though
`check_bounds_and_round` reports VALUE_OUT_OF_RANGE for exactly this value. -/
theorem C3_from_str_out_of_bounds_not_rejected :
    numeric_from_str "1000".toList 3 0 0 =
      .ok { weight := 0, sign := NUMERIC_POS, dscale := 0, digits := [1000] } ∧
    (check_bounds_and_round
        { weight := 0, sign := NUMERIC_POS, dscale := 0, digits := [1000] } 3 0).2 =
      some .NUMERIC_VALUE_OUT_OF_RANGE := by
  decide

/-- C4: `numericvar_to_int32` tests `(int64_t) result != val`, comparing the
address of the out-parameter (any nonzero value) with the converted value, so
converting the in-range value 0 fails with VALUE_OUT_OF_RANGE, while the
corrected round-trip check accepts it. -/
theorem C4_to_int32_pointer_bug (addr : Int) (haddr : addr ≠ 0) :
    numeric_to_int32 const_zero addr = .error .NUMERIC_VALUE_OUT_OF_RANGE ∧
    numericvar_to_int32_corrected const_zero = .ok 0 := by
  constructor
  · have h0 : numericvar_to_int64 const_zero = some 0 := by decide
    simp only [numeric_to_int32]
    rw [if_neg (by decide : ¬(NUMERIC_IS_NAN const_zero = true))]
    simp only [numericvar_to_int32, h0]
    rw [if_pos haddr]
  · decide

/-- Witness for C4 at a concrete address. -/
theorem C4_to_int32_pointer_bug_witness :
    numeric_to_int32 const_zero 140737488355328 = .error .NUMERIC_VALUE_OUT_OF_RANGE ∧
    numericvar_to_int32_corrected const_zero = .ok 0 :=
  C4_to_int32_pointer_bug 140737488355328 (by decide)

/-- C7: the claim says `numeric_round(x, s).dscale = s` for every non-NaN x
and s ≥ 0, but when the rounded value is zero `make_result`'s zero path
(`zero_var`) does not store the variable's dscale into the packed result:
rounding 0.04 to scale 1 yields the packed zero with dscale 0 (the freshly
initialized output struct's value), although the variable-level `round_var`
result carries dscale 1. -/
theorem C7_round_zero_drops_dscale :
    numeric_round { weight := -1, sign := NUMERIC_POS, dscale := 2, digits := [400] } 1 0 =
      .ok { weight := 0, sign := NUMERIC_POS, dscale := 0, digits := [] } ∧
    (round_var { weight := -1, sign := NUMERIC_POS, dscale := 2, digits := [400] } 1).dscale
      = 1 := by
  decide

/-! Value semantics: the rational value denoted by a digit list with a weight,
and by a numeric variable. -/

/-- Rational value of a digit list whose first digit has the given weight:
the first stored digit contributes `digit * NBASE ^ weight`. -/
def absval : List Int → Int → ℚ
  | [], _ => 0
  | d :: ds, w => (d : ℚ) * (10000 : ℚ) ^ w + absval ds (w - 1)

/-- Rational value of a numeric variable (meaningful for non-NaN signs). -/
def nval (x : numeric) : ℚ :=
  (if x.sign = NUMERIC_NEG then -1 else 1) * absval x.digits x.weight

theorem absval_nil (w : Int) : absval [] w = 0 := rfl

theorem absval_cons (d : Int) (ds : List Int) (w : Int) :
    absval (d :: ds) w = (d : ℚ) * (10000 : ℚ) ^ w + absval ds (w - 1) := rfl

theorem absval_nonneg {l : List Int} (hl : digitsWF l) :
    ∀ w : Int, 0 ≤ absval l w := by
  induction l with
  | nil => intro w; simp [absval]
  | cons d ds ih =>
    intro w
    have hd := hl d (by simp)
    have hds : digitsWF ds := fun x hx => hl x (by simp [hx])
    have h1 : (0 : ℚ) ≤ (d : ℚ) * (10000 : ℚ) ^ w :=
      mul_nonneg (by exact_mod_cast hd.1) (le_of_lt (zpow_pos (by norm_num) w))
    have h2 := ih hds (w - 1)
    simp only [absval_cons]
    linarith

theorem absval_lt {l : List Int} (hl : digitsWF l) :
    ∀ w : Int, absval l w < (10000 : ℚ) ^ (w + 1) := by
  induction l with
  | nil =>
    intro w
    simpa [absval] using zpow_pos (show (0:ℚ) < 10000 by norm_num) (w + 1)
  | cons d ds ih =>
    intro w
    have hd := hl d (by simp)
    have hds : digitsWF ds := fun x hx => hl x (by simp [hx])
    have h2 := ih hds (w - 1)
    have hql : (d : ℚ) ≤ 9999 := by
      have : d ≤ 9999 := by have := hd.2; simp [NBASE] at this; omega
      exact_mod_cast this
    have hpow : (0:ℚ) < (10000 : ℚ) ^ w := zpow_pos (by norm_num) w
    have hsplit : (10000 : ℚ) ^ (w + 1) = 10000 * (10000 : ℚ) ^ w := by
      rw [zpow_add₀ (by norm_num : (10000:ℚ) ≠ 0) w 1]
      ring
    have h2R : absval ds (w - 1) < (10000 : ℚ) ^ w := by
      simpa using h2
    simp only [absval_cons]
    calc (d : ℚ) * (10000 : ℚ) ^ w + absval ds (w - 1)
        < (d : ℚ) * (10000 : ℚ) ^ w + (10000 : ℚ) ^ w := by linarith
      _ = ((d : ℚ) + 1) * (10000 : ℚ) ^ w := by ring
      _ ≤ 10000 * (10000 : ℚ) ^ w := by
          apply mul_le_mul_of_nonneg_right _ (le_of_lt hpow)
          linarith
      _ = (10000 : ℚ) ^ (w + 1) := hsplit.symm

/-- Final accumulator value of the integer-part extraction loop of `exp_var`,
without the overflow guard. -/
def exp_int_final (weight : Int) (digits : List Int) (acc : Int) : Int :=
  if weight < 0 then acc
  else
    match digits with
    | [] => exp_int_final (weight - 1) [] (acc * NBASE)
    | d :: ds => exp_int_final (weight - 1) ds (acc * NBASE + d)
  termination_by (weight + 1).toNat
  decreasing_by
    · simp only [Int.not_lt] at *; omega
    · simp only [Int.not_lt] at *; omega

theorem exp_int_final_nonneg (n : Nat) :
    ∀ (weight : Int) (digits : List Int) (acc : Int), (weight + 1).toNat = n →
      digitsWF digits → 0 ≤ acc → 0 ≤ exp_int_final weight digits acc := by
  induction n with
  | zero =>
    intro w digits acc hn _ hacc
    have hw : w < 0 := by omega
    rw [exp_int_final.eq_def, if_pos hw]
    exact hacc
  | succ k ih =>
    intro w digits acc hn hwf hacc
    have hw : ¬ w < 0 := by omega
    rw [exp_int_final.eq_def, if_neg hw]
    cases digits with
    | nil =>
      dsimp only
      exact ih (w - 1) [] (acc * NBASE) (by omega) hwf
        (mul_nonneg hacc (by norm_num [NBASE]))
    | cons d ds =>
      dsimp only
      have hd := hwf d (by simp)
      have hds : digitsWF ds := fun x hx => hwf x (by simp [hx])
      refine ih (w - 1) ds (acc * NBASE + d) (by omega) hds ?_
      have h1 : (0:Int) ≤ acc * NBASE := mul_nonneg hacc (by norm_num [NBASE])
      omega

theorem exp_int_final_ge_acc (n : Nat) :
    ∀ (weight : Int) (digits : List Int) (acc : Int), (weight + 1).toNat = n →
      digitsWF digits → 0 ≤ acc → acc ≤ exp_int_final weight digits acc := by
  induction n with
  | zero =>
    intro w digits acc hn _ _
    have hw : w < 0 := by omega
    rw [exp_int_final.eq_def, if_pos hw]
  | succ k ih =>
    intro w digits acc hn hwf hacc
    have hw : ¬ w < 0 := by omega
    rw [exp_int_final.eq_def, if_neg hw]
    have hB : (1:Int) ≤ NBASE := by norm_num [NBASE]
    have h0 : acc ≤ acc * NBASE := le_mul_of_one_le_right hacc hB
    cases digits with
    | nil =>
      dsimp only
      have h2 := ih (w - 1) [] (acc * NBASE) (by omega) hwf (by omega)
      omega
    | cons d ds =>
      dsimp only
      have hd := hwf d (by simp)
      have hds : digitsWF ds := fun x hx => hwf x (by simp [hx])
      have h2 := ih (w - 1) ds (acc * NBASE + d) (by omega) hds (by omega)
      omega

theorem exp_var_intpart_spec (n : Nat) :
    ∀ (weight : Int) (digits : List Int) (acc : Int), (weight + 1).toNat = n →
      digitsWF digits → 0 ≤ acc → acc < NUMERIC_MAX_RESULT_SCALE * 3 →
      exp_var_intpart weight digits acc =
        (if NUMERIC_MAX_RESULT_SCALE * 3 ≤ exp_int_final weight digits acc then
          .error .NUMERIC_VALUE_OUT_OF_RANGE
        else .ok (exp_int_final weight digits acc)) := by
  induction n with
  | zero =>
    intro w digits acc hn _ hacc hlt
    have hw : w < 0 := by omega
    rw [exp_var_intpart.eq_def, if_pos hw, exp_int_final.eq_def, if_pos hw, if_neg (by omega)]
  | succ k ih =>
    intro w digits acc hn hwf hacc hlt
    have hw : ¬ w < 0 := by omega
    rw [exp_var_intpart.eq_def, if_neg hw, exp_int_final.eq_def, if_neg hw]
    have hnn0 : (0:Int) ≤ acc * NBASE := mul_nonneg hacc (by norm_num [NBASE])
    cases digits with
    | nil =>
      dsimp only
      by_cases hg : acc * NBASE ≥ NUMERIC_MAX_RESULT_SCALE * 3
      · rw [if_pos hg]
        have hge := exp_int_final_ge_acc ((w - 1 + 1).toNat) (w - 1) [] (acc * NBASE) rfl
          hwf hnn0
        rw [if_pos (by omega)]
      · rw [if_neg hg]
        exact ih (w - 1) [] (acc * NBASE) (by omega) hwf hnn0 (by omega)
    | cons d ds =>
      dsimp only
      have hd := hwf d (by simp)
      have hds : digitsWF ds := fun x hx => hwf x (by simp [hx])
      have hnn : (0:Int) ≤ acc * NBASE + d := by omega
      by_cases hg : acc * NBASE + d ≥ NUMERIC_MAX_RESULT_SCALE * 3
      · rw [if_pos hg]
        have hge := exp_int_final_ge_acc ((w - 1 + 1).toNat) (w - 1) ds (acc * NBASE + d) rfl
          hds hnn
        rw [if_pos (by omega)]
      · rw [if_neg hg]
        exact ih (w - 1) ds (acc * NBASE + d) (by omega) hds hnn (by omega)

theorem exp_int_final_floor_aux (n : Nat) :
    ∀ (weight : Int) (digits : List Int) (acc : Int), (weight + 1).toNat = n →
      digitsWF digits → 0 ≤ acc →
      ((exp_int_final weight digits acc : ℚ) ≤
        (acc : ℚ) * (10000 : ℚ) ^ ((weight + 1).toNat : ℕ) + absval digits weight ∧
       (acc : ℚ) * (10000 : ℚ) ^ ((weight + 1).toNat : ℕ) + absval digits weight <
        (exp_int_final weight digits acc : ℚ) + 1) := by
  induction n with
  | zero =>
    intro w digits acc hn hwf hacc
    have hw : w < 0 := by omega
    rw [exp_int_final.eq_def, if_pos hw, hn]
    have h1 : (0:ℚ) ≤ absval digits w := absval_nonneg hwf w
    have h2 : absval digits w < (10000 : ℚ) ^ (w + 1) := absval_lt hwf w
    have h3 : (10000 : ℚ) ^ (w + 1) ≤ 1 := by
      have hw1 : w + 1 ≤ 0 := by omega
      calc (10000 : ℚ) ^ (w + 1) ≤ (10000 : ℚ) ^ (0 : ℤ) :=
            zpow_le_zpow_right₀ (by norm_num) hw1
        _ = 1 := by norm_num
    constructor
    · simp only [pow_zero]
      linarith
    · simp only [pow_zero]
      linarith
  | succ k ih =>
    intro w digits acc hn hwf hacc
    have hw : ¬ w < 0 := by omega
    have hk : (w - 1 + 1).toNat = k := by omega
    rw [exp_int_final.eq_def, if_neg hw]
    cases digits with
    | nil =>
      dsimp only
      have hB : (0:Int) ≤ acc * NBASE := mul_nonneg hacc (by norm_num [NBASE])
      have hrec := ih (w - 1) [] (acc * NBASE) hk hwf hB
      rw [hk] at hrec
      simp only [absval_nil] at hrec ⊢
      have hcast : ((acc * NBASE : Int) : ℚ) = (acc : ℚ) * 10000 := by
        push_cast [NBASE]
        ring
      have key : (acc : ℚ) * (10000 : ℚ) ^ ((w + 1).toNat : ℕ) =
          ((acc * NBASE : Int) : ℚ) * (10000 : ℚ) ^ (k : ℕ) := by
        rw [hn, pow_succ, hcast]
        ring
      refine ⟨?_, ?_⟩
      · rw [key]
        exact hrec.1
      · rw [key]
        exact hrec.2
    | cons d ds =>
      dsimp only
      have hd := hwf d (by simp)
      have hds : digitsWF ds := fun x hx => hwf x (by simp [hx])
      have hB0 : (0:Int) ≤ acc * NBASE := mul_nonneg hacc (by norm_num [NBASE])
      have hB : (0:Int) ≤ acc * NBASE + d := by omega
      have hrec := ih (w - 1) ds (acc * NBASE + d) hk hds hB
      rw [hk] at hrec
      simp only [absval_cons] at hrec ⊢
      have hcast : ((acc * NBASE + d : Int) : ℚ) = (acc : ℚ) * 10000 + (d : ℚ) := by
        push_cast [NBASE]
        ring
      have hzp : ((10000 : ℚ) ^ w) = (10000 : ℚ) ^ (k : ℕ) := by
        have h1 : ((k : ℕ) : ℤ) = w := by omega
        rw [← zpow_natCast (10000 : ℚ) k, h1]
      have key : (acc : ℚ) * (10000 : ℚ) ^ ((w + 1).toNat : ℕ) +
          ((d : ℚ) * (10000 : ℚ) ^ w + absval ds (w - 1)) =
          ((acc * NBASE + d : Int) : ℚ) * (10000 : ℚ) ^ (k : ℕ) + absval ds (w - 1) := by
        rw [hn, pow_succ, hcast, hzp]
        ring
      refine ⟨?_, ?_⟩
      · rw [key]
        exact hrec.1
      · rw [key]
        exact hrec.2

theorem exp_int_final_eq_floor (x : numeric) (hwf : digitsWF x.digits) :
    exp_int_final x.weight x.digits 0 = ⌊absval x.digits x.weight⌋ := by
  have h := exp_int_final_floor_aux ((x.weight + 1).toNat) x.weight x.digits 0 rfl hwf le_rfl
  have h1 := h.1
  have h2 := h.2
  simp only [Int.cast_zero, zero_mul, zero_add] at h1 h2
  symm
  rw [Int.floor_eq_iff]
  constructor
  · exact h1
  · exact h2

/-- C10: for a non-NaN argument, `numeric_exp` fails with VALUE_OUT_OF_RANGE
exactly when the truncated integer part of `|x|` reaches
`3 * NUMERIC_MAX_RESULT_SCALE = 6000` — the sign is removed before the
integer part is extracted, so this applies equally to large negative
arguments — and for integer parts below 6000 the guard never fires. -/
theorem C10_exp_overflow_guard (x : numeric) (hn : NUMERIC_IS_NAN x = false)
    (hwf : digitsWF x.digits) :
    (numeric_exp_check x = .error .NUMERIC_VALUE_OUT_OF_RANGE ↔
       NUMERIC_MAX_RESULT_SCALE * 3 ≤ ⌊|nval x|⌋) ∧
    (numeric_exp_check x = .ok () ↔ ⌊|nval x|⌋ < NUMERIC_MAX_RESULT_SCALE * 3) := by
  have habs : |nval x| = absval x.digits x.weight := by
    unfold nval
    by_cases hs : x.sign = NUMERIC_NEG
    · rw [if_pos hs]
      simp [abs_mul, abs_of_nonneg (absval_nonneg hwf x.weight)]
    · rw [if_neg hs]
      simp [abs_of_nonneg (absval_nonneg hwf x.weight)]
  have hfl : ⌊|nval x|⌋ = exp_int_final x.weight x.digits 0 := by
    rw [habs, exp_int_final_eq_floor x hwf]
  have hspec := exp_var_intpart_spec ((x.weight + 1).toNat) x.weight x.digits 0 rfl hwf
    le_rfl (by norm_num [NUMERIC_MAX_RESULT_SCALE])
  have hch : numeric_exp_check x = exp_var_check x := by
    simp [numeric_exp_check, hn]
  rw [hch]
  unfold exp_var_check
  rw [hspec, hfl]
  by_cases hg : NUMERIC_MAX_RESULT_SCALE * 3 ≤ exp_int_final x.weight x.digits 0
  · rw [if_pos hg]
    constructor
    · simpa using hg
    · constructor
      · intro h
        simp at h
      · intro h
        omega
  · rw [if_neg hg]
    constructor
    · constructor
      · intro h
        simp at h
      · intro h
        omega
    · constructor
      · intro _
        omega
      · intro _
        simp

/-- Witness for C10 at `x = -10000` (the spec example `exp(-10000)`): the
integer part of `|x|` is 10000, which reaches the 6000 bound, and the guard
fires even though the mathematical result would be near zero. -/
theorem C10_exp_overflow_guard_witness :
    (numeric_exp_check { weight := 1, sign := NUMERIC_NEG, dscale := 0, digits := [1] } =
        .error .NUMERIC_VALUE_OUT_OF_RANGE ↔
      NUMERIC_MAX_RESULT_SCALE * 3 ≤
        ⌊|nval { weight := 1, sign := NUMERIC_NEG, dscale := 0, digits := [1] }|⌋) ∧
    numeric_exp_check { weight := 1, sign := NUMERIC_NEG, dscale := 0, digits := [1] } =
      .error .NUMERIC_VALUE_OUT_OF_RANGE := by
  have h := C10_exp_overflow_guard
    { weight := 1, sign := NUMERIC_NEG, dscale := 0, digits := [1] } (by decide) (by decide)
  refine ⟨h.1, h.1.mpr ?_⟩
  have hv : nval { weight := 1, sign := NUMERIC_NEG, dscale := 0, digits := [1] } =
      -10000 := by
    simp [nval, absval, NUMERIC_NEG]
  rw [hv]
  norm_num [NUMERIC_MAX_RESULT_SCALE]

/-! Correctness of the comparison routines with respect to the rational
value semantics. -/

/-- Three-way comparison of rationals with the return convention of the C
comparison routines. -/
def cmpRat (x y : ℚ) : Int :=
  if x < y then -1 else if y < x then 1 else 0

/-- Well-formed non-NaN variable: digits in range, no leading zero digit, and
a value with no digits is the canonical zero. -/
def wf_num (x : numeric) : Prop :=
  digitsWF x.digits ∧ (x.digits ≠ [] → x.digits.headD 0 ≠ 0) ∧
  (x.digits = [] → x.sign = NUMERIC_POS ∧ x.weight = 0)

instance (x : numeric) : Decidable (wf_num x) := by
  unfold wf_num; infer_instance

theorem absval_eq_zero_iff {l : List Int} (hl : digitsWF l) (w : Int) :
    absval l w = 0 ↔ ∀ d ∈ l, d = 0 := by
  induction l generalizing w with
  | nil => simp [absval]
  | cons d ds ih =>
    have hd := hl d (by simp)
    have hds : digitsWF ds := fun x hx => hl x (by simp [hx])
    have hpow : (0:ℚ) < (10000 : ℚ) ^ w := zpow_pos (by norm_num) w
    have h1 : (0:ℚ) ≤ (d : ℚ) * (10000 : ℚ) ^ w :=
      mul_nonneg (by exact_mod_cast hd.1) (le_of_lt hpow)
    have h2 : (0:ℚ) ≤ absval ds (w - 1) := absval_nonneg hds (w - 1)
    constructor
    · intro h
      simp only [absval_cons] at h
      have hz1 : (d : ℚ) * (10000 : ℚ) ^ w = 0 := by linarith
      have hz2 : absval ds (w - 1) = 0 := by linarith
      have hd0 : d = 0 := by
        rcases mul_eq_zero.mp hz1 with h | h
        · exact_mod_cast h
        · exact absurd h (ne_of_gt hpow)
      intro x hx
      rcases List.mem_cons.mp hx with h | h
      · rw [h, hd0]
      · exact ((ih hds (w - 1)).mp hz2) x h
    · intro h
      have hd0 : d = 0 := h d (by simp)
      have : absval ds (w - 1) = 0 :=
        (ih hds (w - 1)).mpr fun x hx => h x (by simp [hx])
      simp [absval_cons, hd0, this]

theorem absval_pos_iff {l : List Int} (hl : digitsWF l) (w : Int) :
    0 < absval l w ↔ (l.any fun d => d != 0) = true := by
  have h0 := absval_nonneg hl w
  constructor
  · intro h
    by_contra hc
    simp only [List.any_eq_true, not_exists, bne_iff_ne, ne_eq, not_and, not_not] at hc
    have : absval l w = 0 := (absval_eq_zero_iff hl w).mpr hc
    rw [this] at h
    exact lt_irrefl 0 h
  · intro h
    rcases lt_or_eq_of_le h0 with h1 | h1
    · exact h1
    · exfalso
      simp only [List.any_eq_true, bne_iff_ne, ne_eq] at h
      obtain ⟨d, hd, hne⟩ := h
      exact hne (((absval_eq_zero_iff hl w).mp h1.symm) d hd)

theorem absval_head_ge {l : List Int} (hl : digitsWF l) (w : Int)
    (hne : l ≠ []) (hh : l.headD 0 ≠ 0) : (10000 : ℚ) ^ w ≤ absval l w := by
  cases l with
  | nil => exact absurd rfl hne
  | cons d ds =>
    simp only [List.headD_cons] at hh
    have hd := hl d (by simp)
    have hds : digitsWF ds := fun x hx => hl x (by simp [hx])
    have hd1 : (1 : ℚ) ≤ (d : ℚ) := by
      have : 1 ≤ d := by omega
      exact_mod_cast this
    have hpow : (0:ℚ) < (10000 : ℚ) ^ w := zpow_pos (by norm_num) w
    have h2 : (0:ℚ) ≤ absval ds (w - 1) := absval_nonneg hds (w - 1)
    simp only [absval_cons]
    nlinarith

theorem cmp_abs_tail_spec {d1 d2 : List Int} (h1 : digitsWF d1) (h2 : digitsWF d2)
    (w : Int) : cmp_abs_tail d1 d2 = cmpRat (absval d1 w) (absval d2 w) := by
  induction d1 generalizing d2 w with
  | nil =>
    cases d2 with
    | nil => simp [cmp_abs_tail, cmpRat, absval]
    | cons y ys =>
      rw [show cmp_abs_tail [] (y :: ys) =
          (if (y :: ys).any (fun d => d != 0) then -1 else 0) from rfl]
      by_cases hy : ((y :: ys).any fun d => d != 0) = true
      · rw [if_pos hy]
        have := (absval_pos_iff h2 w).mpr hy
        simp [cmpRat, absval_nil, this]
      · rw [if_neg hy]
        have hz : absval (y :: ys) w = 0 := by
          have h0 := absval_nonneg h2 w
          rcases lt_or_eq_of_le h0 with hp | hp
          · exact absurd ((absval_pos_iff h2 w).mp hp) hy
          · exact hp.symm
        simp [cmpRat, absval_nil, hz]
  | cons x xs ih =>
    cases d2 with
    | nil =>
      rw [show cmp_abs_tail (x :: xs) [] =
          (if (x :: xs).any (fun d => d != 0) then 1 else 0) from rfl]
      by_cases hx : ((x :: xs).any fun d => d != 0) = true
      · rw [if_pos hx]
        have := (absval_pos_iff h1 w).mpr hx
        simp only [cmpRat, absval_nil]
        rw [if_neg (by linarith), if_pos this]
      · rw [if_neg hx]
        have hz : absval (x :: xs) w = 0 := by
          have h0 := absval_nonneg h1 w
          rcases lt_or_eq_of_le h0 with hp | hp
          · exact absurd ((absval_pos_iff h1 w).mp hp) hx
          · exact hp.symm
        simp [cmpRat, absval_nil, hz]
    | cons y ys =>
      have hx := h1 x (by simp)
      have hy := h2 y (by simp)
      have hxs : digitsWF xs := fun a ha => h1 a (by simp [ha])
      have hys : digitsWF ys := fun a ha => h2 a (by simp [ha])
      have hpow : (0:ℚ) < (10000 : ℚ) ^ w := zpow_pos (by norm_num) w
      have hxslt : absval xs (w - 1) < (10000 : ℚ) ^ w := by
        simpa using absval_lt hxs (w - 1)
      have hyslt : absval ys (w - 1) < (10000 : ℚ) ^ w := by
        simpa using absval_lt hys (w - 1)
      have hxs0 := absval_nonneg hxs (w - 1)
      have hys0 := absval_nonneg hys (w - 1)
      rw [show cmp_abs_tail (x :: xs) (y :: ys) =
          (if x - y > 0 then 1 else if x - y < 0 then -1 else cmp_abs_tail xs ys) from rfl]
      by_cases hgt : x - y > 0
      · rw [if_pos hgt]
        have hcast : (y : ℚ) + 1 ≤ (x : ℚ) := by
          have : y + 1 ≤ x := by omega
          exact_mod_cast this
        have : absval (y :: ys) w < absval (x :: xs) w := by
          simp only [absval_cons]
          nlinarith
        simp only [cmpRat]
        rw [if_neg (by linarith), if_pos this]
      · rw [if_neg hgt]
        by_cases hlt : x - y < 0
        · rw [if_pos hlt]
          have hcast : (x : ℚ) + 1 ≤ (y : ℚ) := by
            have : x + 1 ≤ y := by omega
            exact_mod_cast this
          have : absval (x :: xs) w < absval (y :: ys) w := by
            simp only [absval_cons]
            nlinarith
          simp only [cmpRat]
          rw [if_pos this]
        · rw [if_neg hlt]
          have hxy : x = y := by omega
          have heq : absval (x :: xs) w = (x : ℚ) * (10000 : ℚ) ^ w + absval xs (w - 1) :=
            rfl
          have heq2 : absval (y :: ys) w = (x : ℚ) * (10000 : ℚ) ^ w + absval ys (w - 1) := by
            rw [absval_cons, hxy]
          rw [ih hxs hys (w - 1)]
          simp only [cmpRat, heq, heq2, add_lt_add_iff_left]

theorem absval_pos_of_head {l : List Int} (hl : digitsWF l) (w : Int)
    (hne : l ≠ []) (hh : l.headD 0 ≠ 0) : 0 < absval l w :=
  lt_of_lt_of_le (zpow_pos (by norm_num) w) (absval_head_ge hl w hne hh)

theorem absval_zero_of_not_any {l : List Int} (hl : digitsWF l) (w : Int)
    (h : ¬ (l.any fun d => d != 0) = true) : absval l w = 0 := by
  have h0 := absval_nonneg hl w
  rcases lt_or_eq_of_le h0 with hp | hp
  · exact absurd ((absval_pos_iff hl w).mp hp) h
  · exact hp.symm

theorem cmp_abs_common_spec (d1 : List Int) (w1 : Int) (d2 : List Int) (w2 : Int) :
    digitsWF d1 → digitsWF d2 →
    cmp_abs_common d1 w1 d2 w2 = cmpRat (absval d1 w1) (absval d2 w2) := by
  induction d1, w1, d2, w2 using cmp_abs_common.induct with
  | case1 w1 d2 w2 hgt hany =>
    intro _ h2
    rw [cmp_abs_common.eq_def]
    simp only [if_pos hgt]
    rw [if_pos hany]
    have hpos := (absval_pos_iff h2 w2).mpr hany
    simp only [cmpRat, absval_nil]
    rw [if_pos hpos]
  | case2 w1 d2 w2 hgt hany =>
    intro _ h2
    rw [cmp_abs_common.eq_def]
    simp only [if_pos hgt]
    rw [if_neg hany]
    have hz := absval_zero_of_not_any h2 w2 hany
    simp [cmpRat, absval_nil, hz]
  | case3 w1 d2 w2 hgt x xs hx =>
    intro h1 h2
    rw [cmp_abs_common.eq_def]
    simp only [if_pos hgt]
    rw [if_pos hx]
    have hhead : (10000:ℚ) ^ w1 ≤ absval (x :: xs) w1 :=
      absval_head_ge h1 w1 (by simp) (by simpa using hx)
    have hlt2 : absval d2 w2 < (10000:ℚ) ^ (w2 + 1) := absval_lt h2 w2
    have hmono : (10000:ℚ) ^ (w2 + 1) ≤ (10000:ℚ) ^ w1 :=
      zpow_le_zpow_right₀ (by norm_num) (by omega)
    have hlt : absval d2 w2 < absval (x :: xs) w1 := by linarith
    simp only [cmpRat]
    rw [if_neg (by linarith), if_pos hlt]
  | case4 w1 d2 w2 hgt x xs hx ih =>
    intro h1 h2
    have hx0 : x = 0 := by omega
    have hxs : digitsWF xs := fun a ha => h1 a (by simp [ha])
    rw [cmp_abs_common.eq_def]
    simp only [if_pos hgt]
    rw [if_neg hx]
    have hval : absval (x :: xs) w1 = absval xs (w1 - 1) := by
      simp [absval_cons, hx0]
    rw [hval]
    exact ih hxs h2
  | case5 d1 w1 w2 hle hgt hany =>
    intro h1 _
    rw [cmp_abs_common.eq_def]
    simp only [if_neg hle, if_pos hgt]
    rw [if_pos hany]
    have hpos := (absval_pos_iff h1 w1).mpr hany
    simp only [cmpRat, absval_nil]
    rw [if_neg (by linarith), if_pos hpos]
  | case6 d1 w1 w2 hle hgt hany =>
    intro h1 _
    rw [cmp_abs_common.eq_def]
    simp only [if_neg hle, if_pos hgt]
    rw [if_neg hany]
    have hz := absval_zero_of_not_any h1 w1 hany
    simp [cmpRat, absval_nil, hz]
  | case7 d1 w1 w2 hle hgt y ys hy =>
    intro h1 h2
    rw [cmp_abs_common.eq_def]
    simp only [if_neg hle, if_pos hgt]
    rw [if_pos hy]
    have hhead : (10000:ℚ) ^ w2 ≤ absval (y :: ys) w2 :=
      absval_head_ge h2 w2 (by simp) (by simpa using hy)
    have hlt1 : absval d1 w1 < (10000:ℚ) ^ (w1 + 1) := absval_lt h1 w1
    have hmono : (10000:ℚ) ^ (w1 + 1) ≤ (10000:ℚ) ^ w2 :=
      zpow_le_zpow_right₀ (by norm_num) (by omega)
    have hlt : absval d1 w1 < absval (y :: ys) w2 := by linarith
    simp only [cmpRat]
    rw [if_pos hlt]
  | case8 d1 w1 w2 hle hgt y ys hy ih =>
    intro h1 h2
    have hy0 : y = 0 := by omega
    have hys : digitsWF ys := fun a ha => h2 a (by simp [ha])
    rw [cmp_abs_common.eq_def]
    simp only [if_neg hle, if_pos hgt]
    rw [if_neg hy]
    have hval : absval (y :: ys) w2 = absval ys (w2 - 1) := by
      simp [absval_cons, hy0]
    rw [hval]
    exact ih h1 hys
  | case9 d1 w1 d2 w2 hgt1 hgt2 =>
    intro h1 h2
    have hw : w1 = w2 := by omega
    rw [cmp_abs_common.eq_def]
    simp only [if_neg hgt1, if_neg hgt2]
    subst hw
    exact cmp_abs_tail_spec h1 h2 w1

theorem is_nan_false_iff (x : numeric) :
    NUMERIC_IS_NAN x = false ↔ x.sign = NUMERIC_POS ∨ x.sign = NUMERIC_NEG := by
  simp [NUMERIC_IS_NAN]
  tauto

theorem cmpRat_neg_neg (a b : ℚ) : cmpRat (-a) (-b) = cmpRat b a := by
  simp [cmpRat, neg_lt_neg_iff]

theorem cmp_numerics_val {x y : numeric}
    (hnx : NUMERIC_IS_NAN x = false) (hny : NUMERIC_IS_NAN y = false)
    (hx : wf_num x) (hy : wf_num y) :
    cmp_numerics x y = cmpRat (nval x) (nval y) := by
  obtain ⟨hx1, hx2, hx3⟩ := hx
  obtain ⟨hy1, hy2, hy3⟩ := hy
  have hsx := (is_nan_false_iff x).mp hnx
  have hsy := (is_nan_false_iff y).mp hny
  unfold cmp_numerics
  rw [hnx, hny]
  simp only [Bool.false_eq_true, if_false]
  by_cases hd1 : x.digits = []
  · obtain ⟨hsp1, _⟩ := hx3 hd1
    have hv1 : nval x = 0 := by
      simp [nval, hd1, hsp1, NUMERIC_POS, NUMERIC_NEG, absval_nil]
    by_cases hd2 : y.digits = []
    · obtain ⟨hsp2, _⟩ := hy3 hd2
      have hv2 : nval y = 0 := by
        simp [nval, hd2, hsp2, NUMERIC_POS, NUMERIC_NEG, absval_nil]
      rw [hv1, hv2]
      norm_num [cmp_var_common, List.length_eq_zero, hd1, hd2, cmpRat]
    · have hpos2 : 0 < absval y.digits y.weight :=
        absval_pos_of_head hy1 y.weight hd2 (hy2 hd2)
      rcases hsy with hsy | hsy
      · have hv2 : nval y = absval y.digits y.weight := by
          simp [nval, hsy, NUMERIC_POS, NUMERIC_NEG]
        have hR : cmpRat 0 (absval y.digits y.weight) = -1 := by
          simp only [cmpRat]
          rw [if_pos hpos2]
        rw [hv1, hv2, hR]
        norm_num [cmp_var_common, List.length_eq_zero, hd1, hd2, hsy,
          NUMERIC_POS, NUMERIC_NEG]
      · have hv2 : nval y = -absval y.digits y.weight := by
          simp [nval, hsy, NUMERIC_POS, NUMERIC_NEG]
        have hR : cmpRat 0 (-absval y.digits y.weight) = 1 := by
          simp only [cmpRat]
          rw [if_neg (by linarith), if_pos (by linarith)]
        rw [hv1, hv2, hR]
        norm_num [cmp_var_common, List.length_eq_zero, hd1, hd2, hsy,
          NUMERIC_POS, NUMERIC_NEG]
  · have hpos1 : 0 < absval x.digits x.weight :=
      absval_pos_of_head hx1 x.weight hd1 (hx2 hd1)
    by_cases hd2 : y.digits = []
    · obtain ⟨hsp2, _⟩ := hy3 hd2
      have hv2 : nval y = 0 := by
        simp [nval, hd2, hsp2, NUMERIC_POS, NUMERIC_NEG, absval_nil]
      rcases hsx with hsx | hsx
      · have hv1 : nval x = absval x.digits x.weight := by
          simp [nval, hsx, NUMERIC_POS, NUMERIC_NEG]
        have hR : cmpRat (absval x.digits x.weight) 0 = 1 := by
          simp only [cmpRat]
          rw [if_neg (by linarith), if_pos hpos1]
        rw [hv1, hv2, hR]
        norm_num [cmp_var_common, List.length_eq_zero, hd1, hd2, hsx,
          NUMERIC_POS, NUMERIC_NEG]
      · have hv1 : nval x = -absval x.digits x.weight := by
          simp [nval, hsx, NUMERIC_POS, NUMERIC_NEG]
        have hR : cmpRat (-absval x.digits x.weight) 0 = -1 := by
          simp only [cmpRat]
          rw [if_pos (by linarith)]
        rw [hv1, hv2, hR]
        norm_num [cmp_var_common, List.length_eq_zero, hd1, hd2, hsx,
          NUMERIC_POS, NUMERIC_NEG]
    · have hpos2 : 0 < absval y.digits y.weight :=
        absval_pos_of_head hy1 y.weight hd2 (hy2 hd2)
      rcases hsx with hsx | hsx <;> rcases hsy with hsy | hsy
      · have hv1 : nval x = absval x.digits x.weight := by
          simp [nval, hsx, NUMERIC_POS, NUMERIC_NEG]
        have hv2 : nval y = absval y.digits y.weight := by
          simp [nval, hsy, NUMERIC_POS, NUMERIC_NEG]
        rw [hv1, hv2]
        have hL := cmp_abs_common_spec x.digits x.weight y.digits y.weight hx1 hy1
        rw [← hL]
        norm_num [cmp_var_common, List.length_eq_zero, hd1, hd2, hsx, hsy,
          NUMERIC_POS, NUMERIC_NEG]
      · have hv1 : nval x = absval x.digits x.weight := by
          simp [nval, hsx, NUMERIC_POS, NUMERIC_NEG]
        have hv2 : nval y = -absval y.digits y.weight := by
          simp [nval, hsy, NUMERIC_POS, NUMERIC_NEG]
        have hR : cmpRat (absval x.digits x.weight) (-absval y.digits y.weight) = 1 := by
          simp only [cmpRat]
          rw [if_neg (by linarith), if_pos (by linarith)]
        rw [hv1, hv2, hR]
        norm_num [cmp_var_common, List.length_eq_zero, hd1, hd2, hsx, hsy,
          NUMERIC_POS, NUMERIC_NEG]
      · have hv1 : nval x = -absval x.digits x.weight := by
          simp [nval, hsx, NUMERIC_POS, NUMERIC_NEG]
        have hv2 : nval y = absval y.digits y.weight := by
          simp [nval, hsy, NUMERIC_POS, NUMERIC_NEG]
        have hR : cmpRat (-absval x.digits x.weight) (absval y.digits y.weight) = -1 := by
          simp only [cmpRat]
          rw [if_pos (by linarith)]
        rw [hv1, hv2, hR]
        norm_num [cmp_var_common, List.length_eq_zero, hd1, hd2, hsx, hsy,
          NUMERIC_POS, NUMERIC_NEG]
      · have hv1 : nval x = -absval x.digits x.weight := by
          simp [nval, hsx, NUMERIC_POS, NUMERIC_NEG]
        have hv2 : nval y = -absval y.digits y.weight := by
          simp [nval, hsy, NUMERIC_POS, NUMERIC_NEG]
        rw [hv1, hv2, cmpRat_neg_neg]
        have hL := cmp_abs_common_spec y.digits y.weight x.digits x.weight hy1 hx1
        rw [← hL]
        norm_num [cmp_var_common, List.length_eq_zero, hd1, hd2, hsx, hsy,
          NUMERIC_POS, NUMERIC_NEG]

theorem cmpRat_antisymm (a b : ℚ) : cmpRat b a = -cmpRat a b := by
  rcases lt_trichotomy a b with h | h | h
  · rw [show cmpRat a b = -1 from by simp only [cmpRat]; rw [if_pos h],
        show cmpRat b a = 1 from by
          simp only [cmpRat]; rw [if_neg (by linarith), if_pos h]]
    norm_num
  · rw [show cmpRat a b = 0 from by
          simp only [cmpRat]; rw [if_neg (by linarith), if_neg (by linarith)],
        show cmpRat b a = 0 from by
          simp only [cmpRat]; rw [if_neg (by linarith), if_neg (by linarith)]]
    norm_num
  · rw [show cmpRat a b = 1 from by
          simp only [cmpRat]; rw [if_neg (by linarith), if_pos h],
        show cmpRat b a = -1 from by simp only [cmpRat]; rw [if_pos h]]

theorem cmpRat_le_zero_iff (a b : ℚ) : cmpRat a b ≤ 0 ↔ a ≤ b := by
  unfold cmpRat
  split_ifs with h1 h2
  · exact iff_of_true (by norm_num) (le_of_lt h1)
  · exact iff_of_false (by norm_num) (not_le.mpr h2)
  · exact iff_of_true (by norm_num) (le_of_not_lt h2)

/-- A numeric is either NaN-flagged or a well-formed non-NaN value. -/
def wfOK (x : numeric) : Prop :=
  NUMERIC_IS_NAN x = true ∨ (NUMERIC_IS_NAN x = false ∧ wf_num x)

instance (x : numeric) : Decidable (wfOK x) := by
  unfold wfOK; infer_instance

/-- **C5**: `numeric_cmp` is a total order in which NaN equals NaN (cmp 0) and
sorts strictly above every non-NaN (1 with NaN first, −1 with NaN second); on
well-formed non-NaN inputs it compares by rational value (three-way sign of
`nval a − nval b`); the order is antisymmetric and transitive; and each of the
six predicate entry points agrees with the sign of `numeric_cmp`. -/
theorem C5_cmp_total_order_and_predicates :
    (∀ a b : numeric, NUMERIC_IS_NAN a = true → NUMERIC_IS_NAN b = true →
        numeric_cmp a b = 0) ∧
    (∀ a b : numeric, NUMERIC_IS_NAN a = true → NUMERIC_IS_NAN b = false →
        numeric_cmp a b = 1) ∧
    (∀ a b : numeric, NUMERIC_IS_NAN a = false → NUMERIC_IS_NAN b = true →
        numeric_cmp a b = -1) ∧
    (∀ a b : numeric, NUMERIC_IS_NAN a = false → NUMERIC_IS_NAN b = false →
        wf_num a → wf_num b → numeric_cmp a b = cmpRat (nval a) (nval b)) ∧
    (∀ a b : numeric, wfOK a → wfOK b → numeric_cmp b a = -numeric_cmp a b) ∧
    (∀ a b c : numeric, wfOK a → wfOK b → wfOK c →
        numeric_cmp a b ≤ 0 → numeric_cmp b c ≤ 0 → numeric_cmp a c ≤ 0) ∧
    (∀ a b : numeric,
        (numeric_eq a b = true ↔ numeric_cmp a b = 0) ∧
        (numeric_ne a b = true ↔ ¬ numeric_cmp a b = 0) ∧
        (numeric_gt a b = true ↔ 0 < numeric_cmp a b) ∧
        (numeric_ge a b = true ↔ 0 ≤ numeric_cmp a b) ∧
        (numeric_lt a b = true ↔ numeric_cmp a b < 0) ∧
        (numeric_le a b = true ↔ numeric_cmp a b ≤ 0)) := by
  refine ⟨?_, ?_, ?_, ?_, ?_, ?_, ?_⟩
  · intro a b ha hb
    simp [numeric_cmp, cmp_numerics, ha, hb]
  · intro a b ha hb
    simp [numeric_cmp, cmp_numerics, ha, hb]
  · intro a b ha hb
    simp [numeric_cmp, cmp_numerics, ha, hb]
  · intro a b ha hb hwa hwb
    exact cmp_numerics_val ha hb hwa hwb
  · intro a b ha hb
    rcases ha with ha | ⟨ha, hwa⟩ <;> rcases hb with hb | ⟨hb, hwb⟩
    · simp [numeric_cmp, cmp_numerics, ha, hb]
    · simp [numeric_cmp, cmp_numerics, ha, hb]
    · simp [numeric_cmp, cmp_numerics, ha, hb]
    · show cmp_numerics b a = -cmp_numerics a b
      rw [cmp_numerics_val hb ha hwb hwa, cmp_numerics_val ha hb hwa hwb]
      exact cmpRat_antisymm _ _
  · intro a b c ha hb hc hab hbc
    rcases hc with hc | ⟨hc, hwc⟩
    · rcases ha with ha | ⟨ha, _⟩ <;> simp [numeric_cmp, cmp_numerics, ha, hc]
    · rcases hb with hb | ⟨hb, hwb⟩
      · exfalso
        simp [numeric_cmp, cmp_numerics, hb, hc] at hbc
      · rcases ha with ha | ⟨ha, hwa⟩
        · exfalso
          simp [numeric_cmp, cmp_numerics, ha, hb] at hab
        · have h1 : numeric_cmp a b = cmpRat (nval a) (nval b) :=
            cmp_numerics_val ha hb hwa hwb
          have h2 : numeric_cmp b c = cmpRat (nval b) (nval c) :=
            cmp_numerics_val hb hc hwb hwc
          have h3 : numeric_cmp a c = cmpRat (nval a) (nval c) :=
            cmp_numerics_val ha hc hwa hwc
          rw [h1] at hab
          rw [h2] at hbc
          rw [h3]
          exact (cmpRat_le_zero_iff _ _).mpr
            (le_trans ((cmpRat_le_zero_iff _ _).mp hab) ((cmpRat_le_zero_iff _ _).mp hbc))
  · intro a b
    refine ⟨?_, ?_, ?_, ?_, ?_, ?_⟩ <;>
      simp [numeric_eq, numeric_ne, numeric_gt, numeric_ge, numeric_lt, numeric_le,
        numeric_cmp]

theorem C5_cmp_total_order_and_predicates_witness :
    numeric_cmp const_nan const_nan = 0 ∧
    numeric_cmp { weight := 0, sign := NUMERIC_POS, dscale := 2, digits := [1, 1300] }
        { weight := 0, sign := NUMERIC_NEG, dscale := 0, digits := [5] } =
      cmpRat (nval { weight := 0, sign := NUMERIC_POS, dscale := 2, digits := [1, 1300] })
        (nval { weight := 0, sign := NUMERIC_NEG, dscale := 0, digits := [5] }) ∧
    numeric_cmp { weight := 0, sign := NUMERIC_NEG, dscale := 0, digits := [5] }
      const_nan ≤ 0 := by
  refine ⟨C5_cmp_total_order_and_predicates.1 const_nan const_nan (by decide) (by decide),
    C5_cmp_total_order_and_predicates.2.2.2.1
      { weight := 0, sign := NUMERIC_POS, dscale := 2, digits := [1, 1300] }
      { weight := 0, sign := NUMERIC_NEG, dscale := 0, digits := [5] }
      (by decide) (by decide) (by decide) (by decide),
    C5_cmp_total_order_and_predicates.2.2.2.2.2.1
      { weight := 0, sign := NUMERIC_NEG, dscale := 0, digits := [5] }
      { weight := 0, sign := NUMERIC_POS, dscale := 2, digits := [1, 1300] }
      const_nan (by decide) (by decide) (by decide) (by decide) (by decide)⟩

/-! Value semantics of the digit-window loops of `add_abs`/`sub_abs`, and
value preservation of the stripping and packing steps. -/

theorem getD_mem_or_eq (l : List Int) (n : Nat) : l.getD n 0 ∈ l ∨ l.getD n 0 = 0 := by
  induction l generalizing n with
  | nil => right; simp [List.getD]
  | cons d ds ih =>
    cases n with
    | zero => left; simp [List.getD]
    | succ m =>
      rw [List.getD_cons_succ]
      rcases ih m with h | h
      · exact Or.inl (List.mem_cons_of_mem _ h)
      · exact Or.inr h

theorem digAt_range {l : List Int} (hl : digitsWF l) (i : Int) :
    0 ≤ digAt l i ∧ digAt l i < NBASE := by
  unfold digAt
  split_ifs with h
  · norm_num [NBASE]
  · rcases getD_mem_or_eq l i.toNat with hm | hz
    · exact hl _ hm
    · rw [hz]; norm_num [NBASE]

theorem digAt_nil (i : Int) : digAt [] i = 0 := by
  unfold digAt
  split_ifs <;> simp [List.getD]

theorem digAt_cons_succ (x : Int) (xs : List Int) (i : Int) (hi : 0 ≤ i) :
    digAt (x :: xs) (i + 1) = digAt xs i := by
  unfold digAt
  rw [if_neg (by omega), if_neg (by omega)]
  have h : (i + 1).toNat = i.toNat + 1 := by omega
  rw [h, List.getD_cons_succ]

theorem digAt_cons_zero (x : Int) (xs : List Int) : digAt (x :: xs) 0 = x := by
  unfold digAt
  rw [if_neg (by omega)]
  simp [List.getD]

theorem digAt_neg {l : List Int} {i : Int} (hi : i < 0) : digAt l i = 0 := by
  unfold digAt
  rw [if_pos hi]

/-- Partial positional sum of a digit array: `k` consecutive positions read
through `digAt`, starting at index `j`, the first with weight `W`. -/
def digSum (d : List Int) : Int → Int → Nat → ℚ
  | _, _, 0 => 0
  | j, W, Nat.succ k => (digAt d j : ℚ) * (10000 : ℚ) ^ W + digSum d (j + 1) (W - 1) k

theorem digSum_zero (d : List Int) (j W : Int) : digSum d j W 0 = 0 := rfl

theorem digSum_succ (d : List Int) (j W : Int) (k : Nat) :
    digSum d j W (k + 1) =
      (digAt d j : ℚ) * (10000 : ℚ) ^ W + digSum d (j + 1) (W - 1) k := rfl

theorem digSum_nil : ∀ (k : Nat) (j W : Int), digSum [] j W k = 0 := by
  intro k
  induction k with
  | zero => intro j W; rfl
  | succ m ih =>
    intro j W
    rw [digSum_succ, ih, digAt_nil]
    norm_num

theorem digSum_shift (x : Int) (xs : List Int) :
    ∀ (k : Nat) (j W : Int), 0 ≤ j → digSum (x :: xs) (j + 1) W k = digSum xs j W k := by
  intro k
  induction k with
  | zero => intro j W _; rfl
  | succ m ih =>
    intro j W hj
    rw [digSum_succ, digSum_succ, digAt_cons_succ x xs j hj, ih (j + 1) (W - 1) (by omega)]

theorem digSum_eq_absval : ∀ (d : List Int) (k : Nat) (j W : Int),
    j ≤ 0 → (d.length : Int) ≤ j + k → digSum d j W k = absval d (W + j) := by
  intro d
  induction d with
  | nil => intro k j W _ _; rw [digSum_nil, absval_nil]
  | cons x xs ih =>
    intro k
    induction k with
    | zero =>
      intro j W hj hlen
      exfalso
      rw [List.length_cons] at hlen
      push_cast at hlen
      omega
    | succ m ihk =>
      intro j W hj hlen
      rcases lt_or_eq_of_le hj with hjneg | hj0
      · rw [digSum_succ, digAt_neg hjneg]
        have hrec := ihk (j + 1) (W - 1) (by omega)
          (by rw [List.length_cons] at hlen ⊢; push_cast at hlen ⊢; omega)
        rw [hrec]
        have hw : W - 1 + (j + 1) = W + j := by ring
        rw [hw]
        norm_num
      · subst hj0
        rw [digSum_succ, digAt_cons_zero]
        have hshift := digSum_shift x xs m 0 (W - 1) le_rfl
        rw [show (0:Int) + 1 = 1 from rfl] at hshift
        rw [show (0:Int) + 1 = 1 from rfl, hshift]
        have hlen2 : (xs.length : Int) ≤ 0 + m := by
          rw [List.length_cons] at hlen
          push_cast at hlen ⊢
          omega
        rw [ih m 0 (W - 1) le_rfl hlen2]
        rw [absval_cons]
        norm_num

theorem absval_append : ∀ (a b : List Int) (w : Int),
    absval (a ++ b) w = absval a w + absval b (w - a.length) := by
  intro a
  induction a with
  | nil => intro b w; simp [absval_nil]
  | cons d ds ih =>
    intro b w
    rw [List.cons_append, absval_cons, absval_cons, ih, List.length_cons]
    have h : w - ((ds.length + 1 : Nat) : Int) = w - 1 - ds.length := by
      push_cast
      ring
    rw [h]
    ring

theorem absval_all_zero : ∀ (l : List Int) (w : Int), (∀ d ∈ l, d = 0) → absval l w = 0 := by
  intro l
  induction l with
  | nil => intro w _; rfl
  | cons d ds ih =>
    intro w h
    rw [absval_cons, h d (by simp), ih (w - 1) fun x hx => h x (by simp [hx])]
    norm_num

theorem strip_trailing_split (l : List Int) :
    l = strip_trailing l ++ (l.reverse.takeWhile (fun d => d == 0)).reverse := by
  unfold strip_trailing
  rw [← List.reverse_append, List.takeWhile_append_dropWhile, List.reverse_reverse]

theorem strip_trailing_absval (l : List Int) (w : Int) :
    absval (strip_trailing l) w = absval l w := by
  conv_rhs => rw [strip_trailing_split l]
  rw [absval_append]
  have hz : absval ((l.reverse.takeWhile (fun d => d == 0)).reverse)
      (w - (strip_trailing l).length) = 0 := by
    apply absval_all_zero
    intro d hd
    rw [List.mem_reverse] at hd
    have := List.mem_takeWhile_imp hd
    simpa using this
  rw [hz, add_zero]

theorem strip_leading_absval : ∀ (l : List Int) (w : Int),
    absval (strip_leading l w).1 (strip_leading l w).2 = absval l w := by
  intro l
  induction l with
  | nil => intro w; rfl
  | cons d ds ih =>
    intro w
    rw [strip_leading]
    split_ifs with h
    · rw [ih (w - 1), absval_cons, h]
      norm_num
    · rfl

theorem strip_var_absval (v : numeric) :
    absval (strip_var v).digits (strip_var v).weight = absval v.digits v.weight := by
  simp only [strip_var]
  split_ifs with h
  · have h1 : strip_trailing (strip_leading v.digits v.weight).1 = [] :=
      List.isEmpty_iff.mp h
    rw [show absval ({ v with sign := NUMERIC_POS, weight := 0, digits := [] } :
          numeric).digits 0 = 0 from rfl]
    rw [← strip_leading_absval v.digits v.weight,
        ← strip_trailing_absval (strip_leading v.digits v.weight).1, h1, absval_nil]
  · show absval (strip_trailing (strip_leading v.digits v.weight).1)
        (strip_leading v.digits v.weight).2 = _
    rw [strip_trailing_absval, strip_leading_absval]

theorem strip_var_sign (v : numeric) :
    (strip_var v).sign = NUMERIC_POS ∨ (strip_var v).sign = v.sign := by
  simp only [strip_var]
  split_ifs <;> simp

theorem make_result_val {v : numeric} {pd : Int} {r : numeric}
    (hn : NUMERIC_IS_NAN v = false) (h : make_result v pd = .ok r) :
    nval r = nval v := by
  unfold make_result at h
  rw [hn] at h
  simp only [Bool.false_eq_true, if_false] at h
  split_ifs at h with h1 h2
  · have hr := Except.ok.inj h
    have hz : absval v.digits v.weight = 0 := by
      have he : strip_trailing (strip_leading v.digits v.weight).1 = [] :=
        List.isEmpty_iff.mp h1
      rw [← strip_leading_absval v.digits v.weight,
          ← strip_trailing_absval (strip_leading v.digits v.weight).1, he, absval_nil]
    rw [← hr]
    simp [nval, absval_nil, hz]
  · have hr := Except.ok.inj h
    rw [← hr]
    show (if v.sign = NUMERIC_NEG then (-1:ℚ) else 1) *
        absval (strip_trailing (strip_leading v.digits v.weight).1)
          (strip_leading v.digits v.weight).2 = nval v
    rw [strip_trailing_absval, strip_leading_absval]
    rfl

theorem add_abs_loop_succ (d1 : List Int) (o1 : Int) (d2 : List Int) (o2 : Int)
    (N : Int) (k : Nat) :
    add_abs_loop d1 o1 d2 o2 N (k + 1) =
      if digAt d1 (N - 1 - k + o1) + digAt d2 (N - 1 - k + o2) +
          (add_abs_loop d1 o1 d2 o2 N k).2 ≥ NBASE
      then ((digAt d1 (N - 1 - k + o1) + digAt d2 (N - 1 - k + o2) +
          (add_abs_loop d1 o1 d2 o2 N k).2 - NBASE) :: (add_abs_loop d1 o1 d2 o2 N k).1, 1)
      else ((digAt d1 (N - 1 - k + o1) + digAt d2 (N - 1 - k + o2) +
          (add_abs_loop d1 o1 d2 o2 N k).2) :: (add_abs_loop d1 o1 d2 o2 N k).1, 0) := rfl

theorem sub_abs_loop_succ (d1 : List Int) (o1 : Int) (d2 : List Int) (o2 : Int)
    (N : Int) (k : Nat) :
    sub_abs_loop d1 o1 d2 o2 N (k + 1) =
      if digAt d1 (N - 1 - k + o1) - digAt d2 (N - 1 - k + o2) +
          (sub_abs_loop d1 o1 d2 o2 N k).2 < 0
      then ((digAt d1 (N - 1 - k + o1) - digAt d2 (N - 1 - k + o2) +
          (sub_abs_loop d1 o1 d2 o2 N k).2 + NBASE) :: (sub_abs_loop d1 o1 d2 o2 N k).1, -1)
      else ((digAt d1 (N - 1 - k + o1) - digAt d2 (N - 1 - k + o2) +
          (sub_abs_loop d1 o1 d2 o2 N k).2) :: (sub_abs_loop d1 o1 d2 o2 N k).1, 0) := rfl

theorem add_abs_loop_spec (d1 : List Int) (o1 : Int) (d2 : List Int) (o2 : Int) (N : Int)
    (h1 : digitsWF d1) (h2 : digitsWF d2) :
    ∀ (k : Nat) (W : Int),
      ((add_abs_loop d1 o1 d2 o2 N k).2 = 0 ∨ (add_abs_loop d1 o1 d2 o2 N k).2 = 1) ∧
      digitsWF (add_abs_loop d1 o1 d2 o2 N k).1 ∧
      absval (add_abs_loop d1 o1 d2 o2 N k).1 (W - N + k) +
        (((add_abs_loop d1 o1 d2 o2 N k).2 : ℚ)) * (10000 : ℚ) ^ (W - N + k + 1) =
      digSum d1 (N - k + o1) (W - N + k) k + digSum d2 (N - k + o2) (W - N + k) k := by
  intro k
  induction k with
  | zero =>
    intro W
    refine ⟨Or.inl rfl, fun d hd => absurd hd (List.not_mem_nil d), ?_⟩
    simp [show add_abs_loop d1 o1 d2 o2 N 0 = ([], 0) from rfl, absval_nil, digSum_zero]
  | succ m ih =>
    intro W
    obtain ⟨hc, hwf, hval⟩ := ih W
    obtain ⟨h1a, h1b⟩ := digAt_range h1 (N - 1 - (m:Int) + o1)
    obtain ⟨h2a, h2b⟩ := digAt_range h2 (N - 1 - (m:Int) + o2)
    rw [add_abs_loop_succ]
    have hBv : NBASE = 10000 := rfl
    have hpow1 : (10000:ℚ) ^ (W - N + (m:Int) + 1) =
        (10000:ℚ) ^ (W - N + (m:Int)) * 10000 := by
      rw [zpow_add_one₀ (by norm_num : (10000:ℚ) ≠ 0)]
    have hpow2 : (10000:ℚ) ^ (W - N + (m:Int) + 1 + 1) =
        (10000:ℚ) ^ (W - N + (m:Int) + 1) * 10000 := by
      rw [zpow_add_one₀ (by norm_num : (10000:ℚ) ≠ 0)]
    by_cases hs : digAt d1 (N - 1 - (m:Int) + o1) + digAt d2 (N - 1 - (m:Int) + o2) +
        (add_abs_loop d1 o1 d2 o2 N m).2 ≥ NBASE
    · rw [if_pos hs]
      refine ⟨Or.inr rfl, ?_, ?_⟩
      · intro d hd
        rcases List.mem_cons.mp hd with hd0 | hdm
        · subst hd0
          rcases hc with hc | hc <;> rw [hc] at hs ⊢ <;> constructor <;> omega
        · exact hwf d hdm
      · push_cast
        rw [absval_cons, digSum_succ, digSum_succ]
        rw [show N - ((m:Int) + 1) + o1 = N - 1 - (m:Int) + o1 from by ring,
            show N - ((m:Int) + 1) + o2 = N - 1 - (m:Int) + o2 from by ring,
            show N - 1 - (m:Int) + o1 + 1 = N - (m:Int) + o1 from by ring,
            show N - 1 - (m:Int) + o2 + 1 = N - (m:Int) + o2 from by ring,
            show W - N + ((m:Int) + 1) - 1 = W - N + (m:Int) from by ring,
            show W - N + ((m:Int) + 1) + 1 = W - N + (m:Int) + 1 + 1 from by ring,
            show W - N + ((m:Int) + 1) = W - N + (m:Int) + 1 from by ring]
        rw [hpow2, hpow1]
        rw [hpow1] at hval
        push_cast
        push_cast [hBv]
        linear_combination hval
    · rw [if_neg hs]
      refine ⟨Or.inl rfl, ?_, ?_⟩
      · intro d hd
        rcases List.mem_cons.mp hd with hd0 | hdm
        · subst hd0
          rcases hc with hc | hc <;> rw [hc] at hs ⊢ <;> constructor <;> omega
        · exact hwf d hdm
      · push_cast
        rw [absval_cons, digSum_succ, digSum_succ]
        rw [show N - ((m:Int) + 1) + o1 = N - 1 - (m:Int) + o1 from by ring,
            show N - ((m:Int) + 1) + o2 = N - 1 - (m:Int) + o2 from by ring,
            show N - 1 - (m:Int) + o1 + 1 = N - (m:Int) + o1 from by ring,
            show N - 1 - (m:Int) + o2 + 1 = N - (m:Int) + o2 from by ring,
            show W - N + ((m:Int) + 1) - 1 = W - N + (m:Int) from by ring,
            show W - N + ((m:Int) + 1) + 1 = W - N + (m:Int) + 1 + 1 from by ring,
            show W - N + ((m:Int) + 1) = W - N + (m:Int) + 1 from by ring]
        rw [hpow2, hpow1]
        rw [hpow1] at hval
        push_cast
        linear_combination hval

theorem sub_abs_loop_spec (d1 : List Int) (o1 : Int) (d2 : List Int) (o2 : Int) (N : Int)
    (h1 : digitsWF d1) (h2 : digitsWF d2) :
    ∀ (k : Nat) (W : Int),
      ((sub_abs_loop d1 o1 d2 o2 N k).2 = 0 ∨ (sub_abs_loop d1 o1 d2 o2 N k).2 = -1) ∧
      digitsWF (sub_abs_loop d1 o1 d2 o2 N k).1 ∧
      absval (sub_abs_loop d1 o1 d2 o2 N k).1 (W - N + k) +
        (((sub_abs_loop d1 o1 d2 o2 N k).2 : ℚ)) * (10000 : ℚ) ^ (W - N + k + 1) =
      digSum d1 (N - k + o1) (W - N + k) k - digSum d2 (N - k + o2) (W - N + k) k := by
  intro k
  induction k with
  | zero =>
    intro W
    refine ⟨Or.inl rfl, fun d hd => absurd hd (List.not_mem_nil d), ?_⟩
    simp [show sub_abs_loop d1 o1 d2 o2 N 0 = ([], 0) from rfl, absval_nil, digSum_zero]
  | succ m ih =>
    intro W
    obtain ⟨hc, hwf, hval⟩ := ih W
    obtain ⟨h1a, h1b⟩ := digAt_range h1 (N - 1 - (m:Int) + o1)
    obtain ⟨h2a, h2b⟩ := digAt_range h2 (N - 1 - (m:Int) + o2)
    rw [sub_abs_loop_succ]
    have hBv : NBASE = 10000 := rfl
    have hpow1 : (10000:ℚ) ^ (W - N + (m:Int) + 1) =
        (10000:ℚ) ^ (W - N + (m:Int)) * 10000 := by
      rw [zpow_add_one₀ (by norm_num : (10000:ℚ) ≠ 0)]
    have hpow2 : (10000:ℚ) ^ (W - N + (m:Int) + 1 + 1) =
        (10000:ℚ) ^ (W - N + (m:Int) + 1) * 10000 := by
      rw [zpow_add_one₀ (by norm_num : (10000:ℚ) ≠ 0)]
    by_cases hs : digAt d1 (N - 1 - (m:Int) + o1) - digAt d2 (N - 1 - (m:Int) + o2) +
        (sub_abs_loop d1 o1 d2 o2 N m).2 < 0
    · rw [if_pos hs]
      refine ⟨Or.inr rfl, ?_, ?_⟩
      · intro d hd
        rcases List.mem_cons.mp hd with hd0 | hdm
        · subst hd0
          rcases hc with hc | hc <;> rw [hc] at hs ⊢ <;> constructor <;> omega
        · exact hwf d hdm
      · push_cast
        rw [absval_cons, digSum_succ, digSum_succ]
        rw [show N - ((m:Int) + 1) + o1 = N - 1 - (m:Int) + o1 from by ring,
            show N - ((m:Int) + 1) + o2 = N - 1 - (m:Int) + o2 from by ring,
            show N - 1 - (m:Int) + o1 + 1 = N - (m:Int) + o1 from by ring,
            show N - 1 - (m:Int) + o2 + 1 = N - (m:Int) + o2 from by ring,
            show W - N + ((m:Int) + 1) - 1 = W - N + (m:Int) from by ring,
            show W - N + ((m:Int) + 1) + 1 = W - N + (m:Int) + 1 + 1 from by ring,
            show W - N + ((m:Int) + 1) = W - N + (m:Int) + 1 from by ring]
        rw [hpow2, hpow1]
        rw [hpow1] at hval
        push_cast [hBv]
        linear_combination hval
    · rw [if_neg hs]
      refine ⟨Or.inl rfl, ?_, ?_⟩
      · intro d hd
        rcases List.mem_cons.mp hd with hd0 | hdm
        · subst hd0
          rcases hc with hc | hc <;> rw [hc] at hs ⊢ <;> constructor <;> omega
        · exact hwf d hdm
      · push_cast
        rw [absval_cons, digSum_succ, digSum_succ]
        rw [show N - ((m:Int) + 1) + o1 = N - 1 - (m:Int) + o1 from by ring,
            show N - ((m:Int) + 1) + o2 = N - 1 - (m:Int) + o2 from by ring,
            show N - 1 - (m:Int) + o1 + 1 = N - (m:Int) + o1 from by ring,
            show N - 1 - (m:Int) + o2 + 1 = N - (m:Int) + o2 from by ring,
            show W - N + ((m:Int) + 1) - 1 = W - N + (m:Int) from by ring,
            show W - N + ((m:Int) + 1) + 1 = W - N + (m:Int) + 1 + 1 from by ring,
            show W - N + ((m:Int) + 1) = W - N + (m:Int) + 1 from by ring]
        rw [hpow2, hpow1]
        rw [hpow1] at hval
        push_cast
        linear_combination hval

theorem add_abs_val (v1 v2 : numeric) (h1 : digitsWF v1.digits) (h2 : digitsWF v2.digits) :
    absval (add_abs v1 v2).digits (add_abs v1 v2).weight =
      absval v1.digits v1.weight + absval v2.digits v2.weight := by
  have hnd1 : v1.ndigits = (v1.digits.length : Int) := rfl
  have hnd2 : v2.ndigits = (v2.digits.length : Int) := rfl
  have hm1 := le_max_left (v1.ndigits - v1.weight - 1) (v2.ndigits - v2.weight - 1)
  have hm2 := le_max_right (v1.ndigits - v1.weight - 1) (v2.ndigits - v2.weight - 1)
  have hw1 := le_max_left v1.weight v2.weight
  have hw2 := le_max_right v1.weight v2.weight
  have hl1 : (0:Int) ≤ (v1.digits.length : Int) := Int.natCast_nonneg _
  have hl2 : (0:Int) ≤ (v2.digits.length : Int) := Int.natCast_nonneg _
  simp only [add_abs]
  rw [if_neg (by omega : ¬ (max (v1.ndigits - v1.weight - 1) (v2.ndigits - v2.weight - 1) +
      (max v1.weight v2.weight + 1) + 1 ≤ 0))]
  rw [strip_var_absval]
  set rs := max (v1.ndigits - v1.weight - 1) (v2.ndigits - v2.weight - 1) with hrs
  set Wt := max v1.weight v2.weight + 1 with hWt
  obtain ⟨hc, hwf, hval⟩ := add_abs_loop_spec v1.digits (rs + v1.weight + 1 - (rs + Wt + 1))
    v2.digits (rs + v2.weight + 1 - (rs + Wt + 1)) (rs + Wt + 1) h1 h2
    (rs + Wt + 1).toNat Wt
  have hNpos : (1:Int) ≤ rs + Wt + 1 := by omega
  have hcast : (((rs + Wt + 1).toNat : Int)) = rs + Wt + 1 := Int.toNat_of_nonneg (by omega)
  rw [hcast] at hval
  rw [show Wt - (rs + Wt + 1) + (rs + Wt + 1) = Wt from by ring,
      show (rs + Wt + 1) - (rs + Wt + 1) + (rs + v1.weight + 1 - (rs + Wt + 1)) =
        rs + v1.weight + 1 - (rs + Wt + 1) from by ring,
      show (rs + Wt + 1) - (rs + Wt + 1) + (rs + v2.weight + 1 - (rs + Wt + 1)) =
        rs + v2.weight + 1 - (rs + Wt + 1) from by ring] at hval
  rw [digSum_eq_absval v1.digits (rs + Wt + 1).toNat (rs + v1.weight + 1 - (rs + Wt + 1)) Wt
        (by omega) (by rw [hcast]; omega),
      digSum_eq_absval v2.digits (rs + Wt + 1).toNat (rs + v2.weight + 1 - (rs + Wt + 1)) Wt
        (by omega) (by rw [hcast]; omega)] at hval
  rw [show Wt + (rs + v1.weight + 1 - (rs + Wt + 1)) = v1.weight from by ring,
      show Wt + (rs + v2.weight + 1 - (rs + Wt + 1)) = v2.weight from by ring] at hval
  have hpowpos : (0:ℚ) < (10000:ℚ) ^ Wt := zpow_pos (by norm_num) Wt
  rcases hc with hc | hc
  · rw [hc] at hval
    push_cast at hval
    linarith
  · exfalso
    have ha1lt : absval v1.digits v1.weight < (10000:ℚ) ^ (v1.weight + 1) :=
      absval_lt h1 v1.weight
    have ha2lt : absval v2.digits v2.weight < (10000:ℚ) ^ (v2.weight + 1) :=
      absval_lt h2 v2.weight
    have hmono1 : (10000:ℚ) ^ (v1.weight + 1) ≤ (10000:ℚ) ^ Wt :=
      zpow_le_zpow_right₀ (by norm_num) (by omega)
    have hmono2 : (10000:ℚ) ^ (v2.weight + 1) ≤ (10000:ℚ) ^ Wt :=
      zpow_le_zpow_right₀ (by norm_num) (by omega)
    have habs0 : (0:ℚ) ≤ absval (add_abs_loop v1.digits (rs + v1.weight + 1 - (rs + Wt + 1))
        v2.digits (rs + v2.weight + 1 - (rs + Wt + 1)) (rs + Wt + 1)
        (rs + Wt + 1).toNat).1 Wt := absval_nonneg hwf Wt
    have hpw : (10000:ℚ) ^ (Wt + 1) = (10000:ℚ) ^ Wt * 10000 :=
      zpow_add_one₀ (by norm_num) Wt
    rw [hc] at hval
    push_cast at hval
    rw [hpw] at hval
    linarith

theorem sub_abs_loop_empty (o1 o2 N : Int) (k : Nat) (W : Int) :
    absval (sub_abs_loop [] o1 [] o2 N k).1 W = 0 := by
  have hWF : digitsWF ([] : List Int) := fun d hd => absurd hd (List.not_mem_nil d)
  obtain ⟨hc, hwf, hval⟩ := sub_abs_loop_spec [] o1 [] o2 N hWF hWF k (W + N - k)
  rw [digSum_nil, digSum_nil, show W + N - (k:Int) - N + k = W from by ring] at hval
  rcases hc with hc | hc
  · rw [hc] at hval
    push_cast at hval
    linarith
  · exfalso
    have hwlt := absval_lt hwf (W : Int)
    have h0 := absval_nonneg hwf (W : Int)
    have hpowpos : (0:ℚ) < (10000:ℚ) ^ (W + 1) := zpow_pos (by norm_num) _
    rw [hc] at hval
    push_cast at hval
    linarith

theorem sub_abs_val (v1 v2 : numeric) (h1 : digitsWF v1.digits) (h2 : digitsWF v2.digits)
    (hh2 : v2.digits ≠ [] → v2.digits.headD 0 ≠ 0)
    (habs : absval v2.digits v2.weight ≤ absval v1.digits v1.weight) :
    absval (sub_abs v1 v2).digits (sub_abs v1 v2).weight =
      absval v1.digits v1.weight - absval v2.digits v2.weight := by
  have hnd1 : v1.ndigits = (v1.digits.length : Int) := rfl
  have hnd2 : v2.ndigits = (v2.digits.length : Int) := rfl
  have hm1 := le_max_left (v1.ndigits - v1.weight - 1) (v2.ndigits - v2.weight - 1)
  have hm2 := le_max_right (v1.ndigits - v1.weight - 1) (v2.ndigits - v2.weight - 1)
  have hl1 : (0:Int) ≤ (v1.digits.length : Int) := Int.natCast_nonneg _
  have hl2 : (0:Int) ≤ (v2.digits.length : Int) := Int.natCast_nonneg _
  have hw21 : v2.digits ≠ [] → v2.weight ≤ v1.weight := by
    intro hne
    by_contra hgt
    have hge : (10000:ℚ) ^ v2.weight ≤ absval v2.digits v2.weight :=
      absval_head_ge h2 v2.weight hne (hh2 hne)
    have hlt : absval v1.digits v1.weight < (10000:ℚ) ^ (v1.weight + 1) :=
      absval_lt h1 v1.weight
    have hmono : (10000:ℚ) ^ (v1.weight + 1) ≤ (10000:ℚ) ^ v2.weight :=
      zpow_le_zpow_right₀ (by norm_num) (by omega)
    linarith
  by_cases hd1 : v1.digits = []
  · -- |v1| = 0 forces v2 all-empty as well; every window digit is 0
    have hd2 : v2.digits = [] := by
      by_contra hne
      have hpos := absval_pos_of_head h2 v2.weight hne (hh2 hne)
      have hz1 : absval v1.digits v1.weight = 0 := by rw [hd1, absval_nil]
      linarith
    simp only [sub_abs]
    rw [strip_var_absval]
    rw [hd1, hd2, sub_abs_loop_empty, absval_nil, absval_nil]
    norm_num
  · have hlen1pos : 1 ≤ (v1.digits.length : Int) := by
      rcases hx : v1.digits with _ | ⟨x, xs⟩
      · exact absurd hx hd1
      · rw [List.length_cons]; push_cast; omega
    have hN0 : ¬ (max (v1.ndigits - v1.weight - 1) (v2.ndigits - v2.weight - 1) +
        v1.weight + 1 ≤ 0) := by omega
    simp only [sub_abs]
    rw [if_neg hN0]
    rw [strip_var_absval]
    set rs := max (v1.ndigits - v1.weight - 1) (v2.ndigits - v2.weight - 1) with hrs
    obtain ⟨hc, hwf, hval⟩ := sub_abs_loop_spec v1.digits
      (rs + v1.weight + 1 - (rs + v1.weight + 1))
      v2.digits (rs + v2.weight + 1 - (rs + v1.weight + 1)) (rs + v1.weight + 1) h1 h2
      (rs + v1.weight + 1).toNat v1.weight
    have hcast : (((rs + v1.weight + 1).toNat : Int)) = rs + v1.weight + 1 :=
      Int.toNat_of_nonneg (by omega)
    rw [hcast] at hval
    rw [show v1.weight - (rs + v1.weight + 1) + (rs + v1.weight + 1) = v1.weight from by ring,
        show (rs + v1.weight + 1) - (rs + v1.weight + 1) +
          (rs + v1.weight + 1 - (rs + v1.weight + 1)) =
          rs + v1.weight + 1 - (rs + v1.weight + 1) from by ring,
        show (rs + v1.weight + 1) - (rs + v1.weight + 1) +
          (rs + v2.weight + 1 - (rs + v1.weight + 1)) =
          rs + v2.weight + 1 - (rs + v1.weight + 1) from by ring] at hval
    rw [digSum_eq_absval v1.digits (rs + v1.weight + 1).toNat
          (rs + v1.weight + 1 - (rs + v1.weight + 1)) v1.weight
          (by omega) (by rw [hcast]; omega)] at hval
    rw [show v1.weight + (rs + v1.weight + 1 - (rs + v1.weight + 1)) = v1.weight from
          by ring] at hval
    have hds2 : digSum v2.digits (rs + v2.weight + 1 - (rs + v1.weight + 1)) v1.weight
        (rs + v1.weight + 1).toNat = absval v2.digits v2.weight := by
      by_cases hd2 : v2.digits = []
      · rw [hd2, digSum_nil, absval_nil]
      · have hw21' := hw21 hd2
        rw [digSum_eq_absval v2.digits (rs + v1.weight + 1).toNat
              (rs + v2.weight + 1 - (rs + v1.weight + 1)) v1.weight
              (by omega) (by rw [hcast]; omega)]
        rw [show v1.weight + (rs + v2.weight + 1 - (rs + v1.weight + 1)) = v2.weight from
              by ring]
    rw [hds2] at hval
    rcases hc with hc | hc
    · rw [hc] at hval
      push_cast at hval
      linarith
    · exfalso
      have hwlt := absval_lt hwf (v1.weight : Int)
      have hpw : (10000:ℚ) ^ (v1.weight + 1) = (10000:ℚ) ^ v1.weight * 10000 :=
        zpow_add_one₀ (by norm_num) _
      have h2nn : (0:ℚ) ≤ absval v2.digits v2.weight := absval_nonneg h2 _
      rw [hc] at hval
      push_cast at hval
      linarith

theorem cmp_abs_eq_cmpRat (v1 v2 : numeric) (h1 : digitsWF v1.digits)
    (h2 : digitsWF v2.digits) :
    cmp_abs v1 v2 = cmpRat (absval v1.digits v1.weight) (absval v2.digits v2.weight) := by
  unfold cmp_abs
  exact cmp_abs_common_spec v1.digits v1.weight v2.digits v2.weight h1 h2

theorem cmpRat_eq_lit (a b : ℚ) :
    (a < b → cmpRat a b = -1) ∧ (a = b → cmpRat a b = 0) ∧ (b < a → cmpRat a b = 1) := by
  refine ⟨fun h => ?_, fun h => ?_, fun h => ?_⟩
  · simp only [cmpRat]; rw [if_pos h]
  · simp only [cmpRat]; rw [if_neg (by rw [h]; exact lt_irrefl b),
      if_neg (by rw [h]; exact lt_irrefl b)]
  · simp only [cmpRat]; rw [if_neg (by linarith), if_pos h]

theorem add_var_val (v1 v2 : numeric)
    (h1 : digitsWF v1.digits) (hh1 : v1.digits ≠ [] → v1.digits.headD 0 ≠ 0)
    (hs1 : v1.sign = NUMERIC_POS ∨ v1.sign = NUMERIC_NEG)
    (h2 : digitsWF v2.digits) (hh2 : v2.digits ≠ [] → v2.digits.headD 0 ≠ 0)
    (hs2 : v2.sign = NUMERIC_POS ∨ v2.sign = NUMERIC_NEG) :
    nval (add_var v1 v2) = nval v1 + nval v2 := by
  have hca := cmp_abs_eq_cmpRat v1 v2 h1 h2
  rcases hs1 with hs1 | hs1 <;> rcases hs2 with hs2 | hs2 <;>
    simp only [add_var, hs1, hs2, NUMERIC_POS, NUMERIC_NEG] <;> norm_num
  · -- POS POS
    have hval := add_abs_val v1 v2 h1 h2
    simp only [nval, hs1, hs2, NUMERIC_POS, NUMERIC_NEG]
    norm_num
    exact hval
  · -- POS NEG
    rw [hca]
    rcases lt_trichotomy (absval v1.digits v1.weight) (absval v2.digits v2.weight)
      with hlt | heq | hgt
    · rw [(cmpRat_eq_lit _ _).1 hlt]
      norm_num
      have hval := sub_abs_val v2 v1 h2 h1 hh1 (le_of_lt hlt)
      simp only [nval, hs1, hs2, NUMERIC_POS, NUMERIC_NEG]
      norm_num
      rw [hval]
      ring
    · rw [(cmpRat_eq_lit _ _).2.1 heq]
      norm_num
      simp only [nval, hs1, hs2, NUMERIC_POS, NUMERIC_NEG, absval_nil]
      norm_num
      rw [heq]
      ring
    · rw [(cmpRat_eq_lit _ _).2.2 hgt]
      norm_num
      have hval := sub_abs_val v1 v2 h1 h2 hh2 (le_of_lt hgt)
      simp only [nval, hs1, hs2, NUMERIC_POS, NUMERIC_NEG]
      norm_num
      rw [hval]
      ring
  · -- NEG POS
    rw [hca]
    rcases lt_trichotomy (absval v1.digits v1.weight) (absval v2.digits v2.weight)
      with hlt | heq | hgt
    · rw [(cmpRat_eq_lit _ _).1 hlt]
      norm_num
      have hval := sub_abs_val v2 v1 h2 h1 hh1 (le_of_lt hlt)
      simp only [nval, hs1, hs2, NUMERIC_POS, NUMERIC_NEG]
      norm_num
      rw [hval]
      ring
    · rw [(cmpRat_eq_lit _ _).2.1 heq]
      norm_num
      simp only [nval, hs1, hs2, NUMERIC_POS, NUMERIC_NEG, absval_nil]
      norm_num
      rw [heq]
      ring
    · rw [(cmpRat_eq_lit _ _).2.2 hgt]
      norm_num
      have hval := sub_abs_val v1 v2 h1 h2 hh2 (le_of_lt hgt)
      simp only [nval, hs1, hs2, NUMERIC_POS, NUMERIC_NEG]
      norm_num
      rw [hval]
      ring
  · -- NEG NEG
    have hval := add_abs_val v1 v2 h1 h2
    simp only [nval, hs1, hs2, NUMERIC_POS, NUMERIC_NEG]
    norm_num
    rw [hval]
    ring

theorem sub_var_val (v1 v2 : numeric)
    (h1 : digitsWF v1.digits) (hh1 : v1.digits ≠ [] → v1.digits.headD 0 ≠ 0)
    (hs1 : v1.sign = NUMERIC_POS ∨ v1.sign = NUMERIC_NEG)
    (h2 : digitsWF v2.digits) (hh2 : v2.digits ≠ [] → v2.digits.headD 0 ≠ 0)
    (hs2 : v2.sign = NUMERIC_POS ∨ v2.sign = NUMERIC_NEG) :
    nval (sub_var v1 v2) = nval v1 - nval v2 := by
  have hca := cmp_abs_eq_cmpRat v1 v2 h1 h2
  rcases hs1 with hs1 | hs1 <;> rcases hs2 with hs2 | hs2 <;>
    simp only [sub_var, hs1, hs2, NUMERIC_POS, NUMERIC_NEG] <;> norm_num
  · -- POS POS
    rw [hca]
    rcases lt_trichotomy (absval v1.digits v1.weight) (absval v2.digits v2.weight)
      with hlt | heq | hgt
    · rw [(cmpRat_eq_lit _ _).1 hlt]
      norm_num
      have hval := sub_abs_val v2 v1 h2 h1 hh1 (le_of_lt hlt)
      simp only [nval, hs1, hs2, NUMERIC_POS, NUMERIC_NEG]
      norm_num
      all_goals linarith [hval]
    · rw [(cmpRat_eq_lit _ _).2.1 heq]
      norm_num
      simp only [nval, hs1, hs2, NUMERIC_POS, NUMERIC_NEG, absval_nil]
      norm_num
      all_goals linarith [heq]
    · rw [(cmpRat_eq_lit _ _).2.2 hgt]
      norm_num
      have hval := sub_abs_val v1 v2 h1 h2 hh2 (le_of_lt hgt)
      simp only [nval, hs1, hs2, NUMERIC_POS, NUMERIC_NEG]
      norm_num
      all_goals linarith [hval]
  · -- POS NEG
    have hval := add_abs_val v1 v2 h1 h2
    simp only [nval, hs1, hs2, NUMERIC_POS, NUMERIC_NEG]
    norm_num
    all_goals linarith [hval]
  · -- NEG POS
    have hval := add_abs_val v1 v2 h1 h2
    simp only [nval, hs1, hs2, NUMERIC_POS, NUMERIC_NEG]
    norm_num
    all_goals linarith [hval]
  · -- NEG NEG
    rw [hca]
    rcases lt_trichotomy (absval v1.digits v1.weight) (absval v2.digits v2.weight)
      with hlt | heq | hgt
    · rw [(cmpRat_eq_lit _ _).1 hlt]
      norm_num
      have hval := sub_abs_val v2 v1 h2 h1 hh1 (le_of_lt hlt)
      simp only [nval, hs1, hs2, NUMERIC_POS, NUMERIC_NEG]
      norm_num
      all_goals linarith [hval]
    · rw [(cmpRat_eq_lit _ _).2.1 heq]
      norm_num
      simp only [nval, hs1, hs2, NUMERIC_POS, NUMERIC_NEG, absval_nil]
      norm_num
      all_goals linarith [heq]
    · rw [(cmpRat_eq_lit _ _).2.2 hgt]
      norm_num
      have hval := sub_abs_val v1 v2 h1 h2 hh2 (le_of_lt hgt)
      simp only [nval, hs1, hs2, NUMERIC_POS, NUMERIC_NEG]
      norm_num
      all_goals linarith [hval]

theorem trunc_var_zero (x : numeric) :
    trunc_var x 0 =
      if x.weight < 0 then
        { x with sign := NUMERIC_POS, weight := 0, dscale := 0, digits := [] }
      else if x.weight + 1 ≤ x.ndigits then
        { x with dscale := 0, digits := x.digits.take (x.weight + 1).toNat }
      else { x with dscale := 0 } := by
  simp only [trunc_var]
  rw [show DEC_DIGITS = 4 from rfl]
  by_cases hw : x.weight < 0
  · rw [if_pos (by omega : (x.weight + 1) * 4 + 0 ≤ 0), if_pos hw]
  · rw [if_neg (by omega : ¬ ((x.weight + 1) * 4 + 0 ≤ 0)), if_neg hw]
    have hq : Int.tdiv ((x.weight + 1) * 4 + 0 + 4 - 1) 4 = x.weight + 1 := by
      rw [Int.tdiv_eq_ediv (by omega) (by norm_num)]
      omega
    have hr : Int.tmod ((x.weight + 1) * 4 + 0) 4 = 0 := by
      rw [Int.tmod_eq_emod (by omega) (by norm_num)]
      omega
    rw [hq, hr]
    by_cases hn : x.weight + 1 ≤ x.ndigits
    · rw [if_pos hn, if_pos hn, if_neg (by omega : ¬ (0:Int) > 0)]
    · rw [if_neg hn, if_neg hn]

theorem take_headD (l : List Int) (k : Nat) :
    (l.take (k + 1)).headD 0 = l.headD 0 := by
  cases l with
  | nil => simp
  | cons d ds => rw [List.take_succ_cons, List.headD_cons, List.headD_cons]

theorem trunc_var_zero_wf (x : numeric) (hw : wf_num x) : wf_num (trunc_var x 0) := by
  obtain ⟨h1, h2, h3⟩ := hw
  rw [trunc_var_zero]
  split_ifs with hneg hle
  · exact ⟨fun d hd => absurd hd (List.not_mem_nil d), fun h => absurd rfl h,
      fun _ => ⟨rfl, rfl⟩⟩
  · refine ⟨fun d hd => h1 d (List.mem_of_mem_take hd), ?_, ?_⟩
    · intro hne
      have hk : (x.weight + 1).toNat = (x.weight + 1 - 1).toNat + 1 := by omega
      rw [hk, take_headD]
      apply h2
      intro hx
      rw [hx] at hne
      simp at hne
    · intro he
      have hx : x.digits = [] := by
        by_contra hne
        rcases hd : x.digits with _ | ⟨d, ds⟩
        · exact hne hd
        · rw [hd] at he
          have hk : (x.weight + 1).toNat = (x.weight + 1 - 1).toNat + 1 := by omega
          rw [hk, List.take_succ_cons] at he
          simp at he
      exact h3 hx
  · exact ⟨h1, h2, h3⟩

theorem trunc_var_zero_sign (x : numeric) :
    (trunc_var x 0).sign = NUMERIC_POS ∨ (trunc_var x 0).sign = x.sign := by
  rw [trunc_var_zero]
  split_ifs <;> simp

theorem add_var_sign (a b : numeric) :
    (add_var a b).sign = NUMERIC_POS ∨ (add_var a b).sign = NUMERIC_NEG := by
  unfold add_var
  split_ifs <;> (try simp) <;> split_ifs <;> simp

theorem sub_var_sign (a b : numeric) :
    (sub_var a b).sign = NUMERIC_POS ∨ (sub_var a b).sign = NUMERIC_NEG := by
  unfold sub_var
  split_ifs <;> (try simp) <;> split_ifs <;> simp

theorem nval_const_one : nval const_one = 1 := by
  norm_num [nval, const_one, absval_cons, absval_nil, NUMERIC_POS, NUMERIC_NEG]

theorem cmp_var_val {x y : numeric}
    (hnx : NUMERIC_IS_NAN x = false) (hny : NUMERIC_IS_NAN y = false)
    (hx : wf_num x) (hy : wf_num y) :
    cmp_var x y = cmpRat (nval x) (nval y) := by
  have h := cmp_numerics_val hnx hny hx hy
  unfold cmp_numerics at h
  rw [hnx, hny] at h
  simp only [Bool.false_eq_true, if_false] at h
  unfold cmp_var
  exact h

/-- **C8**: with `t = trunc_var(x, 0)`, `numeric_ceil` returns the value
`t + 1` exactly when `x` is positive and differs from `t` in value, and
otherwise returns `t`; `numeric_floor` returns `t - 1` exactly when `x` is
negative and differs from `t`, and otherwise returns `t` (results read through
the packing step, values compared as rationals). -/
theorem C8_ceil_floor_via_trunc (x : numeric) (pd : Int)
    (hn : NUMERIC_IS_NAN x = false) (hw : wf_num x) :
    (∀ c, numeric_ceil x pd = .ok c →
        nval c = (if 0 < nval x ∧ nval x ≠ nval (trunc_var x 0)
                  then nval (trunc_var x 0) + 1 else nval (trunc_var x 0))) ∧
    (∀ f, numeric_floor x pd = .ok f →
        nval f = (if nval x < 0 ∧ nval x ≠ nval (trunc_var x 0)
                  then nval (trunc_var x 0) - 1 else nval (trunc_var x 0))) := by
  have hsx := (is_nan_false_iff x).mp hn
  have hwt := trunc_var_zero_wf x hw
  have hsT : (trunc_var x 0).sign = NUMERIC_POS ∨ (trunc_var x 0).sign = NUMERIC_NEG := by
    rcases trunc_var_zero_sign x with h | h
    · exact Or.inl h
    · rw [h]; exact hsx
  have hnT : NUMERIC_IS_NAN (trunc_var x 0) = false := (is_nan_false_iff _).mpr hsT
  have hcmp := cmp_var_val hn hnT hw hwt
  have hone1 : digitsWF const_one.digits := by decide
  have hone2 : const_one.digits ≠ [] → const_one.digits.headD 0 ≠ 0 := by decide
  have honeS : const_one.sign = NUMERIC_POS ∨ const_one.sign = NUMERIC_NEG := Or.inl rfl
  have hempty : x.digits = [] → nval x = 0 ∧ nval (trunc_var x 0) = 0 := by
    intro hdd
    obtain ⟨hsp, hw0⟩ := hw.2.2 hdd
    refine ⟨by simp [nval, hdd, absval_nil], ?_⟩
    rw [trunc_var_zero]
    simp [numeric.ndigits, hdd, hw0, nval, absval_nil]
  refine ⟨?_, ?_⟩
  · intro c hc
    unfold numeric_ceil at hc
    rw [hn] at hc
    simp only [Bool.false_eq_true, if_false] at hc
    simp only [ceil_var] at hc
    by_cases hb : (x.sign == NUMERIC_POS && !(cmp_var x (trunc_var x 0) == 0)) = true
    · rw [if_pos hb] at hc
      rw [Bool.and_eq_true] at hb
      obtain ⟨hbs, hbc⟩ := hb
      have hxsign : x.sign = NUMERIC_POS := by simpa using hbs
      have hcne : ¬ (cmp_var x (trunc_var x 0) = 0) := by simpa using hbc
      have hvne : nval x ≠ nval (trunc_var x 0) := fun he =>
        hcne (by rw [hcmp, he]; exact (cmpRat_eq_lit _ _).2.1 rfl)
      have hdne : x.digits ≠ [] := by
        intro hdd
        obtain ⟨h0x, h0t⟩ := hempty hdd
        exact hvne (by rw [h0x, h0t])
      have hpos : 0 < nval x := by
        have hfac : nval x = absval x.digits x.weight := by
          simp [nval, hxsign, NUMERIC_POS, NUMERIC_NEG]
        rw [hfac]
        exact absval_pos_of_head hw.1 x.weight hdne (hw.2.1 hdne)
      rw [if_pos ⟨hpos, hvne⟩]
      have hnadd : NUMERIC_IS_NAN (add_var (trunc_var x 0) const_one) = false :=
        (is_nan_false_iff _).mpr (add_var_sign _ _)
      rw [make_result_val hnadd hc]
      rw [add_var_val _ _ hwt.1 hwt.2.1 hsT hone1 hone2 honeS, nval_const_one]
    · rw [if_neg hb] at hc
      have hcond : ¬ (0 < nval x ∧ nval x ≠ nval (trunc_var x 0)) := by
        rintro ⟨hpos, hvne⟩
        apply hb
        rw [Bool.and_eq_true]
        refine ⟨?_, ?_⟩
        · rcases hsx with h | h
          · simp [h]
          · exfalso
            have hfac : nval x = -absval x.digits x.weight := by
              simp [nval, h, NUMERIC_POS, NUMERIC_NEG]
            have h0 := absval_nonneg hw.1 x.weight
            rw [hfac] at hpos
            linarith
        · have hne0 : cmp_var x (trunc_var x 0) ≠ 0 := by
            rw [hcmp]
            rcases lt_or_gt_of_ne hvne with h | h
            · rw [(cmpRat_eq_lit _ _).1 h]; norm_num
            · rw [(cmpRat_eq_lit _ _).2.2 h]; norm_num
          simpa using hne0
      rw [if_neg hcond]
      exact make_result_val hnT hc
  · intro f hf
    unfold numeric_floor at hf
    rw [hn] at hf
    simp only [Bool.false_eq_true, if_false] at hf
    simp only [floor_var] at hf
    by_cases hb : (x.sign == NUMERIC_NEG && !(cmp_var x (trunc_var x 0) == 0)) = true
    · rw [if_pos hb] at hf
      rw [Bool.and_eq_true] at hb
      obtain ⟨hbs, hbc⟩ := hb
      have hxsign : x.sign = NUMERIC_NEG := by simpa using hbs
      have hcne : ¬ (cmp_var x (trunc_var x 0) = 0) := by simpa using hbc
      have hvne : nval x ≠ nval (trunc_var x 0) := fun he =>
        hcne (by rw [hcmp, he]; exact (cmpRat_eq_lit _ _).2.1 rfl)
      have hdne : x.digits ≠ [] := by
        intro hdd
        obtain ⟨h0x, h0t⟩ := hempty hdd
        exact hvne (by rw [h0x, h0t])
      have hneg : nval x < 0 := by
        have hfac : nval x = -absval x.digits x.weight := by
          simp [nval, hxsign, NUMERIC_POS, NUMERIC_NEG]
        rw [hfac]
        have := absval_pos_of_head hw.1 x.weight hdne (hw.2.1 hdne)
        linarith
      rw [if_pos ⟨hneg, hvne⟩]
      have hnsub : NUMERIC_IS_NAN (sub_var (trunc_var x 0) const_one) = false :=
        (is_nan_false_iff _).mpr (sub_var_sign _ _)
      rw [make_result_val hnsub hf]
      rw [sub_var_val _ _ hwt.1 hwt.2.1 hsT hone1 hone2 honeS, nval_const_one]
    · rw [if_neg hb] at hf
      have hcond : ¬ (nval x < 0 ∧ nval x ≠ nval (trunc_var x 0)) := by
        rintro ⟨hneg, hvne⟩
        apply hb
        rw [Bool.and_eq_true]
        refine ⟨?_, ?_⟩
        · rcases hsx with h | h
          · exfalso
            have hfac : nval x = absval x.digits x.weight := by
              simp [nval, h, NUMERIC_POS, NUMERIC_NEG]
            have h0 := absval_nonneg hw.1 x.weight
            rw [hfac] at hneg
            linarith
          · simp [h]
        · have hne0 : cmp_var x (trunc_var x 0) ≠ 0 := by
            rw [hcmp]
            rcases lt_or_gt_of_ne hvne with h | h
            · rw [(cmpRat_eq_lit _ _).1 h]; norm_num
            · rw [(cmpRat_eq_lit _ _).2.2 h]; norm_num
          simpa using hne0
      rw [if_neg hcond]
      exact make_result_val hnT hf

/-- Concrete input 0.5 used to exercise the ceil/floor characterization. -/
def ceil_floor_example : numeric :=
  { weight := -1, sign := NUMERIC_POS, dscale := 1, digits := [5000] }

theorem C8_ceil_floor_via_trunc_witness :
    nval { weight := 0, sign := NUMERIC_POS, dscale := 0, digits := [1] } =
      (if 0 < nval ceil_floor_example ∧
          nval ceil_floor_example ≠ nval (trunc_var ceil_floor_example 0)
       then nval (trunc_var ceil_floor_example 0) + 1
       else nval (trunc_var ceil_floor_example 0)) ∧
    nval { weight := 0, sign := NUMERIC_POS, dscale := 0, digits := [] } =
      (if nval ceil_floor_example < 0 ∧
          nval ceil_floor_example ≠ nval (trunc_var ceil_floor_example 0)
       then nval (trunc_var ceil_floor_example 0) - 1
       else nval (trunc_var ceil_floor_example 0)) := by
  have h := C8_ceil_floor_via_trunc ceil_floor_example 0 (by decide) (by decide)
  exact ⟨h.1 { weight := 0, sign := NUMERIC_POS, dscale := 0, digits := [1] } (by decide),
         h.2 { weight := 0, sign := NUMERIC_POS, dscale := 0, digits := [] } (by decide)⟩

/-! Exactness of `round_var` on values that are already exact at the target
scale, and well-formedness facts about the digit pipeline of `mul_var` and
`div_var`. -/

theorem propagate_carry_zero : ∀ l : List Int, propagate_carry l 0 = (l, 0) := by
  intro l
  induction l with
  | nil => rfl
  | cons d ds ih =>
    show (let p := propagate_carry ds 0
      if p.2 = 0 then (d :: p.1, 0)
      else
        let t := d + p.2
        if t ≥ NBASE then ((t - NBASE) :: p.1, 1) else (t :: p.1, 0)) = (d :: ds, 0)
    rw [ih]
    simp

theorem absval_take_drop (l : List Int) (n : Nat) (w : Int) (hn : n ≤ l.length) :
    absval l w = absval (l.take n) w + absval (l.drop n) (w - n) := by
  conv_lhs => rw [← List.take_append_drop n l]
  rw [absval_append, List.length_take]
  congr 2
  omega

theorem absval_int_multiple : ∀ (l : List Int) (w : Int),
    ∃ z : ℤ, absval l w = (z : ℚ) * (10 : ℚ) ^ (4 * (w - l.length + 1)) := by
  intro l
  induction l with
  | nil =>
    intro w
    exact ⟨0, by simp [absval_nil]⟩
  | cons d ds ih =>
    intro w
    obtain ⟨z', hz'⟩ := ih (w - 1)
    refine ⟨d * (10 : ℤ) ^ (4 * ds.length) + z', ?_⟩
    rw [absval_cons, hz', List.length_cons]
    have h1 : (4:Int) * (w - 1 - (ds.length:Int) + 1) =
        4 * (w - ((ds.length + 1 : Nat) : Int) + 1) := by
      push_cast
      ring
    have h2 : (10000:ℚ) ^ w = (10:ℚ) ^ ((4:Int) * w) := by
      rw [show (10000:ℚ) = (10:ℚ) ^ (4:Int) from by norm_num, ← zpow_mul]
    have h3 : ((d * 10 ^ (4 * ds.length) + z' : ℤ) : ℚ) =
        (d:ℚ) * (10:ℚ) ^ ((4 * ds.length : Nat) : Int) + (z':ℚ) := by
      rw [zpow_natCast]
      push_cast
      ring
    rw [h1, h2, h3, add_mul]
    congr 1
    rw [mul_assoc, ← zpow_add₀ (by norm_num : (10:ℚ) ≠ 0)]
    congr 1
    push_cast
    ring_nf

theorem getD_eq_drop_headD (l : List Int) (n : Nat) : l.getD n 0 = (l.drop n).headD 0 := by
  induction l generalizing n with
  | nil => simp [List.getD]
  | cons d ds ih =>
    cases n with
    | zero => simp [List.getD]
    | succ m =>
      rw [List.getD_cons_succ, List.drop_succ_cons]
      exact ih m

theorem zpow_toNat_cast (e : Int) (h : 0 ≤ e) :
    (10:ℚ) ^ e = (((10:ℤ) ^ e.toNat : ℤ) : ℚ) := by
  rw [show ((((10:ℤ) ^ e.toNat : ℤ)) : ℚ) = (10:ℚ) ^ e.toNat from by push_cast; ring]
  rw [← zpow_natCast (10:ℚ) e.toNat, Int.toNat_of_nonneg h]

theorem round_var_exact (v : numeric) (r : Int) (hwf : digitsWF v.digits)
    (hint : ∃ z : ℤ, absval v.digits v.weight * (10:ℚ) ^ r = (z : ℚ)) :
    absval (round_var v r).digits (round_var v r).weight =
      absval v.digits v.weight ∧
    digitsWF (round_var v r).digits ∧
    ((round_var v r).sign = v.sign ∨ (round_var v r).sign = NUMERIC_POS) := by
  obtain ⟨z, hz⟩ := hint
  have habs0 : (0:ℚ) ≤ absval v.digits v.weight := absval_nonneg hwf _
  have hpp : ∀ e : Int, (0:ℚ) < (10:ℚ) ^ e := fun e => zpow_pos (by norm_num) e
  have hz0 : (0:ℚ) ≤ (z:ℚ) := by
    rw [← hz]
    exact mul_nonneg habs0 (le_of_lt (hpp r))
  have hB4 : ∀ e : Int, (10000:ℚ) ^ e = (10:ℚ) ^ (4 * e) := by
    intro e
    rw [show (10000:ℚ) = (10:ℚ) ^ (4:Int) from by norm_num, ← zpow_mul]
  have hzne : (10:ℚ) ≠ 0 := by norm_num
  simp only [round_var]
  rw [show DEC_DIGITS = 4 from rfl]
  by_cases hdi : (v.weight + 1) * 4 + r < 0
  · rw [if_pos hdi]
    have hzlt : (z:ℚ) < 1 := by
      rw [← hz]
      calc absval v.digits v.weight * (10:ℚ) ^ r
          < (10:ℚ) ^ (4 * (v.weight + 1)) * (10:ℚ) ^ r := by
            apply mul_lt_mul_of_pos_right _ (hpp r)
            rw [← hB4]
            exact absval_lt hwf _
        _ = (10:ℚ) ^ (4 * (v.weight + 1) + r) := by rw [← zpow_add₀ hzne]
        _ ≤ (10:ℚ) ^ (0:Int) := zpow_le_zpow_right₀ (by norm_num) (by omega)
        _ = 1 := by norm_num
    have hzz : z = 0 := by
      have h1 : (0:ℤ) ≤ z := by exact_mod_cast hz0
      have h2 : z < 1 := by exact_mod_cast hzlt
      omega
    have habs : absval v.digits v.weight = 0 := by
      rw [hzz] at hz
      push_cast at hz
      rcases mul_eq_zero.mp hz with h | h
      · exact h
      · exact absurd h (ne_of_gt (hpp r))
    refine ⟨?_, fun d hd => absurd hd (List.not_mem_nil d), Or.inr rfl⟩
    show absval ([] : List Int) 0 = _
    rw [absval_nil, habs]
  · rw [if_neg hdi]
    have hnd : Int.tdiv ((v.weight + 1) * 4 + r + 4 - 1) 4 =
        ((v.weight + 1) * 4 + r + 3) / 4 := by
      rw [show (v.weight + 1) * 4 + r + 4 - 1 = (v.weight + 1) * 4 + r + 3 from by ring,
          Int.tdiv_eq_ediv (by omega) (by norm_num)]
    have hmd : Int.tmod ((v.weight + 1) * 4 + r) 4 = ((v.weight + 1) * 4 + r) % 4 :=
      Int.tmod_eq_emod (by omega) (by norm_num)
    rw [hnd, hmd]
    set nd := ((v.weight + 1) * 4 + r + 3) / 4 with hnddef
    set md := ((v.weight + 1) * 4 + r) % 4 with hmddef
    have hmdr : 0 ≤ md ∧ md < 4 := by rw [hmddef]; omega
    have hnd0 : 0 ≤ nd := by rw [hnddef]; omega
    by_cases hcond : nd < v.ndigits ∨ (nd = v.ndigits ∧ md > 0)
    · rw [if_pos hcond]
      have hlen : v.ndigits = (v.digits.length : Int) := rfl
      by_cases hmd0 : md = 0
      · -- cut at a full digit boundary
        have hdi4 : (v.weight + 1) * 4 + r = 4 * nd := by
          rw [hnddef]
          omega
        have hndlt : nd < (v.digits.length : Int) := by
          rcases hcond with h | ⟨_, h⟩
          · rw [← hlen]; exact h
          · omega
        have hndle : nd.toNat ≤ v.digits.length := by omega
        have hdwf : digitsWF (v.digits.drop nd.toNat) :=
          fun d hd => hwf d (List.mem_of_mem_drop hd)
        have htwf : digitsWF (v.digits.take nd.toNat) :=
          fun d hd => hwf d (List.mem_of_mem_take hd)
        have htd := absval_take_drop v.digits nd.toNat v.weight hndle
        obtain ⟨zK, hzK⟩ := absval_int_multiple (v.digits.take nd.toNat) v.weight
        rw [List.length_take, min_eq_left hndle] at hzK
        have hKint : absval (v.digits.take nd.toNat) v.weight * (10:ℚ) ^ r = (zK : ℚ) := by
          rw [hzK, mul_assoc, ← zpow_add₀ hzne]
          rw [show (4 * (v.weight - (nd.toNat : Int) + 1) + r) = 0 from by omega]
          norm_num
        have hTint : absval (v.digits.drop nd.toNat) (v.weight - nd.toNat) * (10:ℚ) ^ r =
            ((z - zK : ℤ) : ℚ) := by
          push_cast
          rw [← hz, ← hKint, htd]
          ring
        have hTnn : (0:ℚ) ≤ absval (v.digits.drop nd.toNat) (v.weight - nd.toNat) :=
          absval_nonneg hdwf _
        have hTlt : absval (v.digits.drop nd.toNat) (v.weight - nd.toNat) * (10:ℚ) ^ r < 1 := by
          have h1 : absval (v.digits.drop nd.toNat) (v.weight - nd.toNat) <
              (10000:ℚ) ^ (v.weight - nd.toNat + 1) := absval_lt hdwf _
          calc absval (v.digits.drop nd.toNat) (v.weight - nd.toNat) * (10:ℚ) ^ r
              < (10000:ℚ) ^ (v.weight - nd.toNat + 1) * (10:ℚ) ^ r :=
                mul_lt_mul_of_pos_right h1 (hpp r)
            _ = (10:ℚ) ^ (4 * (v.weight - nd.toNat + 1) + r) := by
                rw [hB4, ← zpow_add₀ hzne]
            _ = 1 := by
                rw [show (4 * (v.weight - (nd.toNat : Int) + 1) + r) = 0 from by omega]
                norm_num
        have hT0 : absval (v.digits.drop nd.toNat) (v.weight - nd.toNat) = 0 := by
          have hzz : z - zK = 0 := by
            have h1 : (0:ℤ) ≤ z - zK := by
              have := mul_nonneg hTnn (le_of_lt (hpp r))
              rw [hTint] at this
              exact_mod_cast this
            have h2 : z - zK < 1 := by
              have := hTlt
              rw [hTint] at this
              exact_mod_cast this
            omega
          have := hTint
          rw [hzz] at this
          push_cast at this
          rcases mul_eq_zero.mp this with h | h
          · exact h
          · exact absurd h (ne_of_gt (hpp r))
        have hdz : digAt v.digits nd = 0 := by
          unfold digAt
          rw [if_neg (by omega)]
          rw [getD_eq_drop_headD]
          have hall := (absval_eq_zero_iff hdwf (v.weight - nd.toNat)).mp hT0
          cases hdd : v.digits.drop nd.toNat with
          | nil => rfl
          | cons a rest =>
            rw [List.headD_cons]
            exact hall a (by rw [hdd]; simp)
        rw [if_pos hmd0, hdz]
        rw [if_neg (by norm_num [HALF_NBASE] : ¬ (0:Int) ≥ HALF_NBASE)]
        rw [propagate_carry_zero]
        simp only [List.append_nil]
        rw [if_pos trivial]
        refine ⟨?_, htwf, Or.inl rfl⟩
        show absval (v.digits.take nd.toNat) v.weight = _
        rw [htd, hT0, add_zero]
      · -- cut inside digit nd - 1
        have hmdpos : 0 < md := by omega
        have hdi4 : (v.weight + 1) * 4 + r = 4 * (nd - 1) + md := by
          rw [hnddef, hmddef]
          omega
        have hnd1 : 1 ≤ nd := by
          rw [hnddef]
          omega
        have hndle : nd ≤ (v.digits.length : Int) := by
          rcases hcond with h | ⟨h, _⟩
          · rw [← hlen]; omega
          · omega
        have hn1lt : (nd - 1 : Int) < (v.digits.length : Int) := by omega
        -- the split digit
        have hdropne : v.digits.drop (nd - 1).toNat ≠ [] := by
          intro he
          have := List.length_drop (nd - 1).toNat v.digits
          rw [he] at this
          simp at this
          omega
        obtain ⟨x, rest, hxr⟩ : ∃ x rest, v.digits.drop (nd - 1).toNat = x :: rest := by
          cases hdd : v.digits.drop (nd - 1).toNat with
          | nil => exact absurd hdd hdropne
          | cons a b => exact ⟨a, b, rfl⟩
        have hxval : digAt v.digits (nd - 1) = x := by
          unfold digAt
          rw [if_neg (by omega), getD_eq_drop_headD, hxr, List.headD_cons]
        have hrest : rest = v.digits.drop nd.toNat := by
          have h1 : v.digits.drop nd.toNat = (v.digits.drop (nd - 1).toNat).drop 1 := by
            rw [List.drop_drop]
            congr 1
            omega
          rw [h1, hxr, List.drop_succ_cons, List.drop_zero]
        have hxwf := digAt_range hwf (nd - 1)
        rw [hxval] at hxwf
        have htwf : digitsWF (v.digits.take (nd - 1).toNat) :=
          fun d hd => hwf d (List.mem_of_mem_take hd)
        have hdwf : digitsWF (v.digits.drop nd.toNat) :=
          fun d hd => hwf d (List.mem_of_mem_drop hd)
        -- value decomposition
        have htd := absval_take_drop v.digits (nd - 1).toNat v.weight (by omega)
        rw [hxr, absval_cons, hrest] at htd
        have hcast1 : ((nd - 1).toNat : Int) = nd - 1 := by omega
        rw [hcast1] at htd
        -- pow10 facts
        have hmd123 : md = 1 ∨ md = 2 ∨ md = 3 := by omega
        set P := round_powers.getD md.toNat 0 with hPdef
        have hPval : (P : ℚ) = (10:ℚ) ^ ((4:Int) - md) ∧ 0 < P ∧ 0 < Int.tdiv P 2 := by
          rcases hmd123 with h | h | h <;>
            rw [hPdef, h] <;> norm_num [round_powers] <;> decide
        obtain ⟨hP10, hPpos, hPh⟩ := hPval
        -- extra and base
        have hex : Int.tmod x P = x % P := Int.tmod_eq_emod (by omega) (by omega)
        have hexr : 0 ≤ x % P ∧ x % P < P := ⟨Int.emod_nonneg x (by omega), Int.emod_lt_of_pos x hPpos⟩
        have hbase : x - Int.tmod x P = P * (x / P) := by
          rw [hex]
          have := Int.ediv_add_emod x P
          omega
        have hzp3 : ∀ a b : Int, (10:ℚ) ^ a * (10:ℚ) ^ b = (10:ℚ) ^ (a + b) :=
          fun a b => (zpow_add₀ hzne a b).symm
        -- integrality of the kept parts
        obtain ⟨zK, hzK⟩ := absval_int_multiple (v.digits.take (nd - 1).toNat) v.weight
        rw [List.length_take, min_eq_left (by omega : (nd - 1).toNat ≤ v.digits.length),
            hcast1] at hzK
        have hKint : absval (v.digits.take (nd - 1).toNat) v.weight * (10:ℚ) ^ r =
            (zK : ℚ) * (10:ℚ) ^ md := by
          rw [hzK, mul_assoc, ← zpow_add₀ hzne]
          congr 2
          omega
        have hQint : ((x - Int.tmod x P : Int) : ℚ) * (10000:ℚ) ^ (v.weight - (nd - 1)) *
            (10:ℚ) ^ r = ((x / P : Int) : ℚ) := by
          have h0 : (10:ℚ) ^ ((4:Int) - md) * (10:ℚ) ^ (4 * (v.weight - (nd - 1))) *
              (10:ℚ) ^ r = 1 := by
            rw [hzp3, hzp3, show (4 - md + 4 * (v.weight - (nd - 1)) + r) = 0 from by omega]
            norm_num
          rw [hbase, hB4]
          push_cast
          rw [hP10]
          rw [show (10:ℚ) ^ ((4:Int) - md) * ((x / P : Int) : ℚ) *
              (10:ℚ) ^ (4 * (v.weight - (nd - 1))) * (10:ℚ) ^ r =
              ((x / P : Int) : ℚ) * ((10:ℚ) ^ ((4:Int) - md) *
                (10:ℚ) ^ (4 * (v.weight - (nd - 1))) * (10:ℚ) ^ r) from by ring, h0, mul_one]
        -- bound the remainder páckage
        have hTnn : (0:ℚ) ≤ absval (v.digits.drop nd.toNat) (v.weight - (nd - 1) - 1) :=
          absval_nonneg hdwf _
        have hTbnd : absval (v.digits.drop nd.toNat) (v.weight - (nd - 1) - 1) * (10:ℚ) ^ r <
            (10:ℚ) ^ (md - 4) := by
          have h1 : absval (v.digits.drop nd.toNat) (v.weight - (nd - 1) - 1) <
              (10000:ℚ) ^ (v.weight - (nd - 1) - 1 + 1) := absval_lt hdwf _
          calc absval (v.digits.drop nd.toNat) (v.weight - (nd - 1) - 1) * (10:ℚ) ^ r
              < (10000:ℚ) ^ (v.weight - (nd - 1) - 1 + 1) * (10:ℚ) ^ r :=
                mul_lt_mul_of_pos_right h1 (hpp r)
            _ = (10:ℚ) ^ (4 * (v.weight - (nd - 1) - 1 + 1) + r) := by
                rw [hB4, ← zpow_add₀ hzne]
            _ = (10:ℚ) ^ (md - 4) := by
                congr 1
                omega
        have hXint : ((x % P : Int) : ℚ) * (10:ℚ) ^ (md - 4) +
            absval (v.digits.drop nd.toNat) (v.weight - (nd - 1) - 1) * (10:ℚ) ^ r =
            ((z - zK * 10 ^ md.toNat - x / P : Int) : ℚ) := by
          have hXpow : ((x % P : Int) : ℚ) * (10:ℚ) ^ (md - 4) =
              ((x - (x - Int.tmod x P) : Int) : ℚ) * (10000:ℚ) ^ (v.weight - (nd - 1)) *
                (10:ℚ) ^ r := by
            rw [hex, show x - (x - x % P) = x % P from by ring, hB4, mul_assoc, hzp3]
            congr 2
            omega
          have e1 : ((z - zK * 10 ^ md.toNat - x / P : Int) : ℚ) =
              (z:ℚ) - (zK : ℚ) * (10:ℚ) ^ md - ((x / P : Int) : ℚ) := by
            push_cast
            rw [zpow_toNat_cast md (by omega)]
            push_cast
            ring
          rw [e1, ← hz, ← hKint, ← hQint, hXpow, htd]
          push_cast
          ring
        have hXz : z - zK * 10 ^ md.toNat - x / P = 0 := by
          have hx1 : (0:ℚ) ≤ ((x % P : Int) : ℚ) * (10:ℚ) ^ (md - 4) :=
            mul_nonneg (by exact_mod_cast hexr.1) (le_of_lt (hpp _))
          have hx2 : (0:ℚ) ≤ absval (v.digits.drop nd.toNat) (v.weight - (nd - 1) - 1) *
              (10:ℚ) ^ r := mul_nonneg hTnn (le_of_lt (hpp _))
          have hx3 : ((x % P : Int) : ℚ) * (10:ℚ) ^ (md - 4) ≤
              ((P : ℚ) - 1) * (10:ℚ) ^ (md - 4) := by
            apply mul_le_mul_of_nonneg_right _ (le_of_lt (hpp _))
            have : (x % P : Int) ≤ P - 1 := by omega
            exact_mod_cast this
          have hx4 : ((P : ℚ) - 1) * (10:ℚ) ^ (md - 4) = 1 - (10:ℚ) ^ (md - 4) := by
            rw [hP10, sub_mul, ← zpow_add₀ hzne]
            rw [show (4 - md + (md - 4)) = 0 from by omega]
            norm_num
          have hlt1 : ((z - zK * 10 ^ md.toNat - x / P : Int) : ℚ) < 1 := by
            rw [← hXint]
            calc ((x % P : Int) : ℚ) * (10:ℚ) ^ (md - 4) +
                absval (v.digits.drop nd.toNat) (v.weight - (nd - 1) - 1) * (10:ℚ) ^ r
                < (1 - (10:ℚ) ^ (md - 4)) + (10:ℚ) ^ (md - 4) := by
                  have := hTbnd
                  rw [← hx4] at *
                  linarith
              _ = 1 := by ring
          have hge0 : (0:ℚ) ≤ ((z - zK * 10 ^ md.toNat - x / P : Int) : ℚ) := by
            rw [← hXint]
            linarith
          have h1 : (0:ℤ) ≤ z - zK * 10 ^ md.toNat - x / P := by exact_mod_cast hge0
          have h2 : z - zK * 10 ^ md.toNat - x / P < 1 := by exact_mod_cast hlt1
          omega
        have hX0 : ((x % P : Int) : ℚ) * (10:ℚ) ^ (md - 4) = 0 ∧
            absval (v.digits.drop nd.toNat) (v.weight - (nd - 1) - 1) * (10:ℚ) ^ r = 0 := by
          have hsum : ((x % P : Int) : ℚ) * (10:ℚ) ^ (md - 4) +
              absval (v.digits.drop nd.toNat) (v.weight - (nd - 1) - 1) * (10:ℚ) ^ r = 0 := by
            rw [hXint, hXz]
            norm_num
          have hx1 : (0:ℚ) ≤ ((x % P : Int) : ℚ) * (10:ℚ) ^ (md - 4) :=
            mul_nonneg (by exact_mod_cast hexr.1) (le_of_lt (hpp _))
          have hx2 : (0:ℚ) ≤ absval (v.digits.drop nd.toNat) (v.weight - (nd - 1) - 1) *
              (10:ℚ) ^ r := mul_nonneg hTnn (le_of_lt (hpp _))
          constructor <;> linarith
        have hextra0 : Int.tmod x P = 0 := by
          rw [hex]
          have := hX0.1
          rcases mul_eq_zero.mp this with h | h
          · exact_mod_cast h
          · exact absurd h (ne_of_gt (hpp _))
        have hT0 : absval (v.digits.drop nd.toNat) (v.weight - (nd - 1) - 1) = 0 := by
          rcases mul_eq_zero.mp hX0.2 with h | h
          · exact h
          · exact absurd h (ne_of_gt (hpp _))
        -- now evaluate the branch
        rw [if_neg hmd0, hxval, hextra0]
        rw [if_neg (by omega : ¬ (0:Int) ≥ Int.tdiv P 2)]
        rw [propagate_carry_zero]
        rw [if_pos rfl]
        refine ⟨?_, ?_, Or.inl rfl⟩
        · show absval (v.digits.take (nd - 1).toNat ++ [x - 0]) v.weight = _
          rw [absval_append, List.length_take,
              min_eq_left (by omega : (nd - 1).toNat ≤ v.digits.length), hcast1]
          rw [show (x - 0 : Int) = x from by ring]
          rw [show absval [x] (v.weight - (nd - 1)) =
              (x:ℚ) * (10000:ℚ) ^ (v.weight - (nd - 1)) + 0 from rfl]
          rw [htd, hT0]
        · intro d hd
          rcases List.mem_append.mp hd with h | h
          · exact htwf d h
          · rcases List.mem_singleton.mp h with h2
            rw [h2]
            constructor <;> omega
    · rw [if_neg hcond]
      exact ⟨rfl, hwf, Or.inl rfl⟩

/-! Array toolkit: the work arrays of `mul_var`/`div_var` viewed as lists. -/

theorem getD_toList (a : Array Int) (n : Nat) : a.getD n 0 = a.toList.getD n 0 := by
  unfold Array.getD
  split_ifs with h
  · rw [List.getD_eq_getElem?_getD,
        List.getElem?_eq_getElem (show n < a.toList.length by simpa using h)]
    simp [Array.getElem_toList]
  · rw [List.getD_eq_getElem?_getD, List.getElem?_eq_none (by simpa using not_lt.mp h)]
    rfl

theorem toList_setD (a : Array Int) (n : Nat) (v : Int) :
    (a.setD n v).toList = a.toList.set n v := by
  unfold Array.setD
  split_ifs with h
  · rw [Array.toList_set]
  · rw [List.set_eq_of_length_le]
    rw [Array.length_toList]
    omega

theorem aget_toList (a : Array Int) (i : Int) : aget a i = digAt a.toList i := by
  unfold aget digAt
  split_ifs with h
  · rfl
  · exact getD_toList a i.toNat

theorem aset_toList (a : Array Int) (i : Int) (v : Int) (hi : 0 ≤ i) :
    (aset a i v).toList = a.toList.set i.toNat v := by
  unfold aset
  rw [if_neg (by omega)]
  exact toList_setD a i.toNat v

theorem absval_set (l : List Int) (n : Nat) (v : Int) (w : Int) (hn : n < l.length) :
    absval (l.set n v) w =
      absval l w + ((v : ℚ) - l.getD n 0) * (10000:ℚ) ^ (w - n) := by
  induction l generalizing n w with
  | nil => simp at hn
  | cons d ds ih =>
    cases n with
    | zero =>
      simp only [List.set_cons_zero, absval_cons, List.getD_cons_zero]
      push_cast
      ring_nf
    | succ m =>
      simp only [List.set_cons_succ, absval_cons, List.getD_cons_succ]
      rw [ih m (w - 1) (by simpa using hn)]
      rw [show w - 1 - (m:Int) = w - ((m+1 : Nat) : Int) from by push_cast; ring]
      ring

theorem getD_set_eq (l : List Int) (n : Nat) (v : Int) (h : n < l.length) :
    (l.set n v).getD n 0 = v := by
  rw [List.getD_eq_getElem?_getD, List.getElem?_set_self (by simpa using h)]
  rfl

theorem getD_set_ne (l : List Int) (n m : Nat) (v : Int) (h : n ≠ m) :
    (l.set n v).getD m 0 = l.getD m 0 := by
  rw [List.getD_eq_getElem?_getD, List.getElem?_set_ne h, ← List.getD_eq_getElem?_getD]

/-- Least-significant-first value of a digit list, as used for the reversed
operand lists of `mul_var`'s loops. -/
def rlistval : List Int → ℚ
  | [] => 0
  | d :: ds => (d : ℚ) + 10000 * rlistval ds

theorem rlistval_nonneg {l : List Int} (h : ∀ d ∈ l, 0 ≤ d) : 0 ≤ rlistval l := by
  induction l with
  | nil => norm_num [rlistval]
  | cons d ds ih =>
    have hd : (0:ℚ) ≤ (d:ℚ) := by exact_mod_cast h d (by simp)
    have hds := ih fun x hx => h x (by simp [hx])
    show (0:ℚ) ≤ (d : ℚ) + 10000 * rlistval ds
    linarith

theorem rlistval_append_single (xs : List Int) (d : Int) :
    rlistval (xs ++ [d]) = rlistval xs + (d : ℚ) * (10000:ℚ) ^ xs.length := by
  induction xs with
  | nil => show (d:ℚ) + 10000 * 0 = 0 + (d:ℚ) * 1; ring
  | cons x rest ih =>
    show (x:ℚ) + 10000 * rlistval (rest ++ [d]) = ((x:ℚ) + 10000 * rlistval rest) + _
    rw [ih, List.length_cons, pow_succ]
    ring

theorem absval_eq_rlist (l : List Int) (w : Int) :
    absval l w = rlistval l.reverse * (10000:ℚ) ^ (w - l.length + 1) := by
  induction l generalizing w with
  | nil => simp [absval_nil, rlistval]
  | cons d ds ih =>
    rw [absval_cons, ih (w - 1), List.reverse_cons, rlistval_append_single,
        List.length_reverse, List.length_cons]
    have e1 : w - 1 - (ds.length:Int) + 1 = w - ((ds.length + 1 : Nat) : Int) + 1 := by
      push_cast
      ring
    have hBsplit : (10000:ℚ) ^ w =
        (10000:ℚ) ^ ds.length * (10000:ℚ) ^ (w - ((ds.length + 1 : Nat) : Int) + 1) := by
      rw [show ((10000:ℚ) ^ ds.length) = (10000:ℚ) ^ ((ds.length : Nat) : Int) from
            (zpow_natCast _ _).symm,
          ← zpow_add₀ (by norm_num : (10000:ℚ) ≠ 0)]
      congr 1
      push_cast
      ring
    rw [e1, hBsplit]
    ring

/-- All entries of a work array are non-negative. -/
def entriesNN (l : List Int) : Prop := ∀ d ∈ l, 0 ≤ d

theorem absval_nonneg_of_NN {l : List Int} (h : entriesNN l) (w : Int) :
    0 ≤ absval l w := by
  induction l generalizing w with
  | nil => rw [absval_nil]
  | cons d ds ih =>
    rw [absval_cons]
    have hd : (0:ℚ) ≤ (d:ℚ) := by exact_mod_cast h d (by simp)
    have hds := ih (fun x hx => h x (by simp [hx])) (w - 1)
    have hp : (0:ℚ) < (10000:ℚ) ^ w := zpow_pos (by norm_num) w
    nlinarith

theorem absval_ge_single {l : List Int} (h : entriesNN l) (W : Int) :
    ∀ p : Nat, p < l.length → (l.getD p 0 : ℚ) * (10000:ℚ) ^ (W - p) ≤ absval l W := by
  induction l generalizing W with
  | nil => intro p hp; simp at hp
  | cons d ds ih =>
    intro p hp
    cases p with
    | zero =>
      rw [List.getD_cons_zero, absval_cons]
      have hds := absval_nonneg_of_NN
        (fun x hx => h x (List.mem_cons_of_mem d hx)) (W - 1)
      rw [show W - ((0:Nat):Int) = W from by push_cast; ring]
      linarith
    | succ m =>
      rw [List.getD_cons_succ, absval_cons]
      have hm := ih (fun x hx => h x (List.mem_cons_of_mem d hx)) (W - 1) m
        (by simpa using hp)
      have hd : (0:ℚ) ≤ (d:ℚ) := by exact_mod_cast h d (by simp)
      have hp0 : (0:ℚ) < (10000:ℚ) ^ W := zpow_pos (by norm_num) W
      have hexp : W - ((m + 1 : Nat) : Int) = W - 1 - m := by push_cast; ring
      rw [hexp]
      nlinarith

theorem aget_nonneg {dig : Array Int} (hNN : entriesNN dig.toList) (i : Int) :
    0 ≤ aget dig i := by
  rw [aget_toList]
  unfold digAt
  split_ifs
  · exact le_refl 0
  · rcases getD_mem_or_eq dig.toList i.toNat with hm | hz
    · exact hNN _ hm
    · rw [hz]

theorem aget_nat (dig : Array Int) (i : Nat) :
    aget dig (i : Int) = dig.toList.getD i 0 := by
  rw [aget_toList]
  unfold digAt
  rw [if_neg (by omega)]
  congr 1

theorem aset_size (dig : Array Int) (i v : Int) (hi : 0 ≤ i) :
    (aset dig i v).size = dig.size := by
  unfold aset
  rw [if_neg (by omega)]
  exact Array.size_setD dig i.toNat v

theorem mul_add_row_spec : ∀ (ds : List Int) (dig : Array Int) (v i : Int) (W : Int),
    0 ≤ v → (∀ d ∈ ds, 0 ≤ d) → entriesNN dig.toList →
    (ds.length : Int) ≤ i + 1 → i < (dig.size : Int) →
    (mul_add_row dig v ds i).size = dig.size ∧
    entriesNN (mul_add_row dig v ds i).toList ∧
    absval (mul_add_row dig v ds i).toList W =
      absval dig.toList W + v * rlistval ds * (10000:ℚ) ^ (W - i) := by
  intro ds
  induction ds with
  | nil =>
    intro dig v i W _ _ hNN _ _
    refine ⟨rfl, hNN, ?_⟩
    show absval dig.toList W = _
    rw [show rlistval [] = 0 from rfl]
    ring
  | cons d rest ih =>
    intro dig v i W hv hds hNN hlen hsz
    have hi0 : 0 ≤ i := by
      rw [List.length_cons] at hlen
      push_cast at hlen
      omega
    have hilt : i.toNat < dig.toList.length := by
      rw [Array.length_toList]
      omega
    have hAlist : (aset dig i (aget dig i + v * d)).toList =
        dig.toList.set i.toNat (aget dig i + v * d) := aset_toList dig i _ hi0
    have hAsize : (aset dig i (aget dig i + v * d)).size = dig.size :=
      aset_size dig i _ hi0
    have hANN : entriesNN (aset dig i (aget dig i + v * d)).toList := by
      rw [hAlist]
      intro x hx
      rcases List.mem_or_eq_of_mem_set hx with h | h
      · exact hNN x h
      · rw [h]
        have h1 : 0 ≤ aget dig i := aget_nonneg hNN i
        have h2 : 0 ≤ v * d := mul_nonneg hv (hds d (by simp))
        linarith
    have hgetD : aget dig i = dig.toList.getD i.toNat 0 := by
      rw [aget_toList]
      unfold digAt
      rw [if_neg (by omega)]
    have hAval : absval (aset dig i (aget dig i + v * d)).toList W =
        absval dig.toList W + (v:ℚ) * d * (10000:ℚ) ^ (W - i) := by
      rw [hAlist, absval_set _ _ _ _ hilt, ← hgetD]
      rw [show W - (i.toNat : Int) = W - i from by omega]
      push_cast
      ring
    obtain ⟨hs, hn, hvl⟩ := ih (aset dig i (aget dig i + v * d)) v (i - 1) W hv
      (fun x hx => hds x (List.mem_cons_of_mem d hx)) hANN
      (by rw [List.length_cons] at hlen; push_cast at hlen ⊢; omega)
      (by rw [hAsize]; omega)
    have hstep : mul_add_row dig v (d :: rest) i =
        mul_add_row (aset dig i (aget dig i + v * d)) v rest (i - 1) := rfl
    refine ⟨by rw [hstep, hs, hAsize], by rw [hstep]; exact hn, ?_⟩
    rw [hstep, hvl, hAval]
    rw [show rlistval (d :: rest) = (d:ℚ) + 10000 * rlistval rest from rfl]
    have hzp : (10000:ℚ) ^ (W - (i - 1)) = (10000:ℚ) ^ (W - i) * 10000 := by
      rw [← zpow_add_one₀ (by norm_num : (10000:ℚ) ≠ 0)]
      congr 1
      ring
    rw [hzp]
    ring

theorem mul_carry_pass_spec : ∀ (i : Nat) (dig : Array Int) (c : Int) (W : Int),
    entriesNN dig.toList → 0 ≤ c → i < dig.size →
    absval dig.toList W + (c:ℚ) * (10000:ℚ) ^ (W - i) < (10000:ℚ) ^ (W + 1) →
    (mul_carry_pass dig i c).size = dig.size ∧
    absval (mul_carry_pass dig i c).toList W =
      absval dig.toList W + (c:ℚ) * (10000:ℚ) ^ (W - i) ∧
    (∀ p : Nat, p ≤ i → 0 ≤ (mul_carry_pass dig i c).toList.getD p 0 ∧
        (mul_carry_pass dig i c).toList.getD p 0 < NBASE) ∧
    (∀ p : Nat, i < p → (mul_carry_pass dig i c).toList.getD p 0 = dig.toList.getD p 0) := by
  intro i
  induction i with
  | zero =>
    intro dig c W hNN hc hsz hbnd
    simp only [Nat.cast_zero, sub_zero] at hbnd ⊢
    have hga : aget dig 0 = dig.toList.getD 0 0 := by simpa using aget_nat dig 0
    have hlen0 : 0 < dig.toList.length := by rw [Array.length_toList]; omega
    have hnd0 : 0 ≤ aget dig 0 + c := by
      have := aget_nonneg hNN 0
      omega
    have hndlt : aget dig 0 + c < NBASE := by
      by_contra hge
      push_neg at hge
      have hsingle := absval_ge_single hNN W 0 hlen0
      simp only [Nat.cast_zero, sub_zero] at hsingle
      have hq : (10000:ℚ) ≤ ((aget dig 0 + c : Int) : ℚ) := by
        have h10 : (10000:Int) ≤ aget dig 0 + c := by
          norm_num [NBASE] at hge
          omega
        exact_mod_cast h10
      have hpw : (0:ℚ) < (10000:ℚ) ^ W := zpow_pos (by norm_num) _
      have h1 : (10000:ℚ) * (10000:ℚ) ^ W ≤ ((aget dig 0 + c : Int) : ℚ) * (10000:ℚ) ^ W :=
        mul_le_mul_of_nonneg_right hq (le_of_lt hpw)
      have h2 : ((aget dig 0 + c : Int) : ℚ) * (10000:ℚ) ^ W ≤
          absval dig.toList W + (c:ℚ) * (10000:ℚ) ^ W := by
        rw [hga]
        push_cast
        nlinarith [hsingle]
      have h3 : (10000:ℚ) * (10000:ℚ) ^ W = (10000:ℚ) ^ (W + 1) := by
        rw [zpow_add_one₀ (by norm_num : (10000:ℚ) ≠ 0)]
        ring
      rw [← h3] at hbnd
      linarith
    have hc2 : ¬ (aget dig 0 + c ≥ NBASE) := by omega
    have hstep : mul_carry_pass dig 0 c =
        aset dig 0 (aget dig 0 + c -
          (if aget dig 0 + c ≥ NBASE then Int.tdiv (aget dig 0 + c) NBASE else 0) * NBASE) := rfl
    rw [if_neg hc2, show aget dig 0 + c - 0 * NBASE = aget dig 0 + c from by ring] at hstep
    have hAlist : (aset dig 0 (aget dig 0 + c)).toList =
        dig.toList.set 0 (aget dig 0 + c) := by
      have h := aset_toList dig 0 (aget dig 0 + c) (by omega)
      simpa using h
    refine ⟨by rw [hstep]; exact aset_size dig 0 _ (by omega), ?_, ?_, ?_⟩
    · rw [hstep, hAlist, absval_set _ _ _ _ hlen0]
      simp only [Nat.cast_zero, sub_zero]
      rw [hga]
      push_cast
      ring
    · intro p hp
      have hp0 : p = 0 := by omega
      subst hp0
      rw [hstep, hAlist, getD_set_eq _ _ _ hlen0]
      exact ⟨hnd0, hndlt⟩
    · intro p hp
      rw [hstep, hAlist, getD_set_ne _ _ _ _ (by omega)]
  | succ j ih =>
    intro dig c W hNN hc hsz hbnd
    have hga : aget dig ((j + 1 : Nat) : Int) = dig.toList.getD (j + 1) 0 := aget_nat dig (j + 1)
    have hlen : (j + 1 : Nat) < dig.toList.length := by rw [Array.length_toList]; omega
    have hnd0 : 0 ≤ aget dig ((j + 1 : Nat) : Int) + c := by
      have := aget_nonneg hNN ((j + 1 : Nat) : Int)
      omega
    have hB : NBASE = (10000 : Int) := rfl
    have hP : (10000:ℚ) ^ (W - (j : Int)) = (10000:ℚ) ^ (W - ((j + 1 : Nat) : Int)) * 10000 := by
      rw [← zpow_add_one₀ (by norm_num : (10000:ℚ) ≠ 0)]
      congr 1
      push_cast
      ring
    by_cases hbig : aget dig ((j + 1 : Nat) : Int) + c ≥ NBASE
    case pos =>
      have htd : Int.tdiv (aget dig ((j + 1 : Nat) : Int) + c) NBASE =
          (aget dig ((j + 1 : Nat) : Int) + c) / NBASE :=
        Int.tdiv_eq_ediv hnd0 (by norm_num [NBASE])
      have hstep : mul_carry_pass dig (j + 1) c =
          mul_carry_pass
            (aset dig ((j + 1 : Nat) : Int)
              (aget dig ((j + 1 : Nat) : Int) + c -
                (if aget dig ((j + 1 : Nat) : Int) + c ≥ NBASE then
                  Int.tdiv (aget dig ((j + 1 : Nat) : Int) + c) NBASE else 0) * NBASE))
            j
            (if aget dig ((j + 1 : Nat) : Int) + c ≥ NBASE then
              Int.tdiv (aget dig ((j + 1 : Nat) : Int) + c) NBASE else 0) := rfl
      rw [if_pos hbig, htd] at hstep
      have hw' : 0 ≤ aget dig ((j + 1 : Nat) : Int) + c -
            (aget dig ((j + 1 : Nat) : Int) + c) / NBASE * NBASE ∧
          aget dig ((j + 1 : Nat) : Int) + c -
            (aget dig ((j + 1 : Nat) : Int) + c) / NBASE * NBASE < NBASE ∧
          0 ≤ (aget dig ((j + 1 : Nat) : Int) + c) / NBASE := by
        rw [hB] at hbig ⊢
        omega
      have hAlist := aset_toList dig ((j + 1 : Nat) : Int)
        (aget dig ((j + 1 : Nat) : Int) + c -
          (aget dig ((j + 1 : Nat) : Int) + c) / NBASE * NBASE) (by omega)
      rw [show ((j + 1 : Nat) : Int).toNat = (j + 1 : Nat) from by omega] at hAlist
      have hAsize := aset_size dig ((j + 1 : Nat) : Int)
        (aget dig ((j + 1 : Nat) : Int) + c -
          (aget dig ((j + 1 : Nat) : Int) + c) / NBASE * NBASE) (by omega)
      have hANN : entriesNN (aset dig ((j + 1 : Nat) : Int)
          (aget dig ((j + 1 : Nat) : Int) + c -
            (aget dig ((j + 1 : Nat) : Int) + c) / NBASE * NBASE)).toList := by
        rw [hAlist]
        intro x hx
        rcases List.mem_or_eq_of_mem_set hx with h | h
        · exact hNN x h
        · rw [h]
          exact hw'.1
      have hAval : absval (aset dig ((j + 1 : Nat) : Int)
          (aget dig ((j + 1 : Nat) : Int) + c -
            (aget dig ((j + 1 : Nat) : Int) + c) / NBASE * NBASE)).toList W +
          (((aget dig ((j + 1 : Nat) : Int) + c) / NBASE : Int) : ℚ) *
            (10000:ℚ) ^ (W - (j : Int)) =
          absval dig.toList W + (c:ℚ) * (10000:ℚ) ^ (W - ((j + 1 : Nat) : Int)) := by
        rw [hAlist, absval_set _ _ _ _ hlen, ← hga, hP, hB]
        push_cast
        ring
      obtain ⟨hs, hv, hwfp, hunch⟩ := ih
        (aset dig ((j + 1 : Nat) : Int)
          (aget dig ((j + 1 : Nat) : Int) + c -
            (aget dig ((j + 1 : Nat) : Int) + c) / NBASE * NBASE))
        ((aget dig ((j + 1 : Nat) : Int) + c) / NBASE) W hANN hw'.2.2
        (by rw [hAsize]; omega)
        (by rw [hAval]; exact hbnd)
      refine ⟨by rw [hstep, hs, hAsize], ?_, ?_, ?_⟩
      · rw [hstep, hv]
        linarith [hAval]
      · intro p hp
        rcases Nat.lt_or_ge p (j + 1) with hpj | hpj
        · rw [hstep]
          exact hwfp p (by omega)
        · have hpeq : p = j + 1 := by omega
          subst hpeq
          rw [hstep, hunch _ (by omega), hAlist, getD_set_eq _ _ _ hlen]
          exact ⟨hw'.1, hw'.2.1⟩
      · intro p hp
        rw [hstep, hunch _ (by omega), hAlist, getD_set_ne _ _ _ _ (by omega)]
    case neg =>
      have hlt : aget dig ((j + 1 : Nat) : Int) + c < NBASE := lt_of_not_ge hbig
      have hstep : mul_carry_pass dig (j + 1) c =
          mul_carry_pass
            (aset dig ((j + 1 : Nat) : Int)
              (aget dig ((j + 1 : Nat) : Int) + c -
                (if aget dig ((j + 1 : Nat) : Int) + c ≥ NBASE then
                  Int.tdiv (aget dig ((j + 1 : Nat) : Int) + c) NBASE else 0) * NBASE))
            j
            (if aget dig ((j + 1 : Nat) : Int) + c ≥ NBASE then
              Int.tdiv (aget dig ((j + 1 : Nat) : Int) + c) NBASE else 0) := rfl
      rw [if_neg hbig, show aget dig ((j + 1 : Nat) : Int) + c - 0 * NBASE =
        aget dig ((j + 1 : Nat) : Int) + c from by ring] at hstep
      have hAlist := aset_toList dig ((j + 1 : Nat) : Int)
        (aget dig ((j + 1 : Nat) : Int) + c) (by omega)
      rw [show ((j + 1 : Nat) : Int).toNat = (j + 1 : Nat) from by omega] at hAlist
      have hAsize := aset_size dig ((j + 1 : Nat) : Int)
        (aget dig ((j + 1 : Nat) : Int) + c) (by omega)
      have hANN : entriesNN (aset dig ((j + 1 : Nat) : Int)
          (aget dig ((j + 1 : Nat) : Int) + c)).toList := by
        rw [hAlist]
        intro x hx
        rcases List.mem_or_eq_of_mem_set hx with h | h
        · exact hNN x h
        · rw [h]
          exact hnd0
      have hAval : absval (aset dig ((j + 1 : Nat) : Int)
          (aget dig ((j + 1 : Nat) : Int) + c)).toList W =
          absval dig.toList W + (c:ℚ) * (10000:ℚ) ^ (W - ((j + 1 : Nat) : Int)) := by
        rw [hAlist, absval_set _ _ _ _ hlen, ← hga]
        push_cast
        ring
      obtain ⟨hs, hv, hwfp, hunch⟩ := ih
        (aset dig ((j + 1 : Nat) : Int) (aget dig ((j + 1 : Nat) : Int) + c))
        0 W hANN le_rfl (by rw [hAsize]; omega)
        (by
          rw [hAval]
          push_cast
          push_cast at hbnd
          linarith)
      refine ⟨by rw [hstep, hs, hAsize], ?_, ?_, ?_⟩
      · rw [hstep, hv, hAval]
        push_cast
        ring
      · intro p hp
        rcases Nat.lt_or_ge p (j + 1) with hpj | hpj
        · rw [hstep]
          exact hwfp p (by omega)
        · have hpeq : p = j + 1 := by omega
          subst hpeq
          rw [hstep, hunch _ (by omega), hAlist, getD_set_eq _ _ _ hlen]
          exact ⟨hnd0, hlt⟩
      · intro p hp
        rw [hstep, hunch _ (by omega), hAlist, getD_set_ne _ _ _ _ (by omega)]

theorem entriesNN_getD (l : List Int) (h : ∀ p : Nat, 0 ≤ l.getD p 0) : entriesNN l := by
  induction l with
  | nil => intro x hx; simp at hx
  | cons d ds ih =>
    intro x hx
    rcases List.mem_cons.mp hx with hxd | hxm
    · rw [hxd]
      exact h 0
    · exact ih (fun p => by have := h (p + 1); rwa [List.getD_cons_succ] at this) x hxm

theorem mul_main_spec : ∀ (v1r v2r : List Int) (res_nd : Nat) (dig : Array Int)
    (ri maxdig W : Int),
    (∀ d ∈ v1r, 0 ≤ d) → (∀ d ∈ v2r, 0 ≤ d) → entriesNN dig.toList →
    dig.size = res_nd → 0 < res_nd →
    (v2r.length : Int) + (v1r.length : Int) - 1 ≤ ri + 1 → ri < (res_nd : Int) →
    absval dig.toList W + rlistval v1r * rlistval v2r * (10000:ℚ) ^ (W - ri) <
      (10000:ℚ) ^ (W + 1) →
    (mul_main v2r res_nd v1r dig ri maxdig).size = res_nd ∧
    entriesNN (mul_main v2r res_nd v1r dig ri maxdig).toList ∧
    absval (mul_main v2r res_nd v1r dig ri maxdig).toList W =
      absval dig.toList W + rlistval v1r * rlistval v2r * (10000:ℚ) ^ (W - ri) := by
  intro v1r
  induction v1r with
  | nil =>
    intro v2r res_nd dig ri maxdig W h1 h2 hNN hsz hnd hlen hri hbnd
    refine ⟨hsz, hNN, ?_⟩
    show absval dig.toList W = _
    simp [rlistval]
  | cons v1d rest ih =>
    intro v2r res_nd dig ri maxdig W h1 h2 hNN hsz hnd hlen hri hbnd
    have h1d : 0 ≤ v1d := h1 v1d (List.mem_cons_self v1d rest)
    have h1rest : ∀ d ∈ rest, 0 ≤ d := fun d hd => h1 d (List.mem_cons_of_mem _ hd)
    have hrv2 : 0 ≤ rlistval v2r := rlistval_nonneg h2
    have hrvr : 0 ≤ rlistval rest := rlistval_nonneg h1rest
    have hpw : (0:ℚ) < (10000:ℚ) ^ (W - ri) := zpow_pos (by norm_num) _
    have hzp : (10000:ℚ) ^ (W - (ri - 1)) = (10000:ℚ) ^ (W - ri) * 10000 := by
      rw [← zpow_add_one₀ (by norm_num : (10000:ℚ) ≠ 0)]
      congr 1
      ring
    have hlen' : (v2r.length : Int) + (rest.length : Int) - 1 ≤ (ri - 1) + 1 := by
      rw [List.length_cons] at hlen
      push_cast at hlen ⊢
      omega
    simp only [rlistval] at hbnd
    have hstep : mul_main v2r res_nd (v1d :: rest) dig ri maxdig =
        (if v1d = 0 then mul_main v2r res_nd rest dig (ri - 1) maxdig
         else
           mul_main v2r res_nd rest
             (mul_add_row
               (if maxdig + v1d > Int.tdiv INT_MAX (NBASE - 1) then
                   (mul_carry_pass dig (res_nd - 1) 0, 1 + v1d)
                 else (dig, maxdig + v1d)).1
               v1d v2r ri)
             (ri - 1)
             (if maxdig + v1d > Int.tdiv INT_MAX (NBASE - 1) then
                 (mul_carry_pass dig (res_nd - 1) 0, 1 + v1d)
               else (dig, maxdig + v1d)).2) := rfl
    by_cases h0 : v1d = 0
    case pos =>
      have hstep2 : mul_main v2r res_nd (v1d :: rest) dig ri maxdig =
          mul_main v2r res_nd rest dig (ri - 1) maxdig := by
        rw [hstep, if_pos h0]
      have hbnd' : absval dig.toList W + rlistval rest * rlistval v2r *
          (10000:ℚ) ^ (W - (ri - 1)) < (10000:ℚ) ^ (W + 1) := by
        rw [hzp]
        rw [h0] at hbnd
        push_cast at hbnd
        linarith [hbnd]
      obtain ⟨ihs, ihn, ihv⟩ := ih v2r res_nd dig (ri - 1) maxdig W h1rest h2 hNN hsz hnd
        hlen' (by omega) hbnd'
      refine ⟨by rw [hstep2]; exact ihs, by rw [hstep2]; exact ihn, ?_⟩
      rw [hstep2, ihv, hzp, h0]
      simp only [rlistval]
      push_cast
      ring
    case neg =>
      by_cases hswp : maxdig + v1d > Int.tdiv INT_MAX (NBASE - 1)
      case neg =>
        have hstep2 : mul_main v2r res_nd (v1d :: rest) dig ri maxdig =
            mul_main v2r res_nd rest (mul_add_row dig v1d v2r ri) (ri - 1) (maxdig + v1d) := by
          rw [hstep, if_neg h0, if_neg hswp]
        obtain ⟨hrs, hrn, hrv⟩ := mul_add_row_spec v2r dig v1d ri W h1d h2 hNN
          (by rw [List.length_cons] at hlen; push_cast at hlen ⊢; omega)
          (by rw [hsz]; exact hri)
        have hbnd'' : absval (mul_add_row dig v1d v2r ri).toList W +
            rlistval rest * rlistval v2r * (10000:ℚ) ^ (W - (ri - 1)) <
            (10000:ℚ) ^ (W + 1) := by
          rw [hrv, hzp]
          linarith [hbnd]
        obtain ⟨ihs, ihn, ihv⟩ := ih v2r res_nd (mul_add_row dig v1d v2r ri) (ri - 1)
          (maxdig + v1d) W h1rest h2 hrn (by rw [hrs, hsz]) hnd hlen' (by omega) hbnd''
        refine ⟨by rw [hstep2]; exact ihs, by rw [hstep2]; exact ihn, ?_⟩
        rw [hstep2, ihv, hrv, hzp]
        simp only [rlistval]
        ring
      case pos =>
        have hstep2 : mul_main v2r res_nd (v1d :: rest) dig ri maxdig =
            mul_main v2r res_nd rest
              (mul_add_row (mul_carry_pass dig (res_nd - 1) 0) v1d v2r ri) (ri - 1)
              (1 + v1d) := by
          rw [hstep, if_neg h0, if_pos hswp]
        have hprod : 0 ≤ ((v1d:ℚ) + 10000 * rlistval rest) * rlistval v2r *
            (10000:ℚ) ^ (W - ri) := by
          have hv1q : (0:ℚ) ≤ (v1d:ℚ) := by exact_mod_cast h1d
          have := mul_nonneg (mul_nonneg (by linarith : (0:ℚ) ≤ (v1d:ℚ) + 10000 * rlistval rest)
            hrv2) (le_of_lt hpw)
          exact this
        have hbnd_c : absval dig.toList W + ((0:Int):ℚ) *
            (10000:ℚ) ^ (W - ((res_nd - 1 : Nat) : Int)) < (10000:ℚ) ^ (W + 1) := by
          push_cast
          linarith [hbnd, hprod]
        obtain ⟨hcs, hcv, hcw, hcu⟩ := mul_carry_pass_spec (res_nd - 1) dig 0 W hNN le_rfl
          (by omega) hbnd_c
        have hcv' : absval (mul_carry_pass dig (res_nd - 1) 0).toList W =
            absval dig.toList W := by
          rw [hcv]
          push_cast
          ring
        have hcNN : entriesNN (mul_carry_pass dig (res_nd - 1) 0).toList := by
          refine entriesNN_getD _ (fun p => ?_)
          rcases le_or_lt p (res_nd - 1) with hp | hp
          · exact (hcw p hp).1
          · rw [hcu p hp]
            rcases getD_mem_or_eq dig.toList p with hm | hz
            · exact hNN _ hm
            · rw [hz]
        obtain ⟨hrs, hrn, hrv⟩ := mul_add_row_spec v2r (mul_carry_pass dig (res_nd - 1) 0)
          v1d ri W h1d h2 hcNN
          (by rw [List.length_cons] at hlen; push_cast at hlen ⊢; omega)
          (by rw [hcs, hsz]; exact hri)
        have hbnd'' : absval (mul_add_row (mul_carry_pass dig (res_nd - 1) 0) v1d v2r ri).toList
            W + rlistval rest * rlistval v2r * (10000:ℚ) ^ (W - (ri - 1)) <
            (10000:ℚ) ^ (W + 1) := by
          rw [hrv, hcv', hzp]
          linarith [hbnd]
        obtain ⟨ihs, ihn, ihv⟩ := ih v2r res_nd
          (mul_add_row (mul_carry_pass dig (res_nd - 1) 0) v1d v2r ri) (ri - 1)
          (1 + v1d) W h1rest h2 hrn (by rw [hrs, hcs, hsz]) hnd hlen' (by omega) hbnd''
        refine ⟨by rw [hstep2]; exact ihs, by rw [hstep2]; exact ihn, ?_⟩
        rw [hstep2, ihv, hrv, hcv', hzp]
        simp only [rlistval]
        ring

theorem absval_lt_bound : ∀ (l : List Int) (w : Int) (M : Int), 0 < M →
    (∀ d ∈ l, d < M) →
    absval l w < (M:ℚ) * (10000:ℚ) ^ w * (10000/9999) := by
  intro l
  induction l with
  | nil =>
    intro w M hM h
    rw [absval_nil]
    have hMq : (0:ℚ) < (M:ℚ) := by exact_mod_cast hM
    have hpw : (0:ℚ) < (10000:ℚ) ^ w := zpow_pos (by norm_num) _
    positivity
  | cons d ds ih =>
    intro w M hM h
    rw [absval_cons]
    have hd : (d:ℚ) ≤ (M:ℚ) - 1 := by
      have h1 : d ≤ M - 1 := by
        have := h d (List.mem_cons_self d ds)
        omega
      have h2 : (d:ℚ) ≤ ((M - 1 : Int) : ℚ) := by exact_mod_cast h1
      push_cast at h2
      linarith
    have hih := ih (w - 1) M hM (fun x hx => h x (List.mem_cons_of_mem _ hx))
    have hpow : (0:ℚ) < (10000:ℚ) ^ (w - 1) := zpow_pos (by norm_num) _
    have hMq : (0:ℚ) < (M:ℚ) := by exact_mod_cast hM
    have hzp : (10000:ℚ) ^ w = (10000:ℚ) ^ (w - 1) * 10000 := by
      rw [← zpow_add_one₀ (by norm_num : (10000:ℚ) ≠ 0)]
      congr 1
      ring
    rw [hzp]
    nlinarith [hih, hpow, hd, hMq]

theorem round_var_cases (v : numeric) (r : Int) :
    (round_var v r).sign = v.sign ∨
    ((round_var v r).digits = [] ∧ (round_var v r).sign = NUMERIC_POS ∧
     (round_var v r).weight = 0) := by
  simp only [round_var]
  split_ifs <;> simp

theorem strip_var_cases (v : numeric) :
    (strip_var v).sign = v.sign ∨
    ((strip_var v).digits = [] ∧ (strip_var v).sign = NUMERIC_POS ∧
     (strip_var v).weight = 0) := by
  simp only [strip_var]
  split_ifs <;> simp

theorem strip_leading_suffix : ∀ (l : List Int) (w : Int), (strip_leading l w).1 <:+ l
  | [], w => by simp [strip_leading]
  | d :: ds, w => by
    by_cases hd : d = 0
    · rw [show strip_leading (d :: ds) w = strip_leading ds (w - 1) from by
        simp [strip_leading, hd]]
      exact (strip_leading_suffix ds (w - 1)).trans (List.suffix_cons d ds)
    · rw [show strip_leading (d :: ds) w = (d :: ds, w) from by simp [strip_leading, hd]]

theorem strip_leading_len : ∀ (l : List Int) (w : Int),
    (strip_leading l w).2 - ((strip_leading l w).1.length : Int) = w - (l.length : Int)
  | [], w => by simp [strip_leading]
  | d :: ds, w => by
    by_cases hd : d = 0
    · rw [show strip_leading (d :: ds) w = strip_leading ds (w - 1) from by
        simp [strip_leading, hd]]
      have := strip_leading_len ds (w - 1)
      rw [List.length_cons]
      push_cast
      omega
    · rw [show strip_leading (d :: ds) w = (d :: ds, w) from by simp [strip_leading, hd]]

theorem strip_var_wf (v : numeric) (h : digitsWF v.digits) :
    wf_num (strip_var v) := by
  refine ⟨?_, ?_, ?_⟩
  · intro d hd
    simp only [strip_var] at hd
    split_ifs at hd with h1
    · simp at hd
    · have hd2 : d ∈ (strip_leading v.digits v.weight).1 :=
        (strip_trailing_initial _).subset hd
      exact h d ((strip_leading_suffix v.digits v.weight).subset hd2)
  · intro hne
    simp only [strip_var] at hne ⊢
    split_ifs at hne ⊢ with h1
    · simp at hne
    · have hne2 : strip_trailing (strip_leading v.digits v.weight).1 ≠ [] := by
        simpa [List.isEmpty_iff] using h1
      rw [strip_trailing_headD _ hne2]
      apply strip_leading_headD
      intro he
      exact hne2 (by simp [he, strip_trailing])
  · intro he
    simp only [strip_var] at he ⊢
    split_ifs at he ⊢ with h1
    · exact ⟨rfl, rfl⟩
    · exact absurd he (by simpa [List.isEmpty_iff] using h1)

theorem strip_var_shape (v : numeric)
    (hs : (v.digits.length : Int) ≤ v.weight + 1) :
    ((strip_var v).digits.length : Int) ≤ (strip_var v).weight + 1 := by
  simp only [strip_var]
  split_ifs with h1
  · simp
  · show ((strip_trailing (strip_leading v.digits v.weight).1).length : Int) ≤
      (strip_leading v.digits v.weight).2 + 1
    have h2 := strip_leading_len v.digits v.weight
    have h3 : (strip_trailing (strip_leading v.digits v.weight).1).length ≤
        (strip_leading v.digits v.weight).1.length :=
      (strip_trailing_initial _).length_le
    push_cast at h2 ⊢
    omega

theorem nval_round_strip (v : numeric) (r : Int) (hwf : digitsWF v.digits)
    (hint : ∃ z : ℤ, absval v.digits v.weight * (10:ℚ) ^ r = (z : ℚ)) :
    nval (strip_var (round_var v r)) = nval v := by
  obtain ⟨hval, hwf2, hsg⟩ := round_var_exact v r hwf hint
  have habs : absval (strip_var (round_var v r)).digits (strip_var (round_var v r)).weight =
      absval v.digits v.weight := by
    rw [strip_var_absval, hval]
  rcases strip_var_cases (round_var v r) with hs | ⟨he, hs, _⟩
  · rcases round_var_cases v r with hs2 | ⟨he2, hs2, _⟩
    · unfold nval
      rw [habs, hs, hs2]
    · have h0 : absval v.digits v.weight = 0 := by
        rw [← hval, he2, absval_nil]
      unfold nval
      rw [habs, h0]
      ring
  · have h0 : absval v.digits v.weight = 0 := by
      rw [← habs, he, absval_nil]
    unfold nval
    rw [habs, h0]
    ring

theorem rlistval_int : ∀ l : List Int, ∃ z : ℤ, rlistval l = (z : ℚ)
  | [] => ⟨0, by simp [rlistval]⟩
  | d :: ds => by
    obtain ⟨z, hz⟩ := rlistval_int ds
    refine ⟨d + 10000 * z, ?_⟩
    rw [show rlistval (d :: ds) = (d:ℚ) + 10000 * rlistval ds from rfl, hz]
    push_cast
    ring

theorem absval_int_extent (l : List Int) (w r : Int) (hwf : digitsWF l)
    (hne : l ≠ []) (hlast : l.getLastD 0 ≠ 0)
    (hint : ∃ z : ℤ, absval l w * (10:ℚ) ^ r = (z : ℚ)) :
    4 * ((l.length : Int) - w - 1) ≤ r + 3 := by
  obtain ⟨z, hz⟩ := hint
  by_contra hcon
  push_neg at hcon
  have he : 4 * (w - (l.length : Int) + 1) + r ≤ -4 := by omega
  -- reversed list view: head of the reverse is the last digit
  have hrne : l.reverse ≠ [] := by simpa using hne
  obtain ⟨d0, rest, hrev⟩ := List.exists_cons_of_ne_nil hrne
  have hd0 : d0 = l.getLastD 0 := by
    rw [List.getLastD_eq_getLast?, List.getLast?_eq_head?_reverse, hrev]
    rfl
  have hd0mem : d0 ∈ l := by
    rw [← List.mem_reverse, hrev]
    exact List.mem_cons_self _ _
  have hd0wf := hwf d0 hd0mem
  have hd0ne : d0 ≠ 0 := by rw [hd0]; exact hlast
  obtain ⟨q, hq⟩ := rlistval_int rest
  -- absval in terms of the reversed list
  have h1 : absval l w = ((d0 + 10000 * q : Int) : ℚ) * (10000:ℚ) ^ (w - (l.length:Int) + 1) := by
    rw [absval_eq_rlist, hrev, show rlistval (d0 :: rest) = (d0:ℚ) + 10000 * rlistval rest
      from rfl, hq]
    push_cast
    ring
  -- the total power of ten carried by the last digit
  have hb4 : (10000:ℚ) ^ (w - (l.length:Int) + 1) = (10:ℚ) ^ (4 * (w - (l.length:Int) + 1)) := by
    rw [show (10000:ℚ) = (10:ℚ) ^ (4:Int) from by norm_num, ← zpow_mul]
  have h2 : ((d0 + 10000 * q : Int) : ℚ) * (10:ℚ) ^ (4 * (w - (l.length:Int) + 1) + r) = (z:ℚ) := by
    rw [← hz, h1, hb4, zpow_add₀ (by norm_num : (10:ℚ) ≠ 0)]
    ring
  -- clear the negative power: d0 + 10000 q = z * 10 ^ m with m ≥ 4
  have hm : (4:Int) ≤ -(4 * (w - (l.length:Int) + 1) + r) := by omega
  have h3 : ((d0 + 10000 * q : Int) : ℚ) =
      (z:ℚ) * (10:ℚ) ^ (-(4 * (w - (l.length:Int) + 1) + r)) := by
    rw [← h2, mul_assoc, ← zpow_add₀ (by norm_num : (10:ℚ) ≠ 0),
        show 4 * (w - (l.length:Int) + 1) + r + -(4 * (w - (l.length:Int) + 1) + r) = 0
          from by ring,
        zpow_zero, mul_one]
  have h4 : ((d0 + 10000 * q : Int) : ℚ) =
      ((z * 10 ^ ((-(4 * (w - (l.length:Int) + 1) + r)).toNat) : Int) : ℚ) := by
    rw [h3]
    push_cast
    rw [← zpow_natCast (10:ℚ) ((-(4 * (w - (l.length:Int) + 1) + r)).toNat),
        Int.toNat_of_nonneg (by omega)]
  have h5 : d0 + 10000 * q = z * 10 ^ ((-(4 * (w - (l.length:Int) + 1) + r)).toNat) := by
    exact_mod_cast h4
  have hdvd : (10000:Int) ∣ d0 := by
    refine ⟨z * 10 ^ ((-(4 * (w - (l.length:Int) + 1) + r)).toNat - 4) - q, ?_⟩
    have hsplit : (10:Int) ^ ((-(4 * (w - (l.length:Int) + 1) + r)).toNat) =
        10000 * 10 ^ ((-(4 * (w - (l.length:Int) + 1) + r)).toNat - 4) := by
      rw [show (10000:Int) = 10 ^ 4 from by norm_num, ← pow_add]
      congr 1
      omega
    rw [hsplit] at h5
    linarith [h5]
  have hge := Int.le_of_dvd (by omega) hdvd
  have hB : NBASE = (10000:Int) := rfl
  omega

theorem digitsWF_of_getD (l : List Int)
    (h : ∀ p : Nat, p < l.length → 0 ≤ l.getD p 0 ∧ l.getD p 0 < NBASE) : digitsWF l := by
  induction l with
  | nil => intro x hx; simp at hx
  | cons d ds ih =>
    intro x hx
    rcases List.mem_cons.mp hx with hxd | hxm
    · rw [hxd]
      exact h 0 (by simp)
    · refine ih (fun p hp => ?_) x hxm
      have := h (p + 1) (by simpa using hp)
      rwa [List.getD_cons_succ] at this

theorem mul_var_exact (var1 var2 : numeric) (rscale : Int)
    (h1 : digitsWF var1.digits)
    (hs1 : var1.sign = NUMERIC_POS ∨ var1.sign = NUMERIC_NEG)
    (h2a : ∀ d ∈ var2.digits, 0 ≤ d) (h2b : ∀ d ∈ var2.digits, d < 20001)
    (hs2 : var2.sign = NUMERIC_POS ∨ var2.sign = NUMERIC_NEG)
    (hnosh : var1.ndigits + var2.ndigits + 1 ≤
      var1.weight + var2.weight + 2 + 1 + rscale * DEC_DIGITS + MUL_GUARD_DIGITS)
    (hint1 : ∃ z : ℤ, absval var1.digits var1.weight * (10:ℚ) ^ rscale = (z : ℚ))
    (hint2 : ∃ z : ℤ, absval var2.digits var2.weight = (z : ℚ)) :
    nval (mul_var var1 var2 rscale) = nval var1 * nval var2 ∧
    wf_num (mul_var var1 var2 rscale) ∧
    ((mul_var var1 var2 rscale).sign = NUMERIC_POS ∨
     (mul_var var1 var2 rscale).sign = NUMERIC_NEG) := by
  by_cases hz : var1.ndigits = 0 ∨ var2.ndigits = 0
  case pos =>
    have hM : mul_var var1 var2 rscale =
        { weight := 0, sign := NUMERIC_POS, dscale := rscale, digits := [] } := by
      simp only [mul_var]
      rw [if_pos hz]
    rw [hM]
    refine ⟨?_, ⟨by intro d hd; simp at hd, by intro h; simp at h, fun _ => ⟨rfl, rfl⟩⟩,
      Or.inl rfl⟩
    have hz0 : nval { weight := 0, sign := NUMERIC_POS, dscale := rscale, digits := [] } = 0 := by
      simp [nval, absval_nil]
    rw [hz0]
    rcases hz with hz | hz
    · have hd : var1.digits = [] := by
        unfold numeric.ndigits at hz
        exact_mod_cast List.length_eq_zero.mp (by exact_mod_cast hz)
      have h0 : nval var1 = 0 := by rw [nval, hd, absval_nil]; ring
      rw [h0]
      ring
    · have hd : var2.digits = [] := by
        unfold numeric.ndigits at hz
        exact_mod_cast List.length_eq_zero.mp (by exact_mod_cast hz)
      have h0 : nval var2 = 0 := by rw [nval, hd, absval_nil]; ring
      rw [h0]
      ring
  case neg =>
    push_neg at hz
    obtain ⟨hz1, hz2⟩ := hz
    have hcond2 : ¬(var1.ndigits + var2.ndigits + 1 >
        var1.weight + var2.weight + 2 + 1 + rscale * DEC_DIGITS + MUL_GUARD_DIGITS ∧
        var1.weight + var2.weight + 2 + 1 + rscale * DEC_DIGITS + MUL_GUARD_DIGITS < 3) :=
      fun hc => absurd hnosh (not_le.mpr hc.1)
    have hcond3 : ¬(var1.ndigits + var2.ndigits + 1 >
        var1.weight + var2.weight + 2 + 1 + rscale * DEC_DIGITS + MUL_GUARD_DIGITS) :=
      not_lt.mpr hnosh
    have hM : mul_var var1 var2 rscale = strip_var (round_var
        (⟨var1.weight + var2.weight + 2,
          if var1.sign = var2.sign then NUMERIC_POS else NUMERIC_NEG,
          0,
          (mul_carry_pass
            (mul_main (var2.digits.take (var2.ndigits).toNat).reverse
              (var1.ndigits + var2.ndigits + 1).toNat
              (var1.digits.take (var1.ndigits).toNat).reverse
              (Array.mkArray (var1.ndigits + var2.ndigits + 1).toNat 0)
              (var1.ndigits + var2.ndigits + 1 - 1) 0)
            ((var1.ndigits + var2.ndigits + 1).toNat - 1) 0).toList⟩ : numeric) rscale) := by
      simp only [mul_var]
      rw [if_neg (by tauto : ¬(var1.ndigits = 0 ∨ var2.ndigits = 0)),
          if_neg hcond2, if_neg hcond3]
    have ht1 : var1.digits.take (var1.ndigits).toNat = var1.digits := by
      rw [show (var1.ndigits).toNat = var1.digits.length from by simp [numeric.ndigits]]
      exact List.take_length var1.digits
    have ht2 : var2.digits.take (var2.ndigits).toNat = var2.digits := by
      rw [show (var2.ndigits).toNat = var2.digits.length from by simp [numeric.ndigits]]
      exact List.take_length var2.digits
    rw [ht1, ht2] at hM
    obtain ⟨core, hcore⟩ : ∃ c : numeric, (⟨var1.weight + var2.weight + 2, if var1.sign = var2.sign then NUMERIC_POS else NUMERIC_NEG, 0, (mul_carry_pass (mul_main var2.digits.reverse (var1.ndigits + var2.ndigits + 1).toNat var1.digits.reverse (Array.mkArray (var1.ndigits + var2.ndigits + 1).toNat 0) (var1.ndigits + var2.ndigits + 1 - 1) 0) ((var1.ndigits + var2.ndigits + 1).toNat - 1) 0).toList⟩ : numeric) = c := ⟨_, rfl⟩
    rw [hcore] at hM
    have hcD : core.digits = (mul_carry_pass (mul_main var2.digits.reverse (var1.ndigits + var2.ndigits + 1).toNat var1.digits.reverse (Array.mkArray (var1.ndigits + var2.ndigits + 1).toNat 0) (var1.ndigits + var2.ndigits + 1 - 1) 0) ((var1.ndigits + var2.ndigits + 1).toNat - 1) 0).toList := by
      rw [← hcore]
    have hcW : core.weight = var1.weight + var2.weight + 2 := by
      rw [← hcore]
    have hcS : core.sign = (if var1.sign = var2.sign then NUMERIC_POS else NUMERIC_NEG) := by
      rw [← hcore]
    have hn1 : (1:Int) ≤ var1.ndigits := by
      unfold numeric.ndigits at hz1 ⊢
      have h : var1.digits.length ≠ 0 := by exact_mod_cast hz1
      omega
    have hn2 : (1:Int) ≤ var2.ndigits := by
      unfold numeric.ndigits at hz2 ⊢
      have h : var2.digits.length ≠ 0 := by exact_mod_cast hz2
      omega
    have hd1NN : ∀ d ∈ var1.digits.reverse, 0 ≤ d := by
      intro d hd
      exact (h1 d (List.mem_reverse.mp hd)).1
    have hd2NN : ∀ d ∈ var2.digits.reverse, 0 ≤ d := by
      intro d hd
      exact h2a d (List.mem_reverse.mp hd)
    have ha1nn : 0 ≤ absval var1.digits var1.weight := absval_nonneg h1 _
    have ha2nn : 0 ≤ absval var2.digits var2.weight := absval_nonneg_of_NN h2a _
    have ha1lt : absval var1.digits var1.weight <
        ((10000:Int):ℚ) * (10000:ℚ) ^ var1.weight * (10000/9999) :=
      absval_lt_bound var1.digits var1.weight 10000 (by norm_num)
        (fun d hd => by have := (h1 d hd).2; have hB : NBASE = (10000:Int) := rfl; omega)
    have ha2lt : absval var2.digits var2.weight <
        ((20001:Int):ℚ) * (10000:ℚ) ^ var2.weight * (10000/9999) :=
      absval_lt_bound var2.digits var2.weight 20001 (by norm_num) h2b
    have hP1 : (0:ℚ) < (10000:ℚ) ^ var1.weight := zpow_pos (by norm_num) _
    have hP2 : (0:ℚ) < (10000:ℚ) ^ var2.weight := zpow_pos (by norm_num) _
    have hcap : absval var1.digits var1.weight * absval var2.digits var2.weight <
        (10000:ℚ) ^ (var1.weight + var2.weight + 2 + 1) := by
      have hsplit : (10000:ℚ) ^ (var1.weight + var2.weight + 2 + 1) =
          (10000:ℚ) ^ var1.weight * (10000:ℚ) ^ var2.weight * (10000:ℚ) ^ (3:Int) := by
        rw [← zpow_add₀ (by norm_num : (10000:ℚ) ≠ 0),
            ← zpow_add₀ (by norm_num : (10000:ℚ) ≠ 0)]
        congr 1
        ring
      have hml : absval var1.digits var1.weight * absval var2.digits var2.weight <
          (((10000:Int):ℚ) * (10000:ℚ) ^ var1.weight * (10000/9999)) *
          (((20001:Int):ℚ) * (10000:ℚ) ^ var2.weight * (10000/9999)) :=
        mul_lt_mul'' ha1lt ha2lt ha1nn ha2nn
      rw [hsplit, show (10000:ℚ) ^ (3:Int) = 1000000000000 from by norm_num]
      push_cast at hml
      nlinarith [mul_pos hP1 hP2, hml]
    have hkey : rlistval var1.digits.reverse * rlistval var2.digits.reverse *
        (10000:ℚ) ^ (var1.weight + var2.weight + 2 - (var1.ndigits + var2.ndigits + 1 - 1)) =
        absval var1.digits var1.weight * absval var2.digits var2.weight := by
      rw [absval_eq_rlist var1.digits, absval_eq_rlist var2.digits]
      have hE : (10000:ℚ) ^ (var1.weight + var2.weight + 2 -
            (var1.ndigits + var2.ndigits + 1 - 1)) =
          (10000:ℚ) ^ (var1.weight - (var1.digits.length:Int) + 1) *
          (10000:ℚ) ^ (var2.weight - (var2.digits.length:Int) + 1) := by
        rw [← zpow_add₀ (by norm_num : (10000:ℚ) ≠ 0)]
        congr 1
        unfold numeric.ndigits
        push_cast
        ring
      rw [hE]
      ring
    have hdig0 : (Array.mkArray (var1.ndigits + var2.ndigits + 1).toNat 0).toList =
        List.replicate (var1.ndigits + var2.ndigits + 1).toNat (0:Int) :=
      Array.toList_mkArray _ _
    have hdig0NN : entriesNN (Array.mkArray (var1.ndigits + var2.ndigits + 1).toNat 0).toList := by
      rw [hdig0]
      intro d hd
      rw [List.eq_of_mem_replicate hd]
    have hdig0val : absval (Array.mkArray (var1.ndigits + var2.ndigits + 1).toNat 0).toList
        (var1.weight + var2.weight + 2) = 0 := by
      rw [hdig0]
      exact absval_all_zero _ _ (fun d hd => List.eq_of_mem_replicate hd)
    have hlen1 : (var1.digits.reverse.length : Int) = var1.ndigits := by
      unfold numeric.ndigits
      rw [List.length_reverse]
    have hlen2 : (var2.digits.reverse.length : Int) = var2.ndigits := by
      unfold numeric.ndigits
      rw [List.length_reverse]
    obtain ⟨hms, hmn, hmv⟩ := mul_main_spec var1.digits.reverse var2.digits.reverse
      (var1.ndigits + var2.ndigits + 1).toNat
      (Array.mkArray (var1.ndigits + var2.ndigits + 1).toNat 0)
      (var1.ndigits + var2.ndigits + 1 - 1) 0 (var1.weight + var2.weight + 2)
      hd1NN hd2NN hdig0NN (by simp) (by omega)
      (by rw [hlen1, hlen2]; omega) (by omega)
      (by rw [hdig0val, hkey]; simpa using hcap)
    rw [hdig0val, hkey] at hmv
    obtain ⟨hcs, hcv, hcw, hcu⟩ := mul_carry_pass_spec
      ((var1.ndigits + var2.ndigits + 1).toNat - 1)
      (mul_main var2.digits.reverse (var1.ndigits + var2.ndigits + 1).toNat
        var1.digits.reverse (Array.mkArray (var1.ndigits + var2.ndigits + 1).toNat 0)
        (var1.ndigits + var2.ndigits + 1 - 1) 0)
      0 (var1.weight + var2.weight + 2) hmn le_rfl
      (by rw [hms]; omega)
      (by
        rw [hmv]
        push_cast
        simpa using hcap)
    have habsc : absval core.digits core.weight =
        absval var1.digits var1.weight * absval var2.digits var2.weight := by
      rw [hcD, hcW, hcv, hmv]
      push_cast
      ring
    have hwfc : digitsWF core.digits := by
      rw [hcD]
      refine digitsWF_of_getD _ (fun p hp => ?_)
      refine hcw p ?_
      rw [Array.length_toList, hcs, hms] at hp
      simp at hp
      omega
    obtain ⟨z1, hz1i⟩ := hint1
    obtain ⟨z2, hz2i⟩ := hint2
    have hintc : ∃ z : ℤ, absval core.digits core.weight * (10:ℚ) ^ rscale = (z : ℚ) := by
      refine ⟨z1 * z2, ?_⟩
      rw [habsc, hz2i,
          show absval var1.digits var1.weight * (z2:ℚ) * (10:ℚ) ^ rscale =
            absval var1.digits var1.weight * (10:ℚ) ^ rscale * (z2:ℚ) from by ring,
          hz1i]
      push_cast
      ring
    refine ⟨?_, ?_, ?_⟩
    · rw [hM, nval_round_strip core rscale hwfc hintc]
      unfold nval
      rw [habsc, hcS]
      rcases hs1 with e1 | e1 <;> rcases hs2 with e2 | e2 <;>
        rw [e1, e2] <;> norm_num [NUMERIC_POS, NUMERIC_NEG] <;> ring
    · rw [hM]
      exact strip_var_wf _ (round_var_exact core rscale hwfc hintc).2.1
    · rw [hM]
      rcases strip_var_cases (round_var core rscale) with hss | ⟨_, hss, _⟩
      · rw [hss]
        rcases round_var_cases core rscale with hrr | ⟨_, hrr, _⟩
        · rw [hrr, hcS]
          split_ifs <;> simp
        · rw [hrr]
          exact Or.inl rfl
      · rw [hss]
        exact Or.inl rfl

theorem aget_aset_eq (a : Array Int) (i v : Int) (h0 : 0 ≤ i) (h : i < (a.size : Int)) :
    aget (aset a i v) i = v := by
  rw [aget_toList]
  unfold digAt
  rw [if_neg (by omega), aset_toList a i v h0]
  exact getD_set_eq _ _ _ (by rw [Array.length_toList]; omega)

theorem aget_aset_ne (a : Array Int) (i v j : Int) (hne : i ≠ j) :
    aget (aset a i v) j = aget a j := by
  by_cases hi0 : i < 0
  · unfold aset
    rw [if_pos hi0]
  · push_neg at hi0
    by_cases hj : j < 0
    · unfold aget
      rw [if_pos hj, if_pos hj]
    · push_neg at hj
      rw [aget_toList, aget_toList]
      unfold digAt
      rw [if_neg (by omega), if_neg (by omega), aset_toList a i v hi0]
      exact getD_set_ne _ _ _ _ (by omega)

/-- Entry invariant of the `div_var` work arrays: every (guarded) read is a
digit in `[0, NBASE)`. -/
def arrOK (a : Array Int) : Prop :=
  ∀ i : Int, 0 ≤ aget a i ∧ aget a i < NBASE

theorem arrOK_aset {a : Array Int} (h : arrOK a) {i v : Int} (hv : 0 ≤ v) (hvB : v < NBASE) :
    arrOK (aset a i v) := by
  intro j
  by_cases hi0 : i < 0
  · unfold aset
    rw [if_pos hi0]
    exact h j
  · push_neg at hi0
    by_cases hij : i = j
    · subst hij
      rw [aget_toList]
      unfold digAt
      rw [if_neg (by omega), aset_toList a i v hi0]
      by_cases hlen : i.toNat < a.toList.length
      · rw [getD_set_eq _ _ _ hlen]
        exact ⟨hv, hvB⟩
      · rw [List.set_eq_of_length_le (by omega), List.getD_eq_default _ _ (by omega)]
        refine ⟨le_refl 0, ?_⟩
        rw [show NBASE = (10000:Int) from rfl]
        norm_num
    · rw [aget_aset_ne a i v j hij]
      exact h j

theorem div_single_loop_range : ∀ (k : Nat) (div1 : Int) (dividend : Array Int) (i carry : Int),
    0 < div1 → div1 < NBASE → 0 ≤ carry → carry < div1 → arrOK dividend →
    ∀ d ∈ div_single_loop div1 dividend k i carry, 0 ≤ d ∧ d < NBASE := by
  intro k
  induction k with
  | zero =>
    intro div1 dividend i carry _ _ _ _ _ d hd
    simp [div_single_loop] at hd
  | succ m ih =>
    intro div1 dividend i carry hdp hdB hc0 hcd hok d hd
    have hB : NBASE = (10000:Int) := rfl
    have hgd := hok (i + 1)
    have hcnn : 0 ≤ carry * NBASE + aget dividend (i + 1) := by
      have : 0 ≤ carry * NBASE := mul_nonneg hc0 (by rw [hB]; norm_num)
      omega
    have hclt : carry * NBASE + aget dividend (i + 1) < div1 * NBASE := by
      have h1 : carry * NBASE ≤ (div1 - 1) * NBASE := by
        apply mul_le_mul_of_nonneg_right (by omega)
        rw [hB]; norm_num
      nlinarith [hgd.2, h1]
    have hstep : div_single_loop div1 dividend (m + 1) i carry =
        Int.tdiv (carry * NBASE + aget dividend (i + 1)) div1 ::
          div_single_loop div1 dividend m (i + 1)
            (Int.tmod (carry * NBASE + aget dividend (i + 1)) div1) := rfl
    rw [hstep] at hd
    rcases List.mem_cons.mp hd with hd | hd
    · rw [hd, Int.tdiv_eq_ediv hcnn (by omega)]
      constructor
      · exact Int.ediv_nonneg hcnn (by omega)
      · rw [Int.ediv_lt_iff_lt_mul (by omega)]
        linarith [hclt]
    · refine ih div1 dividend (i + 1) _ hdp hdB ?_ ?_ hok d hd
      · rw [Int.tmod_eq_emod hcnn (by omega)]
        exact Int.emod_nonneg _ (by omega)
      · rw [Int.tmod_eq_emod hcnn (by omega)]
        exact Int.emod_lt_of_pos _ (by omega)

theorem norm_d_facts (v : Int) (h1 : 1 ≤ v) (h2 : v < HALF_NBASE) :
    0 < Int.tdiv NBASE (v + 1) ∧ (v + 1) * Int.tdiv NBASE (v + 1) ≤ NBASE ∧
    5000 ≤ v * Int.tdiv NBASE (v + 1) := by
  have hB : NBASE = (10000:Int) := rfl
  have hH : HALF_NBASE = (5000:Int) := rfl
  have hv1 : (0:Int) < v + 1 := by omega
  have htd : Int.tdiv NBASE (v + 1) = NBASE / (v + 1) :=
    Int.tdiv_eq_ediv (by rw [hB]; norm_num) (by omega)
  have hdm := Int.ediv_add_emod NBASE (v + 1)
  have hmod := Int.emod_lt_of_pos NBASE hv1
  have hmod0 := Int.emod_nonneg NBASE (by omega : v + 1 ≠ 0)
  rw [htd]
  have hdpos : 0 < NBASE / (v + 1) := by
    by_contra hle
    push_neg at hle
    have hnp : (v + 1) * (NBASE / (v + 1)) ≤ 0 :=
      mul_nonpos_of_nonneg_of_nonpos (by omega) hle
    rw [hB] at hnp hdm hmod
    rw [hH] at h2
    linarith
  have hle : (v + 1) * (NBASE / (v + 1)) ≤ NBASE := by omega
  refine ⟨hdpos, hle, ?_⟩
  rcases eq_or_lt_of_le h1 with hv1e | hv2
  · rw [← hv1e]
    rw [show ((1:Int) + 1) = 2 from by norm_num, hB]
    norm_num
  · by_cases hv49 : v = 4999
    · subst hv49
      rw [hB]
      norm_num
    · have hvlo : 2 ≤ v := hv2
      have hvhi : v ≤ 4998 := by rw [hH] at h2; omega
      have hlow : NBASE - v ≤ (v + 1) * (NBASE / (v + 1)) := by omega
      have hquad : 5000 * (v + 1) ≤ v * (NBASE - v) := by
        rw [hB]
        nlinarith [mul_nonneg (by omega : (0:Int) ≤ v - 2) (by omega : (0:Int) ≤ 4998 - v)]
      have hmul : v * (NBASE - v) ≤ (v + 1) * (v * (NBASE / (v + 1))) := by
        have h := mul_le_mul_of_nonneg_left hlow (by omega : (0:Int) ≤ v)
        nlinarith [h]
      nlinarith [hmul, hquad, hv1]

theorem div_scale_divisor_facts : ∀ (n : Nat) (arr : Array Int) (d carry : Int),
    0 < d → 0 ≤ carry → carry < d → arrOK arr →
    arrOK (div_scale_divisor arr d n carry) ∧
    aget (div_scale_divisor arr d n carry) 0 = aget arr 0 ∧
    (1 ≤ n → ((n : Nat) : Int) < (arr.size : Int) → (aget arr 1 + 1) * d ≤ NBASE →
      aget arr 1 * d ≤ aget (div_scale_divisor arr d n carry) 1) := by
  intro n
  induction n with
  | zero =>
    intro arr d carry _ _ _ hok
    exact ⟨hok, rfl, by omega⟩
  | succ m ih =>
    intro arr d carry hd0 hc0 hcd hok
    have hB : NBASE = (10000:Int) := rfl
    have hread := hok ((m:Int) + 1)
    have hcnn : 0 ≤ carry + aget arr ((m:Int) + 1) * d := by
      have := mul_nonneg hread.1 (by omega : (0:Int) ≤ d)
      omega
    have hclt : carry + aget arr ((m:Int) + 1) * d < d * NBASE := by
      have h1 : aget arr ((m:Int) + 1) * d ≤ (NBASE - 1) * d :=
        mul_le_mul_of_nonneg_right (by omega) (by omega)
      nlinarith [h1]
    have hwr : 0 ≤ Int.tmod (carry + aget arr ((m:Int) + 1) * d) NBASE ∧
        Int.tmod (carry + aget arr ((m:Int) + 1) * d) NBASE < NBASE := by
      rw [Int.tmod_eq_emod hcnn (by omega)]
      exact ⟨Int.emod_nonneg _ (by omega), Int.emod_lt_of_pos _ (by omega)⟩
    have hcar : 0 ≤ Int.tdiv (carry + aget arr ((m:Int) + 1) * d) NBASE ∧
        Int.tdiv (carry + aget arr ((m:Int) + 1) * d) NBASE < d := by
      rw [Int.tdiv_eq_ediv hcnn (by omega)]
      refine ⟨Int.ediv_nonneg hcnn (by omega), ?_⟩
      rw [Int.ediv_lt_iff_lt_mul (by omega)]
      linarith [hclt]
    have hstep : div_scale_divisor arr d (m + 1) carry =
        div_scale_divisor
          (aset arr ((m:Int) + 1) (Int.tmod (carry + aget arr ((m:Int) + 1) * d) NBASE)) d m
          (Int.tdiv (carry + aget arr ((m:Int) + 1) * d) NBASE) := rfl
    have hokA : arrOK (aset arr ((m:Int) + 1)
        (Int.tmod (carry + aget arr ((m:Int) + 1) * d) NBASE)) :=
      arrOK_aset hok hwr.1 hwr.2
    obtain ⟨ih1, ih2, ih3⟩ := ih
      (aset arr ((m:Int) + 1) (Int.tmod (carry + aget arr ((m:Int) + 1) * d) NBASE)) d
      (Int.tdiv (carry + aget arr ((m:Int) + 1) * d) NBASE) hd0 hcar.1 hcar.2 hokA
    refine ⟨by rw [hstep]; exact ih1, ?_, ?_⟩
    · rw [hstep, ih2, aget_aset_ne _ _ _ _ (by push_cast; omega)]
    · intro hn hsz hbd
      rcases Nat.eq_zero_or_pos m with hm0 | hmpos
      · subst hm0
        have hid : ((0:Nat):Int) + 1 = (1:Int) := by norm_num
        rw [hid] at hstep hcnn
        rw [hstep]
        show aget arr 1 * d ≤
          aget (aset arr 1 (Int.tmod (carry + aget arr 1 * d) NBASE)) 1
        have hsz1 : (1:Int) < (arr.size : Int) := by push_cast at hsz; omega
        rw [aget_aset_eq arr 1 _ (by norm_num) hsz1]
        have hclt2 : carry + aget arr 1 * d < NBASE := by nlinarith [hbd, hcd]
        rw [Int.tmod_eq_emod hcnn (by omega), Int.emod_eq_of_lt hcnn hclt2]
        have := mul_nonneg (hok 1).1 (by omega : (0:Int) ≤ d)
        omega
      · have hA1 : aget (aset arr ((m:Int) + 1)
            (Int.tmod (carry + aget arr ((m:Int) + 1) * d) NBASE)) 1 = aget arr 1 :=
          aget_aset_ne _ _ _ _ (by push_cast; omega)
        rw [hstep]
        have hszA := aset_size arr ((m:Int) + 1)
          (Int.tmod (carry + aget arr ((m:Int) + 1) * d) NBASE) (by push_cast; omega)
        have h3 := ih3 (by omega) (by rw [hszA]; push_cast at hsz ⊢; omega)
          (by rw [hA1]; exact hbd)
        rw [hA1] at h3
        exact h3

theorem div_scale_dividend_ok : ∀ (n : Nat) (arr : Array Int) (d carry : Int),
    0 ≤ d → 0 ≤ carry → arrOK arr →
    arrOK (div_scale_dividend arr d n carry) := by
  intro n
  induction n with
  | zero =>
    intro arr d carry hd0 hc0 hok
    have hB : NBASE = (10000:Int) := rfl
    have hcnn : 0 ≤ carry + aget arr 0 * d := by
      have := mul_nonneg (hok 0).1 hd0
      omega
    have hstep : div_scale_dividend arr d 0 carry =
        aset arr 0 (Int.tmod (carry + aget arr 0 * d) NBASE) := rfl
    rw [hstep]
    refine arrOK_aset hok ?_ ?_
    · rw [Int.tmod_eq_emod hcnn (by omega)]
      exact Int.emod_nonneg _ (by omega)
    · rw [Int.tmod_eq_emod hcnn (by omega)]
      exact Int.emod_lt_of_pos _ (by omega)
  | succ m ih =>
    intro arr d carry hd0 hc0 hok
    have hB : NBASE = (10000:Int) := rfl
    have hcnn : 0 ≤ carry + aget arr ((m:Int) + 1) * d := by
      have := mul_nonneg (hok ((m:Int) + 1)).1 hd0
      omega
    have hstep : div_scale_dividend arr d (m + 1) carry =
        div_scale_dividend
          (aset arr ((m:Int) + 1) (Int.tmod (carry + aget arr ((m:Int) + 1) * d) NBASE)) d m
          (Int.tdiv (carry + aget arr ((m:Int) + 1) * d) NBASE) := rfl
    rw [hstep]
    refine ih _ d _ hd0 ?_ (arrOK_aset hok ?_ ?_)
    · rw [Int.tdiv_eq_ediv hcnn (by omega)]
      exact Int.ediv_nonneg hcnn (by omega)
    · rw [Int.tmod_eq_emod hcnn (by omega)]
      exact Int.emod_nonneg _ (by omega)
    · rw [Int.tmod_eq_emod hcnn (by omega)]
      exact Int.emod_lt_of_pos _ (by omega)

theorem qhat_adjust_range : ∀ (fuel : Nat) (div1 div2 next2 d3 qhat : Int),
    0 ≤ div2 → 0 ≤ next2 → 0 ≤ d3 → 0 ≤ qhat →
    0 ≤ qhat_adjust div1 div2 next2 d3 fuel qhat ∧
    qhat_adjust div1 div2 next2 d3 fuel qhat ≤ qhat := by
  intro fuel
  induction fuel with
  | zero =>
    intro div1 div2 next2 d3 qhat _ _ _ hq
    exact ⟨hq, le_refl _⟩
  | succ m ih =>
    intro div1 div2 next2 d3 qhat h2 hn hd3 hq
    have hB : NBASE = (10000:Int) := rfl
    have hstep : qhat_adjust div1 div2 next2 d3 (m + 1) qhat =
        if div2 * qhat > (next2 - qhat * div1) * NBASE + d3 then
          qhat_adjust div1 div2 next2 d3 m (qhat - 1)
        else qhat := rfl
    by_cases hc : div2 * qhat > (next2 - qhat * div1) * NBASE + d3
    · rw [hstep, if_pos hc]
      have hq1 : 1 ≤ qhat := by
        by_contra hq0
        push_neg at hq0
        have hqz : qhat = 0 := by omega
        rw [hqz] at hc
        have : (0:Int) ≤ next2 * NBASE + d3 := by
          have := mul_nonneg hn (by omega : (0:Int) ≤ NBASE)
          omega
        nlinarith [hc]
      obtain ⟨ha, hb⟩ := ih div1 div2 next2 d3 (qhat - 1) h2 hn hd3 (by omega)
      exact ⟨ha, by omega⟩
    · rw [hstep, if_neg hc]
      exact ⟨hq, le_refl _⟩

theorem div_mulsub_ok : ∀ (n : Nat) (divisor : Array Int) (qhat j : Int)
    (dividend : Array Int) (carry borrow : Int),
    0 ≤ qhat → 0 ≤ carry → (borrow = 0 ∨ borrow = -1) →
    arrOK divisor → arrOK dividend →
    arrOK (div_mulsub divisor qhat j n dividend carry borrow).1 ∧
    ((div_mulsub divisor qhat j n dividend carry borrow).2 = 0 ∨
     (div_mulsub divisor qhat j n dividend carry borrow).2 = -1) := by
  intro n
  induction n with
  | zero =>
    intro divisor qhat j dividend carry borrow hq hc hb hokv hokd
    have hB : NBASE = (10000:Int) := rfl
    have hcnn : 0 ≤ carry + aget divisor 0 * qhat :=
      add_nonneg hc (mul_nonneg (hokv 0).1 hq)
    have hmod : 0 ≤ Int.tmod (carry + aget divisor 0 * qhat) NBASE ∧
        Int.tmod (carry + aget divisor 0 * qhat) NBASE < NBASE := by
      rw [Int.tmod_eq_emod hcnn (by omega)]
      exact ⟨Int.emod_nonneg _ (by omega), Int.emod_lt_of_pos _ (by omega)⟩
    have hdj := hokd j
    have hstep : div_mulsub divisor qhat j 0 dividend carry borrow =
        if borrow - Int.tmod (carry + aget divisor 0 * qhat) NBASE + aget dividend j < 0 then
          (aset dividend j
            (borrow - Int.tmod (carry + aget divisor 0 * qhat) NBASE + aget dividend j + NBASE),
           -1)
        else
          (aset dividend j
            (borrow - Int.tmod (carry + aget divisor 0 * qhat) NBASE + aget dividend j), 0) := rfl
    by_cases hbn : borrow - Int.tmod (carry + aget divisor 0 * qhat) NBASE + aget dividend j < 0
    · rw [hstep, if_pos hbn]
      refine ⟨arrOK_aset hokd (by omega) (by omega), Or.inr rfl⟩
    · rw [hstep, if_neg hbn]
      refine ⟨arrOK_aset hokd (by omega) (by omega), Or.inl rfl⟩
  | succ m ih =>
    intro divisor qhat j dividend carry borrow hq hc hb hokv hokd
    have hB : NBASE = (10000:Int) := rfl
    have hcnn : 0 ≤ carry + aget divisor ((m:Int) + 1) * qhat :=
      add_nonneg hc (mul_nonneg (hokv ((m:Int) + 1)).1 hq)
    have hmod : 0 ≤ Int.tmod (carry + aget divisor ((m:Int) + 1) * qhat) NBASE ∧
        Int.tmod (carry + aget divisor ((m:Int) + 1) * qhat) NBASE < NBASE := by
      rw [Int.tmod_eq_emod hcnn (by omega)]
      exact ⟨Int.emod_nonneg _ (by omega), Int.emod_lt_of_pos _ (by omega)⟩
    have hcar : 0 ≤ Int.tdiv (carry + aget divisor ((m:Int) + 1) * qhat) NBASE := by
      rw [Int.tdiv_eq_ediv hcnn (by omega)]
      exact Int.ediv_nonneg hcnn (by omega)
    have hdj := hokd (j + ((m:Int) + 1))
    have hstep : div_mulsub divisor qhat j (m + 1) dividend carry borrow =
        if borrow - Int.tmod (carry + aget divisor ((m:Int) + 1) * qhat) NBASE +
            aget dividend (j + ((m:Int) + 1)) < 0 then
          div_mulsub divisor qhat j m
            (aset dividend (j + ((m:Int) + 1))
              (borrow - Int.tmod (carry + aget divisor ((m:Int) + 1) * qhat) NBASE +
                aget dividend (j + ((m:Int) + 1)) + NBASE))
            (Int.tdiv (carry + aget divisor ((m:Int) + 1) * qhat) NBASE) (-1)
        else
          div_mulsub divisor qhat j m
            (aset dividend (j + ((m:Int) + 1))
              (borrow - Int.tmod (carry + aget divisor ((m:Int) + 1) * qhat) NBASE +
                aget dividend (j + ((m:Int) + 1))))
            (Int.tdiv (carry + aget divisor ((m:Int) + 1) * qhat) NBASE) 0 := rfl
    by_cases hbn : borrow - Int.tmod (carry + aget divisor ((m:Int) + 1) * qhat) NBASE +
        aget dividend (j + ((m:Int) + 1)) < 0
    · rw [hstep, if_pos hbn]
      exact ih divisor qhat j _ _ _ hq hcar (Or.inr rfl) hokv
        (arrOK_aset hokd (by omega) (by omega))
    · rw [hstep, if_neg hbn]
      exact ih divisor qhat j _ _ _ hq hcar (Or.inl rfl) hokv
        (arrOK_aset hokd (by omega) (by omega))

theorem div_addback_ok : ∀ (n : Nat) (divisor : Array Int) (j : Int)
    (dividend : Array Int) (carry : Int),
    (carry = 0 ∨ carry = 1) → arrOK divisor → arrOK dividend →
    arrOK (div_addback divisor j n dividend carry) := by
  intro n
  induction n with
  | zero =>
    intro divisor j dividend carry hcy hokv hokd
    have hB : NBASE = (10000:Int) := rfl
    have hdj := hokd j
    have hv0 := hokv 0
    have hstep : div_addback divisor j 0 dividend carry =
        if carry + aget dividend j + aget divisor 0 ≥ NBASE then
          aset dividend j (carry + aget dividend j + aget divisor 0 - NBASE)
        else aset dividend j (carry + aget dividend j + aget divisor 0) := rfl
    by_cases hge : carry + aget dividend j + aget divisor 0 ≥ NBASE
    · rw [hstep, if_pos hge]
      exact arrOK_aset hokd (by omega) (by omega)
    · rw [hstep, if_neg hge]
      exact arrOK_aset hokd (by omega) (by omega)
  | succ m ih =>
    intro divisor j dividend carry hcy hokv hokd
    have hB : NBASE = (10000:Int) := rfl
    have hdj := hokd (j + ((m:Int) + 1))
    have hvm := hokv ((m:Int) + 1)
    have hstep : div_addback divisor j (m + 1) dividend carry =
        if carry + aget dividend (j + ((m:Int) + 1)) + aget divisor ((m:Int) + 1) ≥ NBASE then
          div_addback divisor j m
            (aset dividend (j + ((m:Int) + 1))
              (carry + aget dividend (j + ((m:Int) + 1)) + aget divisor ((m:Int) + 1) - NBASE)) 1
        else
          div_addback divisor j m
            (aset dividend (j + ((m:Int) + 1))
              (carry + aget dividend (j + ((m:Int) + 1)) + aget divisor ((m:Int) + 1))) 0 := rfl
    by_cases hge : carry + aget dividend (j + ((m:Int) + 1)) + aget divisor ((m:Int) + 1) ≥ NBASE
    · rw [hstep, if_pos hge]
      exact ih divisor j _ _ (Or.inr rfl) hokv (arrOK_aset hokd (by omega) (by omega))
    · rw [hstep, if_neg hge]
      exact ih divisor j _ _ (Or.inl rfl) hokv (arrOK_aset hokd (by omega) (by omega))

theorem div_main_loop_digits : ∀ (k : Nat) (divisor : Array Int) (n2 : Nat)
    (div1 div2 : Int) (j : Int) (dividend : Array Int),
    arrOK divisor → arrOK dividend → 5000 ≤ div1 → 0 ≤ div2 →
    ∀ d ∈ div_main_loop divisor n2 div1 div2 k j dividend, 0 ≤ d ∧ d < 20001 := by
  intro k
  induction k with
  | zero =>
    intro divisor n2 div1 div2 j dividend _ _ _ _ d hd
    simp [div_main_loop] at hd
  | succ m ih =>
    intro divisor n2 div1 div2 j dividend hokv hokd h1 h2 d hd
    have hB : NBASE = (10000:Int) := rfl
    have hdj := hokd j
    have hdj1 := hokd (j + 1)
    have hdj2 := hokd (j + 2)
    have hXnn : 0 ≤ aget dividend j * NBASE + aget dividend (j + 1) := by
      have := mul_nonneg hdj.1 (by omega : (0:Int) ≤ NBASE)
      omega
    have hXlt : aget dividend j * NBASE + aget dividend (j + 1) < NBASE * NBASE := by
      have hm1 : aget dividend j * NBASE ≤ (NBASE - 1) * NBASE :=
        mul_le_mul_of_nonneg_right (by omega) (by omega)
      nlinarith [hm1]
    simp only [div_main_loop] at hd
    by_cases hz : aget dividend j * NBASE + aget dividend (j + 1) = 0
    · rw [if_pos hz] at hd
      rcases List.mem_cons.mp hd with h | h
      · rw [h]
        norm_num
      · exact ih divisor n2 div1 div2 (j + 1) dividend hokv hokd h1 h2 d h
    · rw [if_neg hz] at hd
      obtain ⟨q0, hq0def⟩ : ∃ q0, (if aget dividend j = div1 then NBASE - 1 else
          Int.tdiv (aget dividend j * NBASE + aget dividend (j + 1)) div1) = q0 := ⟨_, rfl⟩
      rw [hq0def] at hd
      have hq0r : 0 ≤ q0 ∧ q0 ≤ 19999 := by
        rw [← hq0def]
        split_ifs with he
        · omega
        · rw [Int.tdiv_eq_ediv hXnn (by omega)]
          refine ⟨Int.ediv_nonneg hXnn (by omega), ?_⟩
          have hlt : aget dividend j * NBASE + aget dividend (j + 1) < 20000 * div1 := by
            nlinarith [hXlt, h1]
          have h20 : (aget dividend j * NBASE + aget dividend (j + 1)) / div1 < 20000 :=
            (Int.ediv_lt_iff_lt_mul (by omega)).mpr (by linarith [hlt])
          omega
      obtain ⟨Q, hQdef⟩ : ∃ q, qhat_adjust div1 div2
          (aget dividend j * NBASE + aget dividend (j + 1)) (aget dividend (j + 2))
          (q0 + 1).toNat q0 = q := ⟨_, rfl⟩
      rw [hQdef] at hd
      have hQr : 0 ≤ Q ∧ Q ≤ q0 := by
        rw [← hQdef]
        exact qhat_adjust_range _ div1 div2 _ _ q0 h2 hXnn hdj2.1 hq0r.1
      by_cases hqp : Q > 0
      · rw [if_pos hqp] at hd
        obtain ⟨MS, hMS⟩ : ∃ ms, div_mulsub divisor Q j n2 dividend 0 0 = ms := ⟨_, rfl⟩
        rw [hMS] at hd
        have hmsok : arrOK MS.1 ∧ (MS.2 = 0 ∨ MS.2 = -1) := by
          rw [← hMS]
          exact div_mulsub_ok n2 divisor Q j dividend 0 0 (by omega) le_rfl (Or.inl rfl)
            hokv hokd
        by_cases hms2 : MS.2 ≠ 0
        · rw [if_pos hms2] at hd
          rcases List.mem_cons.mp hd with h | h
          · rw [show ((Q - 1, div_addback divisor j n2 MS.1 0) : Int × Array Int).1 = Q - 1
              from rfl] at h
            rw [h]
            omega
          · rw [show ((Q - 1, div_addback divisor j n2 MS.1 0) : Int × Array Int).2 =
              div_addback divisor j n2 MS.1 0 from rfl] at h
            exact ih divisor n2 div1 div2 (j + 1) _ hokv
              (div_addback_ok n2 divisor j MS.1 0 (Or.inl rfl) hokv hmsok.1) h1 h2 d h
        · rw [if_neg hms2] at hd
          rcases List.mem_cons.mp hd with h | h
          · rw [show ((Q, MS.1) : Int × Array Int).1 = Q from rfl] at h
            rw [h]
            omega
          · rw [show ((Q, MS.1) : Int × Array Int).2 = MS.1 from rfl] at h
            exact ih divisor n2 div1 div2 (j + 1) _ hokv hmsok.1 h1 h2 d h
      · rw [if_neg hqp] at hd
        rcases List.mem_cons.mp hd with h | h
        · rw [h]
          omega
        · exact ih divisor n2 div1 div2 (j + 1) dividend hokv hokd h1 h2 d h

theorem arrOK_ofList (l : List Int) (h : ∀ d ∈ l, 0 ≤ d ∧ d < NBASE) :
    arrOK l.toArray := by
  intro i
  rw [aget_toList, Array.toList_toArray]
  unfold digAt
  split_ifs
  · rw [show NBASE = (10000:Int) from rfl]
    norm_num
  · rcases getD_mem_or_eq l i.toNat with hm | hz
    · exact h _ hm
    · rw [hz, show NBASE = (10000:Int) from rfl]
      norm_num

theorem strip_var_empty (v : numeric) (h : (strip_var v).digits = []) :
    (strip_var v).sign = NUMERIC_POS ∧ (strip_var v).weight = 0 := by
  simp only [strip_var] at h ⊢
  split_ifs at h ⊢ with h1
  · exact ⟨rfl, rfl⟩
  · exact absurd h (by simpa [List.isEmpty_iff] using h1)

theorem strip_var_mem (v : numeric) (d : Int) (h : d ∈ (strip_var v).digits) :
    d ∈ v.digits := by
  simp only [strip_var] at h
  split_ifs at h with h1
  · simp at h
  · exact (strip_leading_suffix v.digits v.weight).subset ((strip_trailing_initial _).subset h)

theorem trunc0_mem (x : numeric) (d : Int) (h : d ∈ (trunc_var x 0).digits) :
    d ∈ x.digits := by
  rw [trunc_var_zero] at h
  split_ifs at h
  · simp at h
  · exact List.mem_of_mem_take h
  · exact h

theorem trunc0_shape (x : numeric) :
    ((trunc_var x 0).digits.length : Int) ≤ (trunc_var x 0).weight + 1 := by
  rw [trunc_var_zero]
  split_ifs with hw hn
  · simp
  · show ((x.digits.take (x.weight + 1).toNat).length : Int) ≤ x.weight + 1
    rw [List.length_take]
    push_cast
    omega
  · show ((x.digits.length : Nat) : Int) ≤ x.weight + 1
    unfold numeric.ndigits at hn
    omega

theorem aget_toArray (l : List Int) (i : Int) : aget l.toArray i = digAt l i := by
  rw [aget_toList, Array.toList_toArray]

theorem strip_trunc0_facts (x : numeric) :
    ((strip_var (trunc_var x 0)).sign = x.sign ∨
     (strip_var (trunc_var x 0)).sign = NUMERIC_POS) ∧
    (((strip_var (trunc_var x 0)).digits.length : Int) ≤ (strip_var (trunc_var x 0)).weight + 1) ∧
    ((strip_var (trunc_var x 0)).digits = [] →
      (strip_var (trunc_var x 0)).sign = NUMERIC_POS ∧ (strip_var (trunc_var x 0)).weight = 0) := by
  refine ⟨?_, strip_var_shape _ (trunc0_shape x), strip_var_empty _⟩
  rcases strip_var_cases (trunc_var x 0) with hs | ⟨_, hs, _⟩
  · rw [hs]
    rcases trunc_var_zero_sign x with h | h
    · exact Or.inr h
    · exact Or.inl h
  · exact Or.inr hs

theorem div_var_trunc0_output (var1 var2 T : numeric)
    (h1 : digitsWF var1.digits) (h2 : digitsWF var2.digits)
    (hok : div_var var1 var2 0 false = .ok T) :
    (∀ d ∈ T.digits, 0 ≤ d ∧ d < 20001) ∧
    (T.sign = NUMERIC_POS ∨ T.sign = NUMERIC_NEG) ∧
    ((T.digits.length : Int) ≤ T.weight + 1) ∧
    (T.digits = [] → T.sign = NUMERIC_POS ∧ T.weight = 0) := by
  have hB : NBASE = (10000:Int) := rfl
  simp only [div_var] at hok
  by_cases hg : var2.ndigits = 0 ∨ digAt var2.digits 0 = 0
  · rw [if_pos hg] at hok
    exact absurd hok (by simp)
  · rw [if_neg hg] at hok
    push_neg at hg
    obtain ⟨hgn, hgd⟩ := hg
    by_cases hz1 : var1.ndigits = 0
    · rw [if_pos hz1] at hok
      have hT := Except.ok.inj hok
      subst hT
      refine ⟨by intro d hd; simp at hd, Or.inl rfl, by simp, fun _ => ⟨rfl, rfl⟩⟩
    · rw [if_neg hz1, if_neg (Bool.false_ne_true)] at hok
      have hT := Except.ok.inj hok
      subst hT
      -- shared facts
      have hokD : ∀ k : Nat, arrOK (((0:Int) :: var1.digits ++ List.replicate k 0).toArray) := by
        intro k
        refine arrOK_ofList _ (fun d hd => ?_)
        rcases List.mem_cons.mp hd with h | h
        · rw [h, hB]
          norm_num
        · rcases List.mem_append.mp h with h | h
          · exact h1 d h
          · rw [List.eq_of_mem_replicate h, hB]
            norm_num
      have hokV0 : arrOK (((0:Int) :: var2.digits).toArray) := by
        refine arrOK_ofList _ (fun d hd => ?_)
        rcases List.mem_cons.mp hd with h | h
        · rw [h, hB]
          norm_num
        · exact h2 d h
      have hv1 : aget (((0:Int) :: var2.digits).toArray) 1 = digAt var2.digits 0 := by
        rw [aget_toArray, show (1:Int) = 0 + 1 from by norm_num,
            digAt_cons_succ _ _ 0 le_rfl]
      have hd0r := digAt_range h2 0
      have hdiv1a : 0 < aget (((0:Int) :: var2.digits).toArray) 1 := by
        rw [hv1]
        omega
      have hdiv1b : aget (((0:Int) :: var2.digits).toArray) 1 < NBASE := by
        rw [hv1]
        exact hd0r.2
      refine ⟨?_, ?_, (strip_trunc0_facts _).2.1, (strip_trunc0_facts _).2.2⟩
      · intro d hd
        have hmem := trunc0_mem _ _ (strip_var_mem _ _ hd)
        by_cases hn21 : var2.ndigits = 1
        · rw [if_pos hn21] at hmem
          obtain ⟨ha, hb⟩ := div_single_loop_range _ _ _ _ _ hdiv1a hdiv1b le_rfl hdiv1a
            (hokD _) d hmem
          rw [hB] at hb
          exact ⟨ha, by omega⟩
        · rw [if_neg hn21] at hmem
          have hnd0 : (0:Int) ≤ var2.ndigits := by
            unfold numeric.ndigits
            exact_mod_cast Nat.zero_le _
          have hnd2 : (2:Int) ≤ var2.ndigits := by omega
          by_cases hnorm : aget (((0:Int) :: var2.digits).toArray) 1 < HALF_NBASE
          · rw [if_pos hnorm] at hmem
            dsimp only at hmem
            have hnd := norm_d_facts (aget (((0:Int) :: var2.digits).toArray) 1)
              (by omega) hnorm
            obtain ⟨hsc1, hsc2, hsc3⟩ := div_scale_divisor_facts var2.ndigits.toNat
              (((0:Int) :: var2.digits).toArray)
              (Int.tdiv NBASE (aget (((0:Int) :: var2.digits).toArray) 1 + 1)) 0
              hnd.1 le_rfl hnd.1 hokV0
            have hndlen : var2.ndigits = (var2.digits.length : Int) := rfl
            have hsize : ((((0:Int) :: var2.digits).toArray).size : Int) =
                (var2.digits.length : Int) + 1 := by
              rw [Array.size_toArray]
              push_cast [List.length_cons]
              ring
            have h5000 : 5000 ≤ aget (div_scale_divisor (((0:Int) :: var2.digits).toArray)
                (Int.tdiv NBASE (aget (((0:Int) :: var2.digits).toArray) 1 + 1))
                var2.ndigits.toNat 0) 1 := by
              have hlead := hsc3 (by omega) (by rw [hsize]; omega) hnd.2.1
              linarith [hnd.2.2, hlead]
            exact div_main_loop_digits _ _ _ _ _ _ _ hsc1
              (div_scale_dividend_ok _ _ _ _ (le_of_lt hnd.1) le_rfl (hokD _)) h5000
              (hsc1 2).1 d hmem
          · rw [if_neg hnorm] at hmem
            dsimp only at hmem
            push_neg at hnorm
            have hH : HALF_NBASE = (5000:Int) := rfl
            exact div_main_loop_digits _ _ _ _ _ _ _ hokV0 (hokD _)
              (by rw [← hH]; exact hnorm) (hokV0 2).1 d hmem
      · rcases (strip_trunc0_facts _).1 with hs | hs
        · rw [hs]
          show (if var1.sign = var2.sign then NUMERIC_POS else NUMERIC_NEG) = NUMERIC_POS ∨
            (if var1.sign = var2.sign then NUMERIC_POS else NUMERIC_NEG) = NUMERIC_NEG
          split_ifs <;> simp
        · exact Or.inl hs

/-- C6: for non-NaN decimals `a` and `b` (with `b` nonzero, library-normalized:
no trailing zero digit, a non-negative display scale covering all fractional
digits), whenever `numeric_div_trunc` returns `q` and `numeric_mod` returns
`m`, the value of `m` is exactly `a - q * b`, and equivalently
`q * b + m = a` as exact rational values: `mod(a, b) = a - trunc(a/b) * b`
with the truncated quotient of `div_var(a, b, 0, false)`. -/
theorem C6_div_mod_identity (a b : numeric) (p p' : Int) (q m : numeric)
    (hna : NUMERIC_IS_NAN a = false) (hnb : NUMERIC_IS_NAN b = false)
    (hwa : wf_num a) (hwb : wf_num b)
    (hlb : b.digits ≠ [] → b.digits.getLastD 0 ≠ 0)
    (hdb : 0 ≤ b.dscale)
    (hfb : ∃ z : ℤ, absval b.digits b.weight * (10:ℚ) ^ b.dscale = (z : ℚ))
    (hq : numeric_div_trunc a b p = .ok q)
    (hm : numeric_mod a b p' = .ok m) :
    nval m = nval a - nval q * nval b ∧ nval q * nval b + nval m = nval a := by
  simp only [numeric_div_trunc, hna, hnb, Bool.or_self, Bool.false_eq_true, if_false] at hq
  simp only [numeric_mod, hna, hnb, Bool.or_self, Bool.false_eq_true, if_false] at hm
  cases hdv : div_var a b 0 false with
  | error e =>
    rw [hdv] at hq
    exact absurd hq (by simp)
  | ok T =>
    rw [hdv] at hq
    have hq' : make_result T p = .ok q := hq
    have hmv : mod_var a b = .ok (sub_var a (mul_var b T b.dscale)) := by
      unfold mod_var
      rw [hdv]
    rw [hmv] at hm
    have hm' : make_result (sub_var a (mul_var b T b.dscale)) p' = .ok m := hm
    obtain ⟨hTd, hTs, hTshape, hTempty⟩ := div_var_trunc0_output a b T hwa.1 hwb.1 hdv
    have hbnz : ¬(b.ndigits = 0 ∨ digAt b.digits 0 = 0) := by
      intro hc
      rw [(div_var_err_iff a b 0 false).2 hc] at hdv
      exact Except.noConfusion hdv
    have hbne : b.digits ≠ [] := by
      intro he
      exact (not_or.mp hbnz).1 (by simp [numeric.ndigits, he])
    have hext := absval_int_extent b.digits b.weight b.dscale hwb.1 hbne (hlb hbne) hfb
    have hnbl : b.ndigits = (b.digits.length : Int) := rfl
    have hnTl : T.ndigits = (T.digits.length : Int) := rfl
    have hnosh : b.ndigits + T.ndigits + 1 ≤
        b.weight + T.weight + 2 + 1 + b.dscale * DEC_DIGITS + MUL_GUARD_DIGITS := by
      rw [hnbl, hnTl, show DEC_DIGITS = (4:Int) from rfl, show MUL_GUARD_DIGITS = (2:Int) from rfl]
      omega
    have hint2 : ∃ z : ℤ, absval T.digits T.weight = (z : ℚ) := by
      obtain ⟨z0, hz0⟩ := absval_int_multiple T.digits T.weight
      refine ⟨z0 * 10 ^ (4 * (T.weight - T.digits.length + 1)).toNat, ?_⟩
      rw [hz0]
      push_cast
      rw [← zpow_natCast (10:ℚ), Int.toNat_of_nonneg (by omega)]
    obtain ⟨hmulv, hmulw, hmuls⟩ := mul_var_exact b T b.dscale hwb.1
      ((is_nan_false_iff b).mp hnb) (fun d hd => (hTd d hd).1) (fun d hd => (hTd d hd).2)
      hTs hnosh hfb hint2
    have hsubv := sub_var_val a (mul_var b T b.dscale) hwa.1 hwa.2.1
      ((is_nan_false_iff a).mp hna) hmulw.1 hmulw.2.1 hmuls
    have hnq : nval q = nval T := make_result_val ((is_nan_false_iff T).mpr hTs) hq'
    have hnm : nval m = nval (sub_var a (mul_var b T b.dscale)) :=
      make_result_val ((is_nan_false_iff _).mpr (sub_var_sign _ _)) hm'
    constructor
    · rw [hnm, hsubv, hmulv, hnq]
      ring
    · rw [hnm, hsubv, hmulv, hnq]
      ring

/-- Witness for C6 at `a = -1`, `b = 2`: the truncated quotient is the
canonical zero, the modulus is `-1`, and `0 * 2 + (-1) = -1`. -/
theorem C6_div_mod_identity_witness :
    numeric_div_trunc { weight := 0, sign := NUMERIC_NEG, dscale := 0, digits := [1] } { weight := 0, sign := NUMERIC_POS, dscale := 0, digits := [2] } 0 = .ok { weight := 0, sign := NUMERIC_POS, dscale := 0, digits := [] } ∧
    numeric_mod { weight := 0, sign := NUMERIC_NEG, dscale := 0, digits := [1] } { weight := 0, sign := NUMERIC_POS, dscale := 0, digits := [2] } 0 = .ok { weight := 0, sign := NUMERIC_NEG, dscale := 0, digits := [1] } ∧
    (nval { weight := 0, sign := NUMERIC_NEG, dscale := 0, digits := [1] } = nval { weight := 0, sign := NUMERIC_NEG, dscale := 0, digits := [1] } - nval { weight := 0, sign := NUMERIC_POS, dscale := 0, digits := [] } * nval { weight := 0, sign := NUMERIC_POS, dscale := 0, digits := [2] } ∧
     nval { weight := 0, sign := NUMERIC_POS, dscale := 0, digits := [] } * nval { weight := 0, sign := NUMERIC_POS, dscale := 0, digits := [2] } + nval { weight := 0, sign := NUMERIC_NEG, dscale := 0, digits := [1] } = nval { weight := 0, sign := NUMERIC_NEG, dscale := 0, digits := [1] }) := by
  refine ⟨by decide, by decide, ?_⟩
  exact C6_div_mod_identity
    { weight := 0, sign := NUMERIC_NEG, dscale := 0, digits := [1] }
    { weight := 0, sign := NUMERIC_POS, dscale := 0, digits := [2] } 0 0
    { weight := 0, sign := NUMERIC_POS, dscale := 0, digits := [] }
    { weight := 0, sign := NUMERIC_NEG, dscale := 0, digits := [1] }
    (by decide) (by decide) (by decide) (by decide) (by decide) (by decide)
    ⟨2, by norm_num [absval_cons, absval_nil]⟩ (by decide) (by decide)
